import Mathlib

/-!
PA5 Topological Sort: a shallow embedding of `graph.h`.

The header `src/graph.h` defines `Vertex<T>`, `VertexCompare<T>` and `Graph<T>`.
`src/main.cpp` instantiates `Graph<std::string>` and runs
`buildGraph`, `compute_indegree`, `topological_sort`, `print_top_sort`.

Modelling decisions.

* `std::unordered_map<T, Vertex<T>> node_set` is an association list of vertices
  keyed by `Vertex.label`; the list order stands for the (unspecified but, in the
  absence of insertions, stable) iteration order of the hash table.  Statements
  about graphs produced by `buildGraph` are made for every list that is a
  permutation of the one the model builds, so that they do not depend on the
  iteration order.
* `node_set.at(k)` throws `std::out_of_range` when `k` is absent; functions that
  call it return `Except Fault _`.
* `int indegree`, `int top_num`, `int popped_counter` are unbounded `Int`s and
  `size_t _size` is a `Nat`: the counters are bounded by the number of tokens of the
  input, so no wrap-around is modelled.
* the `while` loop of `topological_sort` is driven by a fuel counter; running out
  of fuel is the separate fault `Fault.out_of_fuel`, never confused with a result,
  and a result obtained with some fuel is the result for every larger fuel
  (`sortLoop_fuel_mono`).
* the input stream of `buildGraph` is the list of lines that successive calls of
  `getline` deliver; `getlines` computes that list from the text of a stream and
  `Graph.buildGraphStream` is `buildGraph` on such a text.
* `std::priority_queue sorted_queue` is the list of its elements in push order;
  `pqTop` returns an element of least `top_num` and `none` where C++ leaves `top()`
  on an empty queue undefined. Where several elements share the least `top_num` the
  model takes the one pushed first; the statements that meet such ties only compare
  equal vertices.
* output streams are strings: `print_top_sort` and `displayGraph` take the text
  written so far and return the text afterwards.
-/

set_option linter.unusedSectionVars false

namespace PA5

/-! ## Data model -/

/-- The ways a modelled member function can fail to return. -/
inductive Fault where
  | out_of_range
  | out_of_fuel
deriving DecidableEq, Repr

instance {ε α : Type} [DecidableEq ε] [DecidableEq α] : DecidableEq (Except ε α) :=
  fun a b =>
    match a, b with
    | .ok x, .ok y =>
      if h : x = y then isTrue (by rw [h]) else isFalse (fun e => h (by cases e; rfl))
    | .error x, .error y =>
      if h : x = y then isTrue (by rw [h]) else isFalse (fun e => h (by cases e; rfl))
    | .ok _, .error _ => isFalse (fun e => by cases e)
    | .error _, .ok _ => isFalse (fun e => by cases e)

/-- Embedding of `struct Vertex` (graph.h:30-39). -/
structure Vertex (T : Type) where
  label : T
  adj_list : List T := []
  indegree : Int := 0
  top_num : Int := 0
deriving DecidableEq, Repr

/-- Embedding of the data members of `class Graph` (graph.h:85-88). `sorted_queue` lists the
elements held by the priority queue, in the order they were pushed. -/
structure Graph (T : Type) where
  node_set : List (Vertex T) := []
  _size : Nat := 0
  sorted_queue : List (Vertex T) := []
deriving DecidableEq, Repr

section Map

variable {T : Type} [DecidableEq T]

/-- Key lookup in the association list: `node_set.find(k)`. -/
def findVertex (nodes : List (Vertex T)) (k : T) : Option (Vertex T) :=
  nodes.find? (fun v => decide (v.label = k))

/-- In-place update of the value stored under key `k` (what a write through the reference
returned by `node_set.at(k)` does). -/
def updateVertex (nodes : List (Vertex T)) (k : T) (f : Vertex T → Vertex T) : List (Vertex T) :=
  nodes.map (fun v => if v.label = k then f v else v)

/-- Embedding of `node_set.insert(make_pair(v.label, v))`: nothing happens when the key is
already present. -/
def insertVertex (nodes : List (Vertex T)) (v : Vertex T) : List (Vertex T) :=
  match findVertex nodes v.label with
  | some _ => nodes
  | none => nodes ++ [v]

/-- Embedding of `Graph::at` (graph.h:144-147): `node_set.at(label)` throws
`std::out_of_range` for an absent key. -/
def Graph.vertexAt (g : Graph T) (label : T) : Except Fault (Vertex T) :=
  match findVertex g.node_set label with
  | some v => .ok v
  | none => .error .out_of_range

/-- Embedding of `Graph::size` (graph.h:154-157). -/
def Graph.size (g : Graph T) : Int := (g._size : Int)

end Map

/-! ## buildGraph -/

/-- The whitespace characters skipped by `operator>>` (`std::isspace` in the "C" locale). -/
def isspace (c : Char) : Bool :=
  c = ' ' || c = '\t' || c = '\n' || c = '\x0b' || c = '\x0c' || c = '\r'

/-- The successive results of `buf >> data` on the characters of a line: maximal runs of
non-whitespace characters. `cur` is the token being read, reversed. -/
def extractTokens : List Char → List Char → List String
  | [], cur => if cur.isEmpty then [] else [String.mk cur.reverse]
  | c :: cs, cur =>
    if isspace c then
      (if cur.isEmpty then extractTokens cs [] else String.mk cur.reverse :: extractTokens cs [])
    else extractTokens cs (c :: cur)

/-- All tokens that `std::stringstream buf(string_line)` yields to repeated `buf >> data`. -/
def tokenize (string_line : String) : List String :=
  extractTokens string_line.toList []

/-- The body of the `while (getline ...)` loop of `buildGraph` after the emptiness test
(graph.h:109-119): the first token is the label, the remaining ones are pushed on
`adj_list`, `_size` is incremented and the vertex is handed to `insert`. -/
def buildLine (g : Graph String) (string_line : String) : Graph String :=
  match tokenize string_line with
  | [] => g
  | data :: rest =>
    let vert : Vertex String := { label := data, adj_list := rest }
    { g with _size := g._size + 1, node_set := insertVertex g.node_set vert }

/-- Embedding of `Graph::buildGraph` (graph.h:99-122) for `T = std::string`; `input` is the
list of lines delivered by `getline`. The loop ends at the first empty line. -/
def Graph.buildGraph (g : Graph String) : List String → Graph String
  | [] => g
  | string_line :: input =>
    if string_line.isEmpty then g
    else Graph.buildGraph (buildLine g string_line) input

/-! ## compute_indegree -/

section TopSort

variable {T : Type} [DecidableEq T]

/-- One execution of `node_set.at(vert).indegree++` (graph.h:226). -/
def incrIndegree (nodes : List (Vertex T)) (vert : T) : Except Fault (List (Vertex T)) :=
  match findVertex nodes vert with
  | none => .error .out_of_range
  | some _ => .ok (updateVertex nodes vert (fun v => { v with indegree := v.indegree + 1 }))

/-- The inner loop of `compute_indegree` over one adjacency list (graph.h:224-227). -/
def incrAll (nodes : List (Vertex T)) : List T → Except Fault (List (Vertex T))
  | [] => .ok nodes
  | vert :: rest =>
    match incrIndegree nodes vert with
    | .error e => .error e
    | .ok nodes1 => incrAll nodes1 rest

/-- The second outer loop of `compute_indegree` (graph.h:222-228); `todo` is the part of the
table that the iteration has not visited yet. Adjacency lists are never written, so the
lists read from `todo` are those of the table itself. -/
def incrLoop (nodes : List (Vertex T)) : List (Vertex T) → Except Fault (List (Vertex T))
  | [] => .ok nodes
  | pair :: todo =>
    match incrAll nodes pair.adj_list with
    | .error e => .error e
    | .ok nodes1 => incrLoop nodes1 todo

/-- Embedding of `Graph::compute_indegree` (graph.h:215-229). -/
def Graph.compute_indegree (g : Graph T) : Except Fault (Graph T) :=
  let reset := g.node_set.map (fun v => { v with indegree := 0 })
  match incrLoop reset reset with
  | .error e => .error e
  | .ok nodes => .ok { g with node_set := nodes }

/-! ## topological_sort -/

/-- The local and member state that the loops of `topological_sort` read and write. -/
structure SortState (T : Type) where
  node_set : List (Vertex T)
  q_of_indegree_0 : List (Vertex T)
  popped_counter : Int
  sorted_queue : List (Vertex T)
deriving DecidableEq, Repr

/-- One iteration of the `for` loop over the adjacency list (graph.h:189-195): decrement the
target through the reference returned by `at`, push a copy when the counter reads 0. -/
def relaxEdge (nodes : List (Vertex T)) (q : List (Vertex T)) (adj_vertex_label : T) :
    Except Fault (List (Vertex T) × List (Vertex T)) :=
  match findVertex nodes adj_vertex_label with
  | none => .error .out_of_range
  | some w =>
    let ref_to_vertex : Vertex T := { w with indegree := w.indegree - 1 }
    let nodes1 := updateVertex nodes adj_vertex_label (fun v => { v with indegree := v.indegree - 1 })
    if ref_to_vertex.indegree = 0 then .ok (nodes1, q ++ [ref_to_vertex]) else .ok (nodes1, q)

/-- The `for` loop over `node_set.at(v_label).adj_list` (graph.h:187-196). -/
def relaxAll (nodes : List (Vertex T)) (q : List (Vertex T)) :
    List T → Except Fault (List (Vertex T) × List (Vertex T))
  | [] => .ok (nodes, q)
  | adj_vertex_label :: rest =>
    match relaxEdge nodes q adj_vertex_label with
    | .error e => .error e
    | .ok (nodes1, q1) => relaxAll nodes1 q1 rest

/-- The body of the `while` loop for a non-empty queue with front `front` and remaining
elements `q` (graph.h:181-196). -/
def sortStep (st : SortState T) (front : Vertex T) (q : List (Vertex T)) :
    Except Fault (SortState T) :=
  let v_label := front.label
  let popped := st.popped_counter + 1
  match findVertex st.node_set v_label with
  | none => .error .out_of_range
  | some v =>
    let v1 : Vertex T := { v with top_num := popped }
    let nodes1 := updateVertex st.node_set v_label (fun x => { x with top_num := popped })
    match relaxAll nodes1 q v1.adj_list with
    | .error e => .error e
    | .ok (nodes2, q2) =>
      .ok { node_set := nodes2, q_of_indegree_0 := q2, popped_counter := popped,
            sorted_queue := st.sorted_queue ++ [v1] }

/-- The `while (!q_of_indegree_0.empty())` loop (graph.h:179-197), one unit of fuel per
iteration. -/
def sortLoop : Nat → SortState T → Except Fault (SortState T)
  | 0, _ => .error .out_of_fuel
  | fuel + 1, st =>
    match st.q_of_indegree_0 with
    | [] => .ok st
    | front :: q =>
      match sortStep st front q with
      | .error e => .error e
      | .ok st1 => sortLoop fuel st1

/-- The state at the head of the `while` loop: the queue holds a copy of every vertex whose
`indegree` reads 0, in iteration order (graph.h:168-178). -/
def sortInit (g : Graph T) : SortState T :=
  { node_set := g.node_set,
    q_of_indegree_0 := g.node_set.filter (fun vert => decide (vert.indegree = 0)),
    popped_counter := 0,
    sorted_queue := g.sorted_queue }

/-- Embedding of `Graph::topological_sort` (graph.h:166-208) with an explicit fuel: the
verdict (`true`: no cycle found) and the graph afterwards. -/
def Graph.topological_sort_fuel (fuel : Nat) (g : Graph T) : Except Fault (Bool × Graph T) :=
  match sortLoop fuel (sortInit g) with
  | .error e => .error e
  | .ok st =>
    let g1 : Graph T := { node_set := st.node_set, _size := g._size, sorted_queue := st.sorted_queue }
    if st.popped_counter ≠ (g._size : Int) then .ok (false, g1) else .ok (true, g1)

/-- Embedding of `Graph::topological_sort`: every stored vertex is dequeued at most once, so
one more unit of fuel than there are stored vertices lets the loop run to its end. -/
def Graph.topological_sort (g : Graph T) : Except Fault (Bool × Graph T) :=
  g.topological_sort_fuel (g.node_set.length + 1)

end TopSort

/-! ## Reading the input of `main` -/

/-- The graph of `main.cpp`: `Graph<std::string> graph; graph.buildGraph(input);`. -/
def mainGraph (input : List String) : Graph String :=
  Graph.buildGraph {} input

/-- The calls `graph.compute_indegree(); graph.topological_sort();` of `main.cpp`. -/
def sortAfterIndegree {T : Type} [DecidableEq T] (g : Graph T) : Except Fault (Bool × Graph T) :=
  match g.compute_indegree with
  | .error e => .error e
  | .ok g1 => g1.topological_sort

/-! ## Vocabulary of the statements -/

section Vocabulary

variable {T : Type} [DecidableEq T]

/-- The keys of the table, in iteration order. -/
def labels (nodes : List (Vertex T)) : List T :=
  nodes.map (fun v => v.label)

/-- Every adjacency target is a stored vertex. -/
def Closed (nodes : List (Vertex T)) : Prop :=
  ∀ u ∈ nodes, ∀ w ∈ u.adj_list, w ∈ labels nodes

instance (nodes : List (Vertex T)) : Decidable (Closed nodes) := by
  unfold Closed; infer_instance

/-- Number of occurrences of the label `k` over all adjacency lists of `nodes`. -/
def inCount (nodes : List (Vertex T)) (k : T) : Nat :=
  (nodes.map (fun u => u.adj_list.count k)).sum

/-- The graph has the edge `a -> b`: a stored vertex labelled `a` lists `b`. -/
def Edge (nodes : List (Vertex T)) (a b : T) : Prop :=
  ∃ u ∈ nodes, u.label = a ∧ b ∈ u.adj_list

/-- The graph contains a directed cycle: some label reaches itself along at least one edge. -/
def HasCycle (nodes : List (Vertex T)) : Prop :=
  ∃ a, Relation.TransGen (Edge nodes) a a

/-- Add `n k` to the counter of every vertex, `k` being its label. -/
def addIndegree (nodes : List (Vertex T)) (n : T → Nat) : List (Vertex T) :=
  nodes.map (fun v => { v with indegree := v.indegree + (n v.label : Int) })

/-- The part of the table that the sort never writes: keys and adjacency lists. -/
def skel (nodes : List (Vertex T)) : List (T × List T) :=
  nodes.map (fun v => (v.label, v.adj_list))

/-- Keys, adjacency lists and ranks of the table (everything but the `indegree` fields). -/
def ranked (nodes : List (Vertex T)) : List (T × List T × Int) :=
  nodes.map (fun v => (v.label, v.adj_list, v.top_num))

/-- Number of edges into `k` that leave a vertex whose label is not in `done`. -/
def pend (nodes : List (Vertex T)) (done : List T) (k : T) : Nat :=
  (nodes.map (fun u => if u.label ∈ done then 0 else u.adj_list.count k)).sum

/-- Invariant of the loops of `topological_sort` on the counters and the queue. `N0` is the
table at the call, `done` lists the labels dequeued so far and `rest` is the part of the
adjacency list of the vertex dequeued last that the `for` loop has not visited yet. -/
structure SortInv (N0 nodes q : List (Vertex T)) (done rest : List T) : Prop where
  skel_eq : skel nodes = skel N0
  indeg : ∀ w ∈ nodes, w.indegree = (pend N0 done w.label : Int) + (rest.count w.label : Int)
  queue : ∀ x ∈ q, x.label ∉ done ∧ ∃ w ∈ nodes, w.label = x.label ∧ w.indegree = 0
  qnodup : (labels q).Nodup
  dnodup : done.Nodup
  dsub : ∀ k ∈ done, k ∈ labels N0
  dzero : ∀ w ∈ nodes, w.label ∈ done → w.indegree = 0
  rsub : ∀ a ∈ rest, a ∈ labels N0
  nocyc : ∀ k ∈ done, ¬ Relation.TransGen (Edge N0) k k
  qfull : ∀ w ∈ nodes, w.label ∉ done → w.indegree = 0 → w.label ∈ labels q

/-- Invariant of the loops of `topological_sort` on the ranks: dequeued vertices carry a rank
between 1 and the counter, and an edge into a dequeued vertex leaves a vertex that was
dequeued with a smaller rank. -/
structure RankInv (rk : List (T × List T × Int)) (done : List T) (popped : Int) : Prop where
  range : ∀ u ∈ rk, u.1 ∈ done → 1 ≤ u.2.2 ∧ u.2.2 ≤ popped
  order : ∀ u ∈ rk, ∀ x ∈ rk, x.1 ∈ u.2.1 → x.1 ∈ done → u.1 ∈ done ∧ u.2.2 < x.2.2

/-- Invariant of the loops of `topological_sort` that holds whatever the counters read at
the call: a label sits at most once in `done` (the labels dequeued so far) and the queue
together, and the counter of such a label reads at most 0. -/
structure EnqInv (N0 nodes q : List (Vertex T)) (done : List T) : Prop where
  skel_eq : skel nodes = skel N0
  pnodup : (done ++ labels q).Nodup
  psub : ∀ k ∈ done ++ labels q, k ∈ labels N0
  nonpos : ∀ w ∈ nodes, w.label ∈ done ++ labels q → w.indegree ≤ 0

/-- Invariant of the loops of `topological_sort` on the ranks, whatever the counters read at
the call: the rank of a dequeued label is its position in `done`, counted from 1, and the
other vertices carry the rank they had in `rk0`. -/
structure RankPos (rk rk0 : List (T × List T × Int)) (done : List T) : Prop where
  assigned : ∀ u ∈ rk, u.1 ∈ done → u.2.2 = (done.indexOf u.1 : Int) + 1
  kept : ∀ u ∈ rk, u.1 ∉ done → u ∈ rk0

/-- A vertex with its rank forgotten. The loops of `topological_sort` write `top_num` and
never read it. -/
def noRank (v : Vertex T) : Vertex T :=
  { v with top_num := 0 }

/-- What the loop of `topological_sort` reads of its state: table and queue with the ranks
forgotten, and the counter. -/
def normState (st : SortState T) : List (Vertex T) × List (Vertex T) × Int :=
  (st.node_set.map noRank, st.q_of_indegree_0.map noRank, st.popped_counter)

/-- Table and queue with the ranks forgotten. -/
def normPair (p : List (Vertex T) × List (Vertex T)) : List (Vertex T) × List (Vertex T) :=
  (p.1.map noRank, p.2.map noRank)

end Vocabulary

/-- The graph that `main` holds after sorting the input `B C` / `A B C` / `C`. -/
def sortedBAC : Graph String :=
  { node_set := [{ label := "B", adj_list := ["C"], indegree := 0, top_num := 2 },
                 { label := "A", adj_list := ["B", "C"], indegree := 0, top_num := 1 },
                 { label := "C", adj_list := [], indegree := 0, top_num := 3 }],
    _size := 3,
    sorted_queue := [{ label := "A", adj_list := ["B", "C"], indegree := 0, top_num := 1 },
                     { label := "B", adj_list := ["C"], indegree := 0, top_num := 2 },
                     { label := "C", adj_list := [], indegree := 0, top_num := 3 }] }

/-- The graph `sortedBAC` after `compute_indegree`. -/
def countedBAC : Graph String :=
  { node_set := [{ label := "B", adj_list := ["C"], indegree := 1, top_num := 2 },
                 { label := "A", adj_list := ["B", "C"], indegree := 0, top_num := 1 },
                 { label := "C", adj_list := [], indegree := 2, top_num := 3 }],
    _size := 3,
    sorted_queue := sortedBAC.sorted_queue }

/-- The graph `sortedBAC` after a `topological_sort` that no `compute_indegree` precedes. -/
def resortedBAC : Graph String :=
  { node_set := [{ label := "B", adj_list := ["C"], indegree := -1, top_num := 1 },
                 { label := "A", adj_list := ["B", "C"], indegree := 0, top_num := 2 },
                 { label := "C", adj_list := [], indegree := -2, top_num := 3 }],
    _size := 3,
    sorted_queue := sortedBAC.sorted_queue ++
      [{ label := "B", adj_list := ["C"], indegree := 0, top_num := 1 },
       { label := "A", adj_list := ["B", "C"], indegree := 0, top_num := 2 },
       { label := "C", adj_list := [], indegree := -2, top_num := 3 }] }

/-- The vertex that the body of the loop of `buildGraph` makes of one line, read off
`buildLine`: none when the first `buf >> data` fails, otherwise the first extracted token as
label and the tokens extracted after it, in order, as adjacency. -/
def parsedVertex (string_line : String) : Option (Vertex String) :=
  match tokenize string_line with
  | [] => none
  | data :: rest => some { label := data, adj_list := rest }

/-- The lines that precede the first empty line. -/
def linesBeforeBlank (input : List String) : List String :=
  input.takeWhile (fun string_line => !string_line.isEmpty)

/-- The vertices that the loop of `buildGraph` hands to `insert`, in the order of the
lines. -/
def parsedVertices (input : List String) : List (Vertex String) :=
  (linesBeforeBlank input).filterMap parsedVertex

/-! ## print_top_sort, displayGraph and the input stream -/

section Output

variable {T : Type} [DecidableEq T]

/-- Embedding of `sorted_queue.top()`: with the comparator `VertexCompare`
(`v1.top_num > v2.top_num`, graph.h:64-72) the top of the priority queue is an element of
least `top_num`; `none` stands for `top()` on an empty queue, which C++ leaves undefined.
Among several elements of least `top_num` the choice is left to the heap; the model takes
the one pushed first. -/
def pqTop : List (Vertex T) → Option (Vertex T)
  | [] => none
  | v :: rest =>
    match pqTop rest with
    | none => some v
    | some w => if w.top_num < v.top_num then some w else some v

/-- Embedding of `sorted_queue.pop()`: the top element leaves the queue. -/
def pqPop (sq : List (Vertex T)) : List (Vertex T) :=
  match pqTop sq with
  | none => sq
  | some v => sq.erase v

/-- The labels that `n` iterations of the loop of `print_top_sort` read off the queue
(`sorted_queue.top().label` followed by `sorted_queue.pop()`), and the queue that is left. -/
def topLabels : Nat → List (Vertex T) → Option (List T × List (Vertex T))
  | 0, sq => some ([], sq)
  | n + 1, sq =>
    match pqTop sq with
    | none => none
    | some v =>
      match topLabels n (pqPop sq) with
      | none => none
      | some (ls, sq1) => some (v.label :: ls, sq1)

/-- The labels in the order in which the loop of `topological_sort` takes them from the
front of `q_of_indegree_0` (graph.h:181-182), read off the same steps as `sortLoop`. -/
def dequeued : Nat → SortState T → List T
  | 0, _ => []
  | fuel + 1, st =>
    match st.q_of_indegree_0 with
    | [] => []
    | front :: q =>
      match sortStep st front q with
      | .error _ => [front.label]
      | .ok st1 => front.label :: dequeued fuel st1

end Output

/-- The `for` loop of `print_top_sort` (graph.h:242-246) with `n` iterations to go: `os` is
the text written so far, each iteration writes the label of the top and one space. -/
def printLoop : Nat → String → List (Vertex String) → Option (String × List (Vertex String))
  | 0, os, sq => some (os, sq)
  | n + 1, os, sq =>
    match pqTop sq with
    | none => none
    | some v => printLoop n (os ++ v.label ++ " ") (pqPop sq)

/-- Embedding of `Graph::print_top_sort` (graph.h:240-251) for `T = std::string`: the text
on the stream afterwards and the graph with its drained queue. The C++ default
`addNewline = true` is passed explicitly. -/
def Graph.print_top_sort (g : Graph String) (os : String) (addNewline : Bool) :
    Option (String × Graph String) :=
  match printLoop g._size os g.sorted_queue with
  | none => none
  | some (os1, sq) =>
    some (if addNewline then os1 ++ "\n" else os1, { g with sorted_queue := sq })

/-- Embedding of `operator<<` for `Vertex` (graph.h:49-57): the label, ` :`, then every
adjacency target preceded by one space. -/
def vertexText (os : String) (v : Vertex String) : String :=
  v.adj_list.foldl (fun acc i => acc ++ " " ++ i) (os ++ v.label ++ " :")

/-- Embedding of `Graph::displayGraph` (graph.h:129-135): one line per stored vertex, in
iteration order. -/
def Graph.displayGraph (g : Graph String) (os : String) : String :=
  g.node_set.foldl (fun acc pair => vertexText acc pair ++ "\n") os

/-- The strings that successive calls of `getline` deliver on the characters of a stream:
the text up to each line feed, and a last unterminated line when it is not empty. `cur` is
the line being read, reversed. -/
def getlinesAux : List Char → List Char → List String
  | [], cur => if cur.isEmpty then [] else [String.mk cur.reverse]
  | c :: cs, cur =>
    if c = '\n' then String.mk cur.reverse :: getlinesAux cs [] else getlinesAux cs (c :: cur)

/-- The lines of an input stream, as `while (getline(input, string_line))` sees them. -/
def getlines (input : String) : List String :=
  getlinesAux input.toList []

/-- Embedding of `Graph::buildGraph` on the text of a stream. -/
def Graph.buildGraphStream (g : Graph String) (input : String) : Graph String :=
  g.buildGraph (getlines input)

/-- A string that `buf >> data` can deliver: not empty and free of whitespace. -/
def IsToken (s : String) : Prop :=
  s.toList ≠ [] ∧ ∀ c ∈ s.toList, isspace c = false

/-- The order in which a call of `topological_sort` on `g` dequeues labels. -/
def Graph.dequeueOrder {T : Type} [DecidableEq T] (g : Graph T) : List T :=
  dequeued (g.node_set.length + 1) (sortInit g)

/-- A graph with the cycle `A -> B -> A` whose counters let `A` start the sort. -/
def cycleAB : Graph String :=
  { node_set := [{ label := "A", adj_list := ["B"], indegree := 0 },
                 { label := "B", adj_list := ["A"], indegree := 1 }],
    _size := 2, sorted_queue := [] }

/-- The line that `operator<<` writes for a vertex on an empty stream. -/
def vertexLine (v : Vertex String) : String :=
  vertexText "" v

/-- The text in which every line of the list is followed by a line feed. -/
def linesText : List String → String
  | [] => ""
  | l :: ls => l ++ "\n" ++ linesText ls

/-- The characters that `operator<<` writes for an adjacency list: one space before every
target. -/
def adjChars : List String → List Char
  | [] => []
  | a :: l => ' ' :: (a.data ++ adjChars l)

/-- The vertex that `buildGraph` reads from the line that `operator<<` writes for `v`: the
token `:` comes first among the adjacency targets. -/
def reread (v : Vertex String) : Vertex String :=
  { label := v.label, adj_list := ":" :: v.adj_list }

/-- The graph that `main` holds after sorting the input `A B` / `B`. -/
def sortedAB : Graph String :=
  { node_set := [{ label := "A", adj_list := ["B"], indegree := 0, top_num := 1 },
                 { label := "B", adj_list := [], indegree := 0, top_num := 2 }],
    _size := 2,
    sorted_queue := [{ label := "A", adj_list := ["B"], indegree := 0, top_num := 1 },
                     { label := "B", adj_list := [], indegree := 0, top_num := 2 }] }

/-- The graph `sortedAB` after a second `compute_indegree` and `topological_sort`. -/
def sortedTwiceAB : Graph String :=
  { sortedAB with sorted_queue := sortedAB.sorted_queue ++ sortedAB.sorted_queue }

/-- The whitespace-separated tokens of a line, in the words of the parsing rule and without
the extraction loop of the code: split the characters of the line at every whitespace
character and keep the pieces that are not empty. -/
def whitespaceTokens (string_line : String) : List String :=
  ((string_line.toList.splitOnP isspace).filter (fun w => !w.isEmpty)).map String.mk

/-- The vertex that the parsing rule assigns to a line: none when the line has no
whitespace-separated token, otherwise the first token is the label and the remaining tokens,
in their order, are the adjacency targets. -/
def ruleVertex (string_line : String) : Option (Vertex String) :=
  match whitespaceTokens string_line with
  | [] => none
  | first :: remaining => some { label := first, adj_list := remaining }

/-- The vertices that the parsing rule assigns to an input: one per line that has a token,
among the lines that come before the first line equal to the empty string. -/
def ruleVertices (input : List String) : List (Vertex String) :=
  (input.takeWhile (fun string_line => decide (string_line ≠ ""))).filterMap ruleVertex

/-- The graph that `compute_indegree` leaves for the input `A C` / `B C` / `C D` / `D C`. -/
def countedACD : Graph String :=
  { node_set := [{ label := "A", adj_list := ["C"], indegree := 0 },
                 { label := "B", adj_list := ["C"], indegree := 0 },
                 { label := "C", adj_list := ["D"], indegree := 3 },
                 { label := "D", adj_list := ["C"], indegree := 1 }],
    _size := 4, sorted_queue := [] }

/-- The graph `countedACD` after `topological_sort` has returned false. -/
def stuckACD : Graph String :=
  { node_set := [{ label := "A", adj_list := ["C"], indegree := 0, top_num := 1 },
                 { label := "B", adj_list := ["C"], indegree := 0, top_num := 2 },
                 { label := "C", adj_list := ["D"], indegree := 1 },
                 { label := "D", adj_list := ["C"], indegree := 1 }],
    _size := 4,
    sorted_queue := [{ label := "A", adj_list := ["C"], indegree := 0, top_num := 1 },
                     { label := "B", adj_list := ["C"], indegree := 0, top_num := 2 }] }

/-- The text in which every string of the list is followed by one space. -/
def spaced : List String → String
  | [] => ""
  | l :: ls => l ++ " " ++ spaced ls

/-! ## Lemmas on the table -/

section MapLemmas

variable {T : Type} [DecidableEq T]

theorem findVertex_eq_none {nodes : List (Vertex T)} {k : T} :
    findVertex nodes k = none ↔ k ∉ labels nodes := by
  unfold findVertex labels
  simp [List.find?_eq_none]

theorem findVertex_some_label {nodes : List (Vertex T)} {k : T} {v : Vertex T}
    (h : findVertex nodes k = some v) : v.label = k ∧ v ∈ nodes := by
  unfold findVertex at h
  have h1 := List.find?_some h
  have h2 := List.mem_of_find?_eq_some h
  exact ⟨by simpa using h1, h2⟩

theorem findVertex_isSome {nodes : List (Vertex T)} {k : T} (h : k ∈ labels nodes) :
    ∃ v, findVertex nodes k = some v := by
  cases hf : findVertex nodes k with
  | none => exact absurd h (findVertex_eq_none.mp hf)
  | some v => exact ⟨v, rfl⟩

/-- With distinct keys, lookup returns the one vertex stored under the key. -/
theorem findVertex_of_mem {nodes : List (Vertex T)} (hnd : (labels nodes).Nodup)
    {v : Vertex T} (hv : v ∈ nodes) : findVertex nodes v.label = some v := by
  induction nodes with
  | nil => cases hv
  | cons a rest ih =>
    simp only [labels, List.map_cons, List.nodup_cons] at hnd
    by_cases hav : a.label = v.label
    · rcases List.mem_cons.mp hv with h | h
      · subst h; simp [findVertex]
      · have hm : v.label ∈ rest.map (fun v => v.label) := List.mem_map_of_mem _ h
        rw [← hav] at hm
        exact absurd hm hnd.1
    · rcases List.mem_cons.mp hv with h | h
      · exact absurd (h ▸ rfl) hav
      · have := ih hnd.2 h
        simpa [findVertex, hav] using this

theorem labels_updateVertex (nodes : List (Vertex T)) (k : T) (f : Vertex T → Vertex T)
    (hf : ∀ v, (f v).label = v.label) : labels (updateVertex nodes k f) = labels nodes := by
  unfold labels updateVertex
  rw [List.map_map]
  apply List.map_congr_left
  intro v _
  by_cases h : v.label = k <;> simp [h, hf]

end MapLemmas

/-! ## compute_indegree: closed form -/

section IndegreeLemmas

variable {T : Type} [DecidableEq T]

theorem labels_addIndegree (nodes : List (Vertex T)) (n : T → Nat) :
    labels (addIndegree nodes n) = labels nodes := by
  unfold labels addIndegree
  rw [List.map_map]
  rfl

theorem addIndegree_zero (nodes : List (Vertex T)) :
    addIndegree nodes (fun _ => 0) = nodes := by
  unfold addIndegree
  simp

theorem incrIndegree_ok {nodes : List (Vertex T)} {vert : T} (h : vert ∈ labels nodes) :
    incrIndegree nodes vert = .ok (addIndegree nodes (fun k => [vert].count k)) := by
  obtain ⟨v, hv⟩ := findVertex_isSome h
  unfold incrIndegree
  rw [hv]
  simp only [updateVertex, addIndegree]
  congr 1
  apply List.map_congr_left
  intro x _
  by_cases hx : x.label = vert
  · simp [hx]
  · have : ¬ vert = x.label := fun e => hx e.symm
    simp [hx, this]

theorem incrAll_ok (l : List T) : ∀ (nodes : List (Vertex T)), (∀ w ∈ l, w ∈ labels nodes) →
    incrAll nodes l = .ok (addIndegree nodes (fun k => l.count k)) := by
  induction l with
  | nil => intro nodes _; simp [incrAll, addIndegree_zero]
  | cons w rest ih =>
    intro nodes h
    have hw : w ∈ labels nodes := h w (List.mem_cons_self _ _)
    simp only [incrAll, incrIndegree_ok hw]
    rw [ih]
    · simp only [addIndegree, List.map_map]
      congr 1
      apply List.map_congr_left
      intro x _
      simp only [Function.comp, List.count_cons, List.count_nil]
      by_cases hx : w = x.label
      · simp [hx]; ring
      · simp [hx]
    · intro y hy
      rw [labels_addIndegree]
      exact h y (List.mem_cons_of_mem _ hy)

theorem incrAll_error (l : List T) : ∀ (nodes : List (Vertex T)), (∃ w ∈ l, w ∉ labels nodes) →
    incrAll nodes l = .error .out_of_range := by
  induction l with
  | nil => intro nodes h; obtain ⟨w, hw, _⟩ := h; cases hw
  | cons w rest ih =>
    intro nodes h
    by_cases hw : w ∈ labels nodes
    · simp only [incrAll, incrIndegree_ok hw]
      apply ih
      obtain ⟨y, hy, hyn⟩ := h
      rcases List.mem_cons.mp hy with e | e
      · exact absurd (e ▸ hw) hyn
      · exact ⟨y, e, by rwa [labels_addIndegree]⟩
    · simp [incrAll, incrIndegree, findVertex_eq_none.mpr hw]

theorem incrLoop_ok (todo : List (Vertex T)) : ∀ (nodes : List (Vertex T)),
    (∀ u ∈ todo, ∀ w ∈ u.adj_list, w ∈ labels nodes) →
    incrLoop nodes todo = .ok (addIndegree nodes (fun k => inCount todo k)) := by
  induction todo with
  | nil => intro nodes _; simp [incrLoop, inCount, addIndegree_zero]
  | cons u rest ih =>
    intro nodes h
    simp only [incrLoop, incrAll_ok u.adj_list nodes (h u (List.mem_cons_self _ _))]
    rw [ih]
    · simp only [addIndegree, List.map_map, inCount]
      congr 1
      apply List.map_congr_left
      intro x _
      simp only [Function.comp, List.map_cons, List.sum_cons]
      push_cast
      ring_nf
    · intro y hy w hw
      rw [labels_addIndegree]
      exact h y (List.mem_cons_of_mem _ hy) w hw

theorem incrLoop_error (todo : List (Vertex T)) : ∀ (nodes : List (Vertex T)),
    (∃ u ∈ todo, ∃ w ∈ u.adj_list, w ∉ labels nodes) →
    incrLoop nodes todo = .error .out_of_range := by
  induction todo with
  | nil => intro nodes h; obtain ⟨u, hu, _⟩ := h; cases hu
  | cons u rest ih =>
    intro nodes h
    by_cases hu : ∀ w ∈ u.adj_list, w ∈ labels nodes
    · simp only [incrLoop, incrAll_ok u.adj_list nodes hu]
      apply ih
      obtain ⟨y, hy, w, hw, hwn⟩ := h
      rcases List.mem_cons.mp hy with e | e
      · subst e; exact absurd (hu w hw) hwn
      · exact ⟨y, e, w, hw, by rwa [labels_addIndegree]⟩
    · push_neg at hu
      simp [incrLoop, incrAll_error u.adj_list nodes hu]

end IndegreeLemmas

/-! ## buildGraph: closed form -/

section BuildLemmas

theorem buildLine_eq (g : Graph String) (string_line : String) :
    buildLine g string_line =
      match parsedVertex string_line with
      | none => g
      | some vert => { g with _size := g._size + 1, node_set := insertVertex g.node_set vert } := by
  unfold buildLine parsedVertex
  cases tokenize string_line <;> rfl

theorem buildGraph_eq (input : List String) : ∀ g : Graph String,
    g.buildGraph input =
      { node_set := (parsedVertices input).foldl insertVertex g.node_set,
        _size := g._size + (parsedVertices input).length,
        sorted_queue := g.sorted_queue } := by
  induction input with
  | nil => intro g; simp [Graph.buildGraph, parsedVertices, linesBeforeBlank]
  | cons l rest ih =>
    intro g
    by_cases hl : l.isEmpty
    · simp [Graph.buildGraph, parsedVertices, linesBeforeBlank, hl]
    · simp only [Graph.buildGraph, hl, Bool.false_eq_true, if_false, ih, buildLine_eq, parsedVertices,
        linesBeforeBlank, List.takeWhile_cons, Bool.not_false, if_true, List.filterMap_cons]
      cases parsedVertex l with
      | none => rfl
      | some vert => simp [Nat.add_assoc, Nat.add_comm 1]

theorem findVertex_append (xs ys : List (Vertex String)) (k : String) :
    findVertex (xs ++ ys) k = (findVertex xs k).orElse (fun _ => findVertex ys k) := by
  unfold findVertex
  rw [List.find?_append]
  cases List.find? (fun v => decide (v.label = k)) xs <;> rfl

theorem findVertex_insertVertex (nodes : List (Vertex String)) (v : Vertex String) (k : String) :
    findVertex (insertVertex nodes v) k = findVertex (nodes ++ [v]) k := by
  unfold insertVertex
  cases h : findVertex nodes v.label with
  | none => rfl
  | some x =>
    simp only [findVertex_append]
    by_cases hk : v.label = k
    · subst hk; rw [h]; rfl
    · cases findVertex nodes k with
      | none => simp [Option.orElse, findVertex, hk]
      | some y => rfl

theorem findVertex_foldl_insert (vs : List (Vertex String)) : ∀ (nodes : List (Vertex String)) (k : String),
    findVertex (vs.foldl insertVertex nodes) k = findVertex (nodes ++ vs) k := by
  induction vs with
  | nil => intro nodes k; simp
  | cons v rest ih =>
    intro nodes k
    rw [List.foldl_cons, ih, findVertex_append, findVertex_insertVertex, ← findVertex_append]
    simp

theorem nodup_insertVertex (nodes : List (Vertex String)) (v : Vertex String)
    (h : (labels nodes).Nodup) : (labels (insertVertex nodes v)).Nodup := by
  unfold insertVertex
  cases hf : findVertex nodes v.label with
  | some x => exact h
  | none =>
    have hn := findVertex_eq_none.mp hf
    simp only [labels, List.map_append, List.map_cons, List.map_nil] at hn ⊢
    rw [List.nodup_append]
    refine ⟨h, List.nodup_singleton _, ?_⟩
    intro a ha hb
    rw [List.mem_singleton] at hb
    subst hb
    exact hn ha

theorem nodup_foldl_insert (vs : List (Vertex String)) : ∀ (nodes : List (Vertex String)),
    (labels nodes).Nodup → (labels (vs.foldl insertVertex nodes)).Nodup := by
  induction vs with
  | nil => intro nodes h; exact h
  | cons v rest ih => intro nodes h; exact ih _ (nodup_insertVertex nodes v h)

theorem foldl_insert_of_nodup (vs : List (Vertex String)) : ∀ (nodes : List (Vertex String)),
    (labels (nodes ++ vs)).Nodup → vs.foldl insertVertex nodes = nodes ++ vs := by
  induction vs with
  | nil => intro nodes _; simp
  | cons v rest ih =>
    intro nodes h
    have hv : findVertex nodes v.label = none := by
      rw [findVertex_eq_none]
      simp only [labels, List.map_append, List.map_cons] at h ⊢
      rw [List.nodup_append] at h
      intro hm
      exact h.2.2 hm (List.mem_cons_self _ _)
    have hi : insertVertex nodes v = nodes ++ [v] := by
      unfold insertVertex; rw [hv]
    rw [List.foldl_cons, hi, ih]
    · simp
    · simpa using h

theorem length_foldl_insert_le (vs : List (Vertex String)) : ∀ (nodes : List (Vertex String)),
    (vs.foldl insertVertex nodes).length ≤ nodes.length + vs.length := by
  induction vs with
  | nil => intro nodes; simp
  | cons v rest ih =>
    intro nodes
    have h1 := ih (insertVertex nodes v)
    have h2 : (insertVertex nodes v).length ≤ nodes.length + 1 := by
      unfold insertVertex
      cases findVertex nodes v.label <;> simp
    simp only [List.foldl_cons, List.length_cons]
    omega

/-- With distinct keys the vertices stored under a key are the one that lookup returns. -/
theorem filter_label_of_find {T : Type} [DecidableEq T] {nodes : List (Vertex T)}
    (hnd : (labels nodes).Nodup) {k : T} {v : Vertex T} (h : findVertex nodes k = some v) :
    nodes.filter (fun x => decide (x.label = k)) = [v] := by
  induction nodes with
  | nil => cases h
  | cons a rest ih =>
    simp only [labels, List.map_cons, List.nodup_cons] at hnd
    by_cases ha : a.label = k
    · have hav : a = v := by simpa [findVertex, ha] using h
      subst hav
      have hrest : rest.filter (fun x => decide (x.label = k)) = [] := by
        rw [List.filter_eq_nil_iff]
        intro x hx hxk
        have hm : x.label ∈ rest.map (fun v => v.label) := List.mem_map_of_mem _ hx
        have e : x.label = a.label := by rw [ha]; simpa using hxk
        rw [e] at hm
        exact hnd.1 hm
      simp [List.filter_cons, ha, hrest]
    · have h2 : findVertex rest k = some v := by simpa [findVertex, ha] using h
      simp [List.filter_cons, ha, ih hnd.2 h2]

theorem inCount_map_adj {T : Type} [DecidableEq T] (nodes : List (Vertex T))
    (f : Vertex T → Vertex T) (hf : ∀ v, (f v).adj_list = v.adj_list) (k : T) :
    inCount (nodes.map f) k = inCount nodes k := by
  unfold inCount
  rw [List.map_map]
  congr 1
  apply List.map_congr_left
  intro v _
  simp [hf]

/-- Closed form of `compute_indegree` on a table whose targets are all stored. -/
theorem compute_indegree_core {T : Type} [DecidableEq T] (g : Graph T) (hclosed : Closed g.node_set) :
    ∃ g1, g.compute_indegree = .ok g1 ∧
      g1.node_set = g.node_set.map (fun v => { v with indegree := (inCount g.node_set v.label : Int) }) ∧
      ∀ v ∈ g1.node_set, v.indegree = (inCount g.node_set v.label : Int) := by
  have hlab : labels (g.node_set.map (fun v => { v with indegree := (0 : Int) })) = labels g.node_set := by
    unfold labels; rw [List.map_map]; rfl
  have hok := incrLoop_ok (g.node_set.map (fun v => { v with indegree := (0 : Int) }))
    (g.node_set.map (fun v => { v with indegree := (0 : Int) })) (by
      intro u hu w hw
      rw [hlab]
      obtain ⟨u0, hu0, rfl⟩ := List.mem_map.mp hu
      exact hclosed u0 hu0 w hw)
  have hnodes : addIndegree (g.node_set.map (fun v => { v with indegree := (0 : Int) }))
      (fun k => inCount (g.node_set.map (fun v => { v with indegree := (0 : Int) })) k) =
      g.node_set.map (fun v => { v with indegree := (inCount g.node_set v.label : Int) }) := by
    unfold addIndegree
    rw [List.map_map]
    apply List.map_congr_left
    intro v _
    simp [Function.comp, inCount_map_adj]
  refine ⟨{ g with node_set := g.node_set.map (fun v => { v with indegree := (inCount g.node_set v.label : Int) }) }, ?_, rfl, ?_⟩
  · unfold Graph.compute_indegree
    simp only [hok, hnodes]
  · intro v hv
    obtain ⟨v0, _, rfl⟩ := List.mem_map.mp hv
    rfl

theorem compute_indegree_frame {T : Type} [DecidableEq T] (g g1 : Graph T)
    (h : g.compute_indegree = .ok g1) :
    g1._size = g._size ∧ g1.sorted_queue = g.sorted_queue := by
  unfold Graph.compute_indegree at h
  cases hl : incrLoop (g.node_set.map (fun v => { v with indegree := (0 : Int) }))
      (g.node_set.map (fun v => { v with indegree := (0 : Int) })) with
  | error e => simp [hl] at h
  | ok nodes =>
    simp only [hl, Except.ok.injEq] at h
    subst h
    exact ⟨rfl, rfl⟩

end BuildLemmas

/-! ## topological_sort: loop invariants -/

section SortLemmas

variable {T : Type} [DecidableEq T]

theorem mem_updateVertex {nodes : List (Vertex T)} {k : T} {f : Vertex T → Vertex T}
    {y : Vertex T} : y ∈ updateVertex nodes k f ↔
      ∃ x ∈ nodes, (if x.label = k then f x else x) = y := by
  unfold updateVertex
  exact List.mem_map

theorem skel_updateVertex (nodes : List (Vertex T)) (k : T) (f : Vertex T → Vertex T)
    (hl : ∀ v, (f v).label = v.label) (ha : ∀ v, (f v).adj_list = v.adj_list) :
    skel (updateVertex nodes k f) = skel nodes := by
  unfold skel updateVertex
  rw [List.map_map]
  apply List.map_congr_left
  intro v _
  by_cases h : v.label = k <;> simp [h, hl, ha]

theorem ranked_updateVertex (nodes : List (Vertex T)) (k : T) (f : Vertex T → Vertex T)
    (hl : ∀ v, (f v).label = v.label) (ha : ∀ v, (f v).adj_list = v.adj_list)
    (ht : ∀ v, (f v).top_num = v.top_num) :
    ranked (updateVertex nodes k f) = ranked nodes := by
  unfold ranked updateVertex
  rw [List.map_map]
  apply List.map_congr_left
  intro v _
  by_cases h : v.label = k <;> simp [h, hl, ha, ht]

theorem labels_of_skel {nodes N0 : List (Vertex T)} (h : skel nodes = skel N0) :
    labels nodes = labels N0 := by
  have e : ∀ l : List (Vertex T), labels l = (skel l).map Prod.fst := by
    intro l; unfold labels skel; rw [List.map_map]; rfl
  rw [e, e, h]

theorem mem_skel {nodes : List (Vertex T)} {v : Vertex T} (h : v ∈ nodes) :
    (v.label, v.adj_list) ∈ skel nodes :=
  List.mem_map.mpr ⟨v, h, rfl⟩

theorem mem_of_skel {nodes N0 : List (Vertex T)} (h : skel nodes = skel N0) {v : Vertex T}
    (hv : v ∈ nodes) : ∃ v0 ∈ N0, v0.label = v.label ∧ v0.adj_list = v.adj_list := by
  have hm := mem_skel hv
  rw [h] at hm
  obtain ⟨v0, hv0, e⟩ := List.mem_map.mp hm
  simp only [Prod.mk.injEq] at e
  exact ⟨v0, hv0, e.1, e.2⟩

theorem pend_nil (nodes : List (Vertex T)) (k : T) : pend nodes [] k = inCount nodes k := by
  unfold pend inCount
  simp

theorem pend_eq_zero {nodes : List (Vertex T)} {done : List T} {k : T}
    (h : pend nodes done k = 0) : ∀ u ∈ nodes, k ∈ u.adj_list → u.label ∈ done := by
  induction nodes with
  | nil => intro u hu; cases hu
  | cons a rest ih =>
    simp only [pend, List.map_cons, List.sum_cons, Nat.add_eq_zero] at h
    intro u hu hk
    rcases List.mem_cons.mp hu with e | e
    · subst e
      by_contra hn
      have h1 := h.1
      simp only [hn, if_false] at h1
      exact (List.count_eq_zero.mp h1) hk
    · exact ih h.2 u e hk

theorem pend_snoc_absent {nodes : List (Vertex T)} {done : List T} {l : T} (k : T)
    (hl : l ∉ labels nodes) : pend nodes (done ++ [l]) k = pend nodes done k := by
  unfold pend
  congr 1
  apply List.map_congr_left
  intro u hu
  have hne : u.label ≠ l := by
    intro e
    exact hl (e ▸ List.mem_map_of_mem (fun v => v.label) hu)
  simp [hne]

theorem pend_snoc {nodes : List (Vertex T)} (hnd : (labels nodes).Nodup) {done : List T}
    {v : Vertex T} (hv : v ∈ nodes) (hvd : v.label ∉ done) (k : T) :
    pend nodes done k = pend nodes (done ++ [v.label]) k + v.adj_list.count k := by
  induction nodes with
  | nil => cases hv
  | cons a rest ih =>
    simp only [labels, List.map_cons, List.nodup_cons] at hnd
    by_cases hav : a.label = v.label
    · have hva : v = a := by
        rcases List.mem_cons.mp hv with e | e
        · exact e
        · have hm : v.label ∈ rest.map (fun v => v.label) := List.mem_map_of_mem _ e
          rw [← hav] at hm
          exact absurd hm hnd.1
      subst hva
      have hrest : pend rest (done ++ [v.label]) k = pend rest done k :=
        pend_snoc_absent k hnd.1
      simp only [pend, List.map_cons, List.sum_cons] at hrest ⊢
      rw [hrest]
      simp [hvd]
      omega
    · have hvr : v ∈ rest := by
        rcases List.mem_cons.mp hv with e | e
        · exact absurd (e ▸ rfl) hav
        · exact e
      have := ih hnd.2 hvr
      simp only [pend, List.map_cons, List.sum_cons] at this ⊢
      rw [this]
      simp [hav]
      omega

theorem relaxEdge_inv {N0 nodes q : List (Vertex T)} {done rest : List T} {a : T}
    (h : SortInv N0 nodes q done (a :: rest)) :
    ∃ nodes1 q1, relaxEdge nodes q a = .ok (nodes1, q1) ∧ SortInv N0 nodes1 q1 done rest ∧
      ranked nodes1 = ranked nodes := by
  have ha : a ∈ labels nodes := by
    rw [labels_of_skel h.skel_eq]; exact h.rsub a (List.mem_cons_self _ _)
  obtain ⟨w, hw⟩ := findVertex_isSome ha
  obtain ⟨hwl, hwm⟩ := findVertex_some_label hw
  have hpos : ∀ x ∈ nodes, x.label = a → x.indegree = w.indegree ∧ 1 ≤ x.indegree := by
    intro x hx hxa
    have e1 := h.indeg x hx
    have e2 := h.indeg w hwm
    rw [hxa] at e1
    rw [hwl] at e2
    rw [List.count_cons_self] at e1 e2
    constructor
    · rw [e1, e2]
    · rw [e1]; push_cast; omega
  have hnd : a ∉ done := by
    intro hd
    have h0 := h.dzero w hwm (hwl ▸ hd)
    have h1 := (hpos w hwm hwl).2
    omega
  have hnq : a ∉ labels q := by
    intro hq
    obtain ⟨x, hx, hxa⟩ := List.mem_map.mp hq
    obtain ⟨_, y, hy, hyl, hy0⟩ := h.queue x hx
    have h1 := (hpos y hy (hyl.trans hxa)).2
    omega
  have hsk : skel (updateVertex nodes a (fun v => { v with indegree := v.indegree - 1 })) = skel nodes :=
    skel_updateVertex _ _ _ (fun _ => rfl) (fun _ => rfl)
  have hrk : ranked (updateVertex nodes a (fun v => { v with indegree := v.indegree - 1 })) = ranked nodes :=
    ranked_updateVertex _ _ _ (fun _ => rfl) (fun _ => rfl) (fun _ => rfl)
  have hindeg : ∀ y ∈ updateVertex nodes a (fun v => { v with indegree := v.indegree - 1 }),
      y.indegree = (pend N0 done y.label : Int) + (rest.count y.label : Int) := by
    intro y hy
    obtain ⟨x, hx, rfl⟩ := mem_updateVertex.mp hy
    have e := h.indeg x hx
    by_cases hxa : x.label = a
    · simp only [hxa, if_true]
      rw [hxa, List.count_cons_self] at e
      rw [e]; push_cast; omega
    · have hne : ¬ a = x.label := fun e => hxa e.symm
      simp only [hxa, if_false]
      rw [List.count_cons_of_ne hxa] at e
      exact e
  have hdzero : ∀ y ∈ updateVertex nodes a (fun v => { v with indegree := v.indegree - 1 }),
      y.label ∈ done → y.indegree = 0 := by
    intro y hy hyd
    obtain ⟨x, hx, rfl⟩ := mem_updateVertex.mp hy
    by_cases hxa : x.label = a
    · simp only [hxa, if_true] at hyd
      exact absurd (hxa ▸ hyd) hnd
    · simp only [hxa, if_false] at hyd ⊢
      exact h.dzero x hx hyd
  have hqueue : ∀ x ∈ q, x.label ∉ done ∧
      ∃ y ∈ updateVertex nodes a (fun v => { v with indegree := v.indegree - 1 }),
        y.label = x.label ∧ y.indegree = 0 := by
    intro x hx
    obtain ⟨hxd, y, hy, hyl, hy0⟩ := h.queue x hx
    refine ⟨hxd, y, mem_updateVertex.mpr ⟨y, hy, ?_⟩, hyl, hy0⟩
    have hya : y.label ≠ a := by
      intro e
      exact hnq (List.mem_map.mpr ⟨x, hx, hyl.symm.trans e⟩)
    simp [hya]
  have hrsub : ∀ b ∈ rest, b ∈ labels N0 := fun b hb => h.rsub b (List.mem_cons_of_mem _ hb)
  by_cases hz : w.indegree - 1 = 0
  · have heq : relaxEdge nodes q a = .ok
        (updateVertex nodes a (fun v => { v with indegree := v.indegree - 1 }),
          q ++ [{ w with indegree := w.indegree - 1 }]) := by
      unfold relaxEdge
      rw [hw]
      simp only [if_pos hz]
    refine ⟨_, _, heq, ?_, hrk⟩
    refine ⟨hsk.trans h.skel_eq, hindeg, ?_, ?_, h.dnodup, h.dsub, hdzero, hrsub, h.nocyc, ?_⟩
    rotate_left 2
    · intro y hy hyd hy0
      obtain ⟨x, hx, rfl⟩ := mem_updateVertex.mp hy
      by_cases hxa : x.label = a
      · simp only [hxa, if_true]
        simp only [labels, List.map_append, List.map_cons, List.map_nil, List.mem_append,
          List.mem_singleton]
        exact Or.inr hwl.symm
      · simp only [hxa, if_false] at hyd hy0 ⊢
        have := h.qfull x hx hyd hy0
        simp only [labels, List.map_append, List.mem_append] at this ⊢
        exact Or.inl this
    · intro x hx
      rcases List.mem_append.mp hx with hx | hx
      · exact hqueue x hx
      · rw [List.mem_singleton] at hx
        subst hx
        refine ⟨by simpa [hwl] using hnd, ?_⟩
        refine ⟨_, mem_updateVertex.mpr ⟨w, hwm, rfl⟩, ?_, ?_⟩
        · simp [hwl]
        · simp [hwl, hz]
    · simp only [labels, List.map_append, List.map_cons, List.map_nil]
      rw [List.nodup_append]
      refine ⟨h.qnodup, List.nodup_singleton _, ?_⟩
      intro b hb hb2
      rw [List.mem_singleton] at hb2
      subst hb2
      have hb3 : w.label ∈ labels q := hb
      rw [hwl] at hb3
      exact hnq hb3
  · have heq : relaxEdge nodes q a = .ok
        (updateVertex nodes a (fun v => { v with indegree := v.indegree - 1 }), q) := by
      unfold relaxEdge
      rw [hw]
      simp only [if_neg hz]
    refine ⟨_, _, heq, ?_, hrk⟩
    refine ⟨hsk.trans h.skel_eq, hindeg, hqueue, h.qnodup, h.dnodup, h.dsub, hdzero, hrsub,
      h.nocyc, ?_⟩
    intro y hy hyd hy0
    obtain ⟨x, hx, rfl⟩ := mem_updateVertex.mp hy
    by_cases hxa : x.label = a
    · simp only [hxa, if_true] at hy0
      have := (hpos x hx hxa).1
      omega
    · simp only [hxa, if_false] at hyd hy0 ⊢
      exact h.qfull x hx hyd hy0

theorem relaxAll_inv {N0 : List (Vertex T)} {done : List T} (rest : List T) :
    ∀ (nodes q : List (Vertex T)), SortInv N0 nodes q done rest →
    ∃ nodes1 q1, relaxAll nodes q rest = .ok (nodes1, q1) ∧ SortInv N0 nodes1 q1 done [] ∧
      ranked nodes1 = ranked nodes := by
  induction rest with
  | nil => intro nodes q h; exact ⟨nodes, q, rfl, h, rfl⟩
  | cons a rest ih =>
    intro nodes q h
    obtain ⟨n1, q1, he, hi, hr⟩ := relaxEdge_inv h
    obtain ⟨n2, q2, he2, hi2, hr2⟩ := ih n1 q1 hi
    refine ⟨n2, q2, ?_, hi2, hr2.trans hr⟩
    simp only [relaxAll, he, he2]

theorem setTop_label (x : Vertex T) (k : T) (t : Int) :
    (if x.label = k then ({ x with top_num := t } : Vertex T) else x).label = x.label := by
  split <;> rfl

theorem setTop_indegree (x : Vertex T) (k : T) (t : Int) :
    (if x.label = k then ({ x with top_num := t } : Vertex T) else x).indegree = x.indegree := by
  split <;> rfl

theorem cycle_pred {N0 : List (Vertex T)} {k : T} (h : Relation.TransGen (Edge N0) k k) :
    ∃ p, Edge N0 p k ∧ Relation.TransGen (Edge N0) p p := by
  obtain ⟨p, hkp, hpk⟩ := Relation.TransGen.tail'_iff.mp h
  exact ⟨p, hpk, Relation.TransGen.head' hpk hkp⟩

theorem sortStep_inv {N0 : List (Vertex T)} (hnd0 : (labels N0).Nodup) (hcl : Closed N0)
    {st : SortState T} {front : Vertex T} {q : List (Vertex T)} {done : List T}
    (h : SortInv N0 st.node_set (front :: q) done [])
    (hr : RankInv (ranked st.node_set) done st.popped_counter)
    (hp : st.popped_counter = (done.length : Int)) :
    ∃ st1 v1, sortStep st front q = .ok st1 ∧
      SortInv N0 st1.node_set st1.q_of_indegree_0 (done ++ [front.label]) [] ∧
      RankInv (ranked st1.node_set) (done ++ [front.label]) st1.popped_counter ∧
      st1.popped_counter = st.popped_counter + 1 ∧
      st1.sorted_queue = st.sorted_queue ++ [v1] ∧
      v1.label = front.label ∧ v1.top_num = st.popped_counter + 1 := by
  obtain ⟨hfd, y, hy, hyl, hy0⟩ := h.queue front (List.mem_cons_self _ _)
  have hlab : labels st.node_set = labels N0 := labels_of_skel h.skel_eq
  have hfind : findVertex st.node_set front.label = some y := by
    rw [← hyl]
    exact findVertex_of_mem (hlab ▸ hnd0) hy
  have hpend : pend N0 done front.label = 0 := by
    have e := h.indeg y hy
    rw [hy0, hyl] at e
    simp only [List.count_nil, Nat.cast_zero, add_zero] at e
    exact_mod_cast e.symm
  obtain ⟨y0, hy0m, hy0l, hy0a⟩ := mem_of_skel h.skel_eq hy
  have hsk : skel (updateVertex st.node_set front.label
      (fun x => { x with top_num := st.popped_counter + 1 })) = skel st.node_set :=
    skel_updateVertex _ _ _ (fun _ => rfl) (fun _ => rfl)
  have hfq : front.label ∉ labels q := by
    have := h.qnodup
    simp only [labels, List.map_cons, List.nodup_cons] at this
    exact this.1
  have hmid : SortInv N0 (updateVertex st.node_set front.label
      (fun x => { x with top_num := st.popped_counter + 1 })) q (done ++ [front.label]) y.adj_list := by
    refine ⟨hsk.trans h.skel_eq, ?_, ?_, ?_, ?_, ?_, ?_, ?_, ?_, ?_⟩
    rotate_right
    · intro w hw hwd hw0
      obtain ⟨x, hx, rfl⟩ := mem_updateVertex.mp hw
      rw [setTop_label] at hwd ⊢
      rw [setTop_indegree] at hw0
      have hxd : x.label ∉ done := fun e => hwd (List.mem_append_left _ e)
      have hxf : x.label ≠ front.label := fun e => hwd (by rw [e]; simp)
      have := h.qfull x hx hxd hw0
      simp only [labels, List.map_cons, List.mem_cons] at this
      rcases this with e | e
      · exact absurd e hxf
      · exact e
    · intro w hw
      obtain ⟨x, hx, rfl⟩ := mem_updateVertex.mp hw
      have e := h.indeg x hx
      have hy0d : y0.label ∉ done := by rw [hy0l, hyl]; exact hfd
      have e2 := pend_snoc hnd0 hy0m hy0d x.label
      rw [hy0l, hyl, hy0a] at e2
      rw [setTop_indegree, setTop_label, e, e2]
      simp
    · intro x hx
      obtain ⟨hxd, w, hw, hwl, hw0⟩ := h.queue x (List.mem_cons_of_mem _ hx)
      refine ⟨?_, ?_⟩
      · intro hm
        rcases List.mem_append.mp hm with e | e
        · exact hxd e
        · rw [List.mem_singleton] at e
          exact hfq (List.mem_map.mpr ⟨x, hx, e⟩)
      · refine ⟨_, mem_updateVertex.mpr ⟨w, hw, rfl⟩, ?_, ?_⟩
        · rw [setTop_label]; exact hwl
        · rw [setTop_indegree]; exact hw0
    · have := h.qnodup
      simp only [labels, List.map_cons, List.nodup_cons] at this
      exact this.2
    · rw [List.nodup_append]
      refine ⟨h.dnodup, List.nodup_singleton _, ?_⟩
      intro b hb hb2
      rw [List.mem_singleton] at hb2
      subst hb2
      exact hfd hb
    · intro k hk
      rcases List.mem_append.mp hk with e | e
      · exact h.dsub k e
      · rw [List.mem_singleton] at e
        subst e
        rw [← hyl, ← hy0l]
        exact List.mem_map_of_mem (fun v => v.label) hy0m
    · intro w hw hwd
      obtain ⟨x, hx, rfl⟩ := mem_updateVertex.mp hw
      rw [setTop_indegree]
      rw [setTop_label] at hwd
      rcases List.mem_append.mp hwd with e | e
      · exact h.dzero x hx e
      · rw [List.mem_singleton] at e
        have e3 := h.indeg x hx
        rw [e, hpend] at e3
        simpa using e3
    · intro a ha
      exact hcl y0 hy0m a (hy0a ▸ ha)
    · intro k hk
      rcases List.mem_append.mp hk with e | e
      · exact h.nocyc k e
      · rw [List.mem_singleton] at e
        subst e
        intro hc
        obtain ⟨p, ⟨u, hu, hul, hku⟩, hpp⟩ := cycle_pred hc
        have hud := pend_eq_zero hpend u hu hku
        exact h.nocyc p (hul ▸ hud) hpp
  have hrank : RankInv (ranked (updateVertex st.node_set front.label
      (fun x => { x with top_num := st.popped_counter + 1 }))) (done ++ [front.label])
      (st.popped_counter + 1) := by
    have hmem : ∀ u ∈ ranked (updateVertex st.node_set front.label
        (fun x => { x with top_num := st.popped_counter + 1 })),
        ∃ x ∈ st.node_set, u.1 = x.label ∧ u.2.1 = x.adj_list ∧
          ((x.label = front.label ∧ u.2.2 = st.popped_counter + 1) ∨
           (x.label ≠ front.label ∧ u.2.2 = x.top_num)) := by
      intro u hu
      obtain ⟨z, hz, rfl⟩ := List.mem_map.mp hu
      obtain ⟨x, hx, rfl⟩ := mem_updateVertex.mp hz
      refine ⟨x, hx, ?_⟩
      by_cases hxa : x.label = front.label <;> simp [hxa]
    have hpos : (0 : Int) ≤ st.popped_counter := by rw [hp]; exact Int.natCast_nonneg _
    have hold : ∀ x ∈ st.node_set, (x.label, x.adj_list, x.top_num) ∈ ranked st.node_set :=
      fun x hx => List.mem_map.mpr ⟨x, hx, rfl⟩
    constructor
    · intro u hu hud
      obtain ⟨x, hx, h1, _, h3⟩ := hmem u hu
      rcases h3 with ⟨_, h3⟩ | ⟨hne, h3⟩
      · rw [h3]; omega
      · have hxd : x.label ∈ done := by
          rcases List.mem_append.mp hud with e | e
          · exact h1 ▸ e
          · rw [List.mem_singleton] at e
            exact absurd (h1 ▸ e) hne
        have := hr.range _ (hold x hx) hxd
        simp only at this
        rw [h3]; omega
    · intro u hu x hx hxu hxd
      obtain ⟨xu, hxum, hu1, hu2, hu3⟩ := hmem u hu
      obtain ⟨xx, hxxm, hx1, _, hx3⟩ := hmem x hx
      rw [hu2, hx1] at hxu
      rw [hx1] at hxd
      have hxud : xu.label ∈ done := by
        rcases hx3 with ⟨he, _⟩ | ⟨hne, _⟩
        · obtain ⟨z0, hz0m, hz0l, hz0a⟩ := mem_of_skel h.skel_eq hxum
          have := pend_eq_zero hpend z0 hz0m (by rw [hz0a, ← he]; exact hxu)
          rwa [hz0l] at this
        · have hxxd : xx.label ∈ done := by
            rcases List.mem_append.mp hxd with e | e
            · exact e
            · rw [List.mem_singleton] at e
              exact absurd e hne
          exact (hr.order _ (hold xu hxum) _ (hold xx hxxm) hxu hxxd).1
      have hxune : xu.label ≠ front.label := fun e => hfd (e ▸ hxud)
      have hu3b : u.2.2 = xu.top_num := by
        rcases hu3 with ⟨he, _⟩ | ⟨_, h3⟩
        · exact absurd he hxune
        · exact h3
      refine ⟨by rw [hu1]; exact List.mem_append_left _ hxud, ?_⟩
      rw [hu3b]
      rcases hx3 with ⟨_, h3⟩ | ⟨hne, h3⟩
      · have := hr.range _ (hold xu hxum) hxud
        simp only at this
        rw [h3]; omega
      · have hxxd : xx.label ∈ done := by
          rcases List.mem_append.mp hxd with e | e
          · exact e
          · rw [List.mem_singleton] at e
            exact absurd e hne
        have := (hr.order _ (hold xu hxum) _ (hold xx hxxm) hxu hxxd).2
        simp only at this
        rw [h3]; exact this
  obtain ⟨n2, q2, he2, hi2, hr2⟩ := relaxAll_inv y.adj_list _ _ hmid
  refine ⟨{ node_set := n2, q_of_indegree_0 := q2, popped_counter := st.popped_counter + 1,
            sorted_queue := st.sorted_queue ++ [{ y with top_num := st.popped_counter + 1 }] },
          { y with top_num := st.popped_counter + 1 }, ?_, hi2, ?_, rfl, rfl, hyl, rfl⟩
  · unfold sortStep
    simp only [hfind, he2]
  · simp only
    rw [hr2]
    exact hrank

theorem done_length_le {N0 nodes q : List (Vertex T)} {done rest : List T}
    (h : SortInv N0 nodes q done rest) : done.length ≤ N0.length := by
  have := (List.subperm_of_subset h.dnodup (fun k hk => h.dsub k hk)).length_le
  simpa [labels] using this

theorem done_length_lt {N0 nodes q : List (Vertex T)} {done rest : List T}
    (h : SortInv N0 nodes q done rest) {k : T} (hk : k ∈ labels N0) (hkd : k ∉ done) :
    done.length < N0.length := by
  have hnd : (k :: done).Nodup := List.nodup_cons.mpr ⟨hkd, h.dnodup⟩
  have hsub : (k :: done) ⊆ labels N0 := by
    intro x hx
    rcases List.mem_cons.mp hx with e | e
    · exact e ▸ hk
    · exact h.dsub x e
  have := (List.subperm_of_subset hnd hsub).length_le
  simp only [labels, List.length_cons, List.length_map] at this
  omega

theorem done_covers {N0 nodes q : List (Vertex T)} {done rest : List T}
    (h : SortInv N0 nodes q done rest)
    (hlen : N0.length ≤ done.length) : ∀ k ∈ labels N0, k ∈ done := by
  intro k hk
  by_contra hkd
  have := done_length_lt h hk hkd
  omega

theorem pend_ne_zero {nodes : List (Vertex T)} {done : List T} {k : T}
    (h : pend nodes done k ≠ 0) : ∃ u ∈ nodes, u.label ∉ done ∧ k ∈ u.adj_list := by
  induction nodes with
  | nil => exact absurd rfl h
  | cons a rest ih =>
    simp only [pend, List.map_cons, List.sum_cons] at h
    by_cases ha : a.label ∉ done ∧ k ∈ a.adj_list
    · exact ⟨a, List.mem_cons_self _ _, ha.1, ha.2⟩
    · have h0 : (if a.label ∈ done then 0 else a.adj_list.count k) = 0 := by
        by_cases hd : a.label ∈ done
        · simp [hd]
        · have hk : k ∉ a.adj_list := fun e => ha ⟨hd, e⟩
          simp [hd, List.count_eq_zero.mpr hk]
      rw [h0, Nat.zero_add] at h
      obtain ⟨u, hu, hud, hku⟩ := ih h
      exact ⟨u, List.mem_cons_of_mem _ hu, hud, hku⟩

/-- With the queue empty, a label that was not dequeued has an edge from another label that
was not dequeued. -/
theorem undone_has_undone_pred {N0 nodes : List (Vertex T)} {done : List T}
    (h : SortInv N0 nodes [] done []) {k : T} (hk : k ∈ labels N0) (hkd : k ∉ done) :
    ∃ p, p ∈ labels N0 ∧ p ∉ done ∧ Edge N0 p k := by
  rw [← labels_of_skel h.skel_eq] at hk
  obtain ⟨w, hw, hwl⟩ := List.mem_map.mp hk
  have hw0 : w.indegree ≠ 0 := by
    intro e
    have := h.qfull w hw (by rw [hwl]; exact hkd) e
    simp [labels] at this
  have hp : pend N0 done k ≠ 0 := by
    intro e
    have e1 := h.indeg w hw
    simp only [hwl] at e1
    rw [e] at e1
    simp at e1
    exact hw0 e1
  obtain ⟨u, hu, hud, hku⟩ := pend_ne_zero hp
  exact ⟨u.label, List.mem_map_of_mem (fun v => v.label) hu, hud, u, hu, rfl, hku⟩

/-- With the queue empty and no directed cycle, every stored label was dequeued. -/
theorem acyclic_covers {N0 nodes : List (Vertex T)} {done : List T}
    (h : SortInv N0 nodes [] done []) (hac : ¬ HasCycle N0) : ∀ k ∈ labels N0, k ∈ done := by
  intro k0 hk0
  by_contra hk0d
  have hirr : IsIrrefl { k // k ∈ labels N0 }
      (fun a b => Relation.TransGen (Edge N0) a.1 b.1) :=
    ⟨fun a ha => hac ⟨a.1, ha⟩⟩
  have htr : IsTrans { k // k ∈ labels N0 }
      (fun a b => Relation.TransGen (Edge N0) a.1 b.1) :=
    ⟨fun _ _ _ hab hbc => Relation.TransGen.trans hab hbc⟩
  have hwf : WellFounded (fun a b : { k // k ∈ labels N0 } =>
      Relation.TransGen (Edge N0) a.1 b.1) :=
    Finite.wellFounded_of_trans_of_irrefl _
  obtain ⟨m, hm, hmin⟩ := hwf.has_min { a | a.1 ∉ done } ⟨⟨k0, hk0⟩, hk0d⟩
  obtain ⟨p, hp, hpd, hpe⟩ := undone_has_undone_pred h m.2 hm
  exact hmin ⟨p, hp⟩ hpd (Relation.TransGen.single hpe)

theorem sortLoop_inv {N0 : List (Vertex T)} (hnd0 : (labels N0).Nodup) (hcl : Closed N0) :
    ∀ (fuel : Nat) (st : SortState T) (done : List T),
    SortInv N0 st.node_set st.q_of_indegree_0 done [] →
    RankInv (ranked st.node_set) done st.popped_counter →
    st.popped_counter = (done.length : Int) →
    N0.length < fuel + done.length →
    ∃ st1 done1, sortLoop fuel st = .ok st1 ∧
      SortInv N0 st1.node_set [] done1 [] ∧
      RankInv (ranked st1.node_set) done1 st1.popped_counter ∧
      st1.popped_counter = (done1.length : Int) ∧
      ∃ added, st1.sorted_queue = st.sorted_queue ++ added ∧ done1 = done ++ labels added := by
  intro fuel
  induction fuel with
  | zero =>
    intro st done h _ _ hlt
    have := done_length_le h
    omega
  | succ fuel ih =>
    intro st done h hr hp hlt
    cases hq : st.q_of_indegree_0 with
    | nil =>
      refine ⟨st, done, ?_, hq ▸ h, hr, hp, [], by simp, by simp [labels]⟩
      simp only [sortLoop, hq]
    | cons front q =>
      rw [hq] at h
      obtain ⟨st1, v1, he, hi, hr1, hp1, hsq, hv1, _⟩ := sortStep_inv hnd0 hcl h hr hp
      have hp2 : st1.popped_counter = ((done ++ [front.label]).length : Int) := by
        rw [hp1, hp]; simp
      obtain ⟨st2, done2, he2, hi2, hr2, hp3, added, hadd, hdone⟩ :=
        ih st1 (done ++ [front.label]) hi hr1 hp2 (by
          simp only [List.length_append, List.length_singleton]; omega)
      refine ⟨st2, done2, ?_, hi2, hr2, hp3, v1 :: added, ?_, ?_⟩
      · simp only [sortLoop, hq, he, he2]
      · rw [hadd, hsq]; simp
      · rw [hdone]; simp [labels, hv1]

theorem sortInit_inv (g : Graph T) (hnd0 : (labels g.node_set).Nodup)
    (hin : ∀ w ∈ g.node_set, w.indegree = (inCount g.node_set w.label : Int)) :
    SortInv g.node_set (sortInit g).node_set (sortInit g).q_of_indegree_0 [] [] ∧
    RankInv (ranked (sortInit g).node_set) [] (sortInit g).popped_counter := by
  refine ⟨⟨rfl, ?_, ?_, ?_, List.nodup_nil, ?_, ?_, ?_, ?_, ?_⟩, ⟨?_, ?_⟩⟩
  · intro w hw
    rw [pend_nil]
    simpa using hin w hw
  · intro x hx
    have hx2 := List.mem_filter.mp hx
    exact ⟨List.not_mem_nil _, x, hx2.1, rfl, by simpa using hx2.2⟩
  · have hsub : (labels (sortInit g).q_of_indegree_0).Sublist (labels g.node_set) :=
      List.Sublist.map (fun v : Vertex T => v.label) (List.filter_sublist _)
    exact hsub.nodup hnd0
  · intro k hk; cases hk
  · intro w _ hk; cases hk
  · intro a ha; cases ha
  · intro k hk; cases hk
  · intro w hw _ hw0
    have hm : w ∈ g.node_set.filter (fun vert => decide (vert.indegree = 0)) :=
      List.mem_filter.mpr ⟨hw, decide_eq_true hw0⟩
    exact List.mem_map_of_mem (fun v => v.label) hm
  · intro u _ hk; cases hk
  · intro u _ x _ _ hk; cases hk

/-- Outcome of the loop of `topological_sort` on a table with distinct keys, stored targets
and exact in-degree counters: the loop returns, and the invariants hold with an empty queue. -/
theorem sortLoop_total (g : Graph T) (hnd0 : (labels g.node_set).Nodup) (hcl : Closed g.node_set)
    (hin : ∀ w ∈ g.node_set, w.indegree = (inCount g.node_set w.label : Int)) :
    ∃ st done, sortLoop (g.node_set.length + 1) (sortInit g) = .ok st ∧
      SortInv g.node_set st.node_set [] done [] ∧
      RankInv (ranked st.node_set) done st.popped_counter ∧
      st.popped_counter = (done.length : Int) ∧
      ∃ added, st.sorted_queue = g.sorted_queue ++ added ∧ done = labels added := by
  obtain ⟨hi, hr⟩ := sortInit_inv g hnd0 hin
  obtain ⟨st, done, h1, h2, h3, h4, added, h5, h6⟩ :=
    sortLoop_inv hnd0 hcl (g.node_set.length + 1) (sortInit g) [] hi hr rfl (by simp)
  exact ⟨st, done, h1, h2, h3, h4, added, h5, by simpa using h6⟩

theorem sortStep_sorted_queue {st st1 : SortState T} {front : Vertex T} {q : List (Vertex T)}
    (h : sortStep st front q = .ok st1) :
    ∃ v1, st1.sorted_queue = st.sorted_queue ++ [v1] ∧ v1.top_num = st.popped_counter + 1 ∧
      st1.popped_counter = st.popped_counter + 1 := by
  unfold sortStep at h
  cases hf : findVertex st.node_set front.label with
  | none => simp [hf] at h
  | some v =>
    simp only [hf] at h
    cases hr : relaxAll (updateVertex st.node_set front.label
        (fun x => { x with top_num := st.popped_counter + 1 })) q v.adj_list with
    | error e => simp [hr] at h
    | ok pr =>
      obtain ⟨n2, q2⟩ := pr
      simp only [hr, Except.ok.injEq] at h
      subst h
      exact ⟨_, rfl, rfl, rfl⟩

/-- Whatever the table holds, the loop appends to `sorted_queue` one copy per dequeued
vertex, carrying the consecutive ranks that follow the counter at the start. -/
theorem sortLoop_sorted_queue : ∀ (fuel : Nat) (st st1 : SortState T),
    sortLoop fuel st = .ok st1 →
    ∃ added : List (Vertex T), st1.sorted_queue = st.sorted_queue ++ added ∧
      added.map (fun v => v.top_num) =
        (List.range added.length).map (fun (i : Nat) => st.popped_counter + 1 + (i : Int)) ∧
      st1.popped_counter = st.popped_counter + (added.length : Int) := by
  intro fuel
  induction fuel with
  | zero => intro st st1 h; simp [sortLoop] at h
  | succ fuel ih =>
    intro st st1 h
    cases hq : st.q_of_indegree_0 with
    | nil =>
      simp only [sortLoop, hq, Except.ok.injEq] at h
      subst h
      exact ⟨[], by simp, by simp, by simp⟩
    | cons front q =>
      simp only [sortLoop, hq] at h
      cases hs : sortStep st front q with
      | error e => simp [hs] at h
      | ok st2 =>
        simp only [hs] at h
        obtain ⟨v1, hv1, hv1t, hp⟩ := sortStep_sorted_queue hs
        obtain ⟨added, ha, hat, hap⟩ := ih st2 st1 h
        refine ⟨v1 :: added, ?_, ?_, ?_⟩
        · rw [ha, hv1]; simp
        · rw [List.map_cons, hat, hv1t, List.length_cons, List.range_succ_eq_map, List.map_cons,
            List.map_map]
          simp only [Nat.cast_zero, add_zero, List.cons.injEq, true_and]
          apply List.map_congr_left
          intro i _
          simp only [Function.comp, hp]
          push_cast
          ring
        · rw [hap, hp, List.length_cons]; push_cast; ring

/-- A result of the loop does not depend on the fuel: more fuel gives the same state. -/
theorem sortLoop_fuel_mono : ∀ (fuel : Nat) (st st1 : SortState T),
    sortLoop fuel st = .ok st1 → ∀ extra : Nat, sortLoop (fuel + extra) st = .ok st1 := by
  intro fuel
  induction fuel with
  | zero => intro st st1 h; simp [sortLoop] at h
  | succ fuel ih =>
    intro st st1 h extra
    have e : fuel + 1 + extra = (fuel + extra) + 1 := by omega
    rw [e]
    cases hq : st.q_of_indegree_0 with
    | nil =>
      simp only [sortLoop, hq] at h ⊢
      exact h
    | cons front q =>
      simp only [sortLoop, hq] at h ⊢
      cases hs : sortStep st front q with
      | error e => simp [hs] at h
      | ok st2 =>
        simp only [hs] at h ⊢
        exact ih st2 st1 h extra

/-- A result of `topological_sort` is the result for every larger fuel. -/
theorem topological_sort_fuel_mono (g : Graph T) (r : Bool × Graph T)
    (h : g.topological_sort = .ok r) (extra : Nat) :
    g.topological_sort_fuel (g.node_set.length + 1 + extra) = .ok r := by
  unfold Graph.topological_sort Graph.topological_sort_fuel at h
  unfold Graph.topological_sort_fuel
  cases hl : sortLoop (g.node_set.length + 1) (sortInit g) with
  | error e => simp [hl] at h
  | ok st =>
    rw [sortLoop_fuel_mono _ _ _ hl extra]
    simp only [hl] at h
    exact h

theorem Edge_of_skel {N N1 : List (Vertex T)} (h : skel N = skel N1) {a b : T}
    (he : Edge N a b) : Edge N1 a b := by
  obtain ⟨u, hu, hul, hb⟩ := he
  obtain ⟨u1, hu1, hl, ha⟩ := mem_of_skel h hu
  exact ⟨u1, hu1, hl.trans hul, ha ▸ hb⟩

theorem Closed_of_skel {N N1 : List (Vertex T)} (h : skel N = skel N1) (hc : Closed N) :
    Closed N1 := by
  intro u hu w hw
  obtain ⟨u0, hu0, _, ha⟩ := mem_of_skel h.symm hu
  rw [← labels_of_skel h]
  exact hc u0 hu0 w (ha ▸ hw)

/-- The graphs `buildGraph` produces from an empty graph have distinct keys and a `_size`
that is at least the number of stored vertices, in whatever order the table iterates. -/
theorem built_wf (input : List String) (g : Graph String)
    (hperm : g.node_set.Perm (mainGraph input).node_set)
    (hsize : g._size = (mainGraph input)._size) :
    (labels g.node_set).Nodup ∧ g.node_set.length ≤ g._size := by
  have hg : mainGraph input = _ := buildGraph_eq input {}
  constructor
  · have hp : (labels g.node_set).Perm (labels (mainGraph input).node_set) := hperm.map _
    rw [hp.nodup_iff, hg]
    exact nodup_foldl_insert _ _ (by simp [labels])
  · rw [hperm.length_eq, hsize, hg]
    have := length_foldl_insert_le (parsedVertices input) []
    simpa using this

/-- After `compute_indegree` on a table with distinct keys and stored targets, the loop of
`topological_sort` returns with the invariants established. -/
theorem sort_after_indegree (g g1 : Graph T) (hnd : (labels g.node_set).Nodup)
    (hcl : Closed g.node_set) (h1 : g.compute_indegree = .ok g1) :
    g1._size = g._size ∧ g1.sorted_queue = g.sorted_queue ∧ skel g1.node_set = skel g.node_set ∧
    ∃ st done, sortLoop (g1.node_set.length + 1) (sortInit g1) = .ok st ∧
      SortInv g1.node_set st.node_set [] done [] ∧
      RankInv (ranked st.node_set) done st.popped_counter ∧
      st.popped_counter = (done.length : Int) ∧
      ∃ added, st.sorted_queue = g1.sorted_queue ++ added ∧ done = labels added := by
  obtain ⟨g1b, hg1, hnodes, _⟩ := compute_indegree_core g hcl
  rw [h1] at hg1
  cases hg1
  obtain ⟨hsz, hsq⟩ := compute_indegree_frame g g1 h1
  have hsk : skel g1.node_set = skel g.node_set := by
    rw [hnodes]; unfold skel; rw [List.map_map]; rfl
  have hnd1 : (labels g1.node_set).Nodup := by rw [labels_of_skel hsk]; exact hnd
  have hcl1 : Closed g1.node_set := Closed_of_skel hsk.symm hcl
  have hin : ∀ w ∈ g1.node_set, w.indegree = (inCount g1.node_set w.label : Int) := by
    intro w hw
    have e : inCount g1.node_set w.label = inCount g.node_set w.label := by
      rw [hnodes]
      apply inCount_map_adj
      intro v
      rfl
    rw [e]
    rw [hnodes] at hw
    obtain ⟨v0, _, rfl⟩ := List.mem_map.mp hw
    rfl
  exact ⟨hsz, hsq, hsk, sortLoop_total g1 hnd1 hcl1 hin⟩

theorem topological_sort_of_loop (g : Graph T) (st : SortState T)
    (h : sortLoop (g.node_set.length + 1) (sortInit g) = .ok st) :
    g.topological_sort = .ok (decide (st.popped_counter = (g._size : Int)),
      { node_set := st.node_set, _size := g._size, sorted_queue := st.sorted_queue }) := by
  unfold Graph.topological_sort Graph.topological_sort_fuel
  rw [h]
  by_cases hp : st.popped_counter = (g._size : Int) <;> simp [hp]

theorem length_of_skel {N N1 : List (Vertex T)} (h : skel N = skel N1) : N.length = N1.length := by
  have := congrArg List.length h
  simpa [skel] using this

/-- Outcome of `compute_indegree` followed by `topological_sort` on a table with distinct
keys and stored targets: both return, with the verdict read off the number of dequeued
labels, and the invariants hold for the table that is left. -/
theorem sortAfterIndegree_spec (g : Graph T) (hnd : (labels g.node_set).Nodup)
    (hcl : Closed g.node_set) :
    ∃ (nodes sq : List (Vertex T)) (done : List T) (popped : Int),
      sortAfterIndegree g = .ok (decide (popped = (g._size : Int)),
        { node_set := nodes, _size := g._size, sorted_queue := sq }) ∧
      skel nodes = skel g.node_set ∧ popped = (done.length : Int) ∧
      done.Nodup ∧ (∀ k ∈ done, k ∈ labels g.node_set) ∧
      (∀ k ∈ done, ¬ Relation.TransGen (Edge g.node_set) k k) ∧
      (g.node_set.length ≤ done.length → ∀ k ∈ labels g.node_set, k ∈ done) ∧
      RankInv (ranked nodes) done popped ∧
      (¬ HasCycle g.node_set → ∀ k ∈ labels g.node_set, k ∈ done) ∧
      ∃ added, sq = g.sorted_queue ++ added ∧ done = labels added ∧
        added.map (fun v => v.top_num) =
          (List.range added.length).map (fun (i : Nat) => (i : Int) + 1) := by
  obtain ⟨g1, h1, _, _⟩ := compute_indegree_core g hcl
  obtain ⟨hsz, hsq0, hsk, st, done, hloop, hinv, hrank, hp, added, hadd, hdone⟩ :=
    sort_after_indegree g g1 hnd hcl h1
  have hlab : labels g1.node_set = labels g.node_set := labels_of_skel hsk
  refine ⟨st.node_set, st.sorted_queue, done, st.popped_counter, ?_, hinv.skel_eq.trans hsk, hp,
    hinv.dnodup, ?_, ?_, ?_, hrank, ?_, added, by rw [hadd, hsq0], hdone, ?_⟩
  · unfold sortAfterIndegree
    rw [h1]
    simp only
    rw [topological_sort_of_loop g1 st hloop, hsz]
  · intro k hk; rw [← hlab]; exact hinv.dsub k hk
  · intro k hk hc
    exact hinv.nocyc k hk (Relation.TransGen.mono (fun a b he => Edge_of_skel hsk.symm he) hc)
  · intro hlen k hk
    rw [← hlab] at hk
    exact done_covers hinv (by rw [length_of_skel hsk]; exact hlen) k hk
  · intro hac k hk
    rw [← hlab] at hk
    refine acyclic_covers hinv ?_ k hk
    rintro ⟨a, ha⟩
    exact hac ⟨a, Relation.TransGen.mono (fun _ _ he => Edge_of_skel hsk he) ha⟩
  · obtain ⟨added2, ha2, hat, _⟩ := sortLoop_sorted_queue _ _ _ hloop
    have hsame : added2 = added := by
      have e : (sortInit g1).sorted_queue = g1.sorted_queue := rfl
      rw [e] at ha2
      rw [hadd] at ha2
      exact (List.append_cancel_left ha2).symm
    subst hsame
    rw [hat]
    apply List.map_congr_left
    intro i _
    simp [sortInit]; ring

/-- A verdict `true` on a table with distinct keys, stored targets and a `_size` no smaller
than the number of stored vertices: ranks increase strictly along every edge. -/
theorem rank_order_of_true (g g2 : Graph T) (hnd : (labels g.node_set).Nodup)
    (hcl : Closed g.node_set) (hle : g.node_set.length ≤ g._size)
    (h : sortAfterIndegree g = .ok (true, g2)) :
    skel g2.node_set = skel g.node_set ∧
    ∀ u ∈ g2.node_set, ∀ k ∈ u.adj_list, ∃ w, g2.vertexAt k = .ok w ∧ u.top_num < w.top_num := by
  obtain ⟨nodes, sq, done, popped, hs, hsk, hp, _, _, _, hcov, hrank, _⟩ :=
    sortAfterIndegree_spec g hnd hcl
  rw [hs] at h
  simp only [Except.ok.injEq, Prod.mk.injEq, decide_eq_true_eq] at h
  obtain ⟨hpop, rfl⟩ := h
  have hlen : g.node_set.length ≤ done.length := by
    have : (done.length : Int) = (g._size : Int) := by rw [← hp, hpop]
    have : done.length = g._size := by exact_mod_cast this
    omega
  refine ⟨hsk, ?_⟩
  intro u hu k hk
  have hcl2 : Closed nodes := Closed_of_skel hsk.symm hcl
  have hnd2 : (labels nodes).Nodup := by rw [labels_of_skel hsk]; exact hnd
  obtain ⟨w, hw⟩ := findVertex_isSome (hcl2 u hu k hk)
  obtain ⟨hwl, hwm⟩ := findVertex_some_label hw
  refine ⟨w, ?_, ?_⟩
  · unfold Graph.vertexAt
    simp only [hw]
  · have hkd : w.label ∈ done := by
      rw [hwl]
      exact hcov hlen k (by rw [← labels_of_skel hsk]; exact hcl2 u hu k hk)
    have := (hrank.order (u.label, u.adj_list, u.top_num) (List.mem_map.mpr ⟨u, hu, rfl⟩)
      (w.label, w.adj_list, w.top_num) (List.mem_map.mpr ⟨w, hwm, rfl⟩) (by simpa [hwl] using hk) hkd).2
    simpa using this

/-- A directed cycle in a table with distinct keys, stored targets and a `_size` no smaller
than the number of stored vertices: the verdict is `false`. -/
theorem verdict_false_of_cycle (g : Graph T) (hnd : (labels g.node_set).Nodup)
    (hcl : Closed g.node_set) (hle : g.node_set.length ≤ g._size)
    (hcyc : HasCycle g.node_set) :
    ∃ g2, sortAfterIndegree g = .ok (false, g2) := by
  obtain ⟨nodes, sq, done, popped, hs, hsk, hp, hdn, hdsub, hnocyc, _, _, _⟩ :=
    sortAfterIndegree_spec g hnd hcl
  obtain ⟨a, ha⟩ := hcyc
  have hal : a ∈ labels g.node_set := by
    obtain ⟨b, ⟨u, hu, hul, _⟩, _⟩ := Relation.TransGen.head'_iff.mp ha
    exact hul ▸ List.mem_map_of_mem (fun v => v.label) hu
  have had : a ∉ done := fun hd => hnocyc a hd ha
  have hlt : done.length < g.node_set.length := by
    have hnd2 : (a :: done).Nodup := List.nodup_cons.mpr ⟨had, hdn⟩
    have hsub : (a :: done) ⊆ labels g.node_set := by
      intro x hx
      rcases List.mem_cons.mp hx with e | e
      · exact e ▸ hal
      · exact hdsub x e
    have := (List.subperm_of_subset hnd2 hsub).length_le
    simp only [labels, List.length_cons, List.length_map] at this
    omega
  have hne : ¬ popped = (g._size : Int) := by
    rw [hp]
    intro e
    have : done.length = g._size := by exact_mod_cast e
    omega
  refine ⟨{ node_set := nodes, _size := g._size, sorted_queue := sq }, ?_⟩
  rw [hs]
  simp [hne]

/-- No directed cycle in a table with distinct keys, stored targets and a `_size` equal to
the number of stored vertices: the verdict is `true`, and the entries pushed on
`sorted_queue` are one per stored vertex, with the ranks 1, 2, ... in push order. -/
theorem verdict_true_of_acyclic (g : Graph T) (hnd : (labels g.node_set).Nodup)
    (hcl : Closed g.node_set) (hsize : g._size = g.node_set.length)
    (hac : ¬ HasCycle g.node_set) :
    ∃ g2 added, sortAfterIndegree g = .ok (true, g2) ∧
      skel g2.node_set = skel g.node_set ∧
      g2.sorted_queue = g.sorted_queue ++ added ∧
      (added.length : Int) = g.size ∧
      (labels added).Perm (labels g.node_set) ∧
      added.map (fun v => v.top_num) =
        (List.range added.length).map (fun (i : Nat) => (i : Int) + 1) := by
  obtain ⟨nodes, sq, done, popped, hs, hsk, hp, hdn, hdsub, _, _, _, hcov, added, hsq, hdone, htop⟩ :=
    sortAfterIndegree_spec g hnd hcl
  have hperm : done.Perm (labels g.node_set) := by
    have h1 := List.subperm_of_subset hdn (fun k hk => hdsub k hk)
    have h2 := List.subperm_of_subset hnd (fun k hk => hcov hac k hk)
    exact h1.perm_of_length_le h2.length_le
  have hlen : done.length = g._size := by
    rw [hperm.length_eq, hsize]; simp [labels]
  have hpop : popped = (g._size : Int) := by rw [hp, hlen]
  refine ⟨{ node_set := nodes, _size := g._size, sorted_queue := sq }, added, ?_, hsk, hsq, ?_, ?_,
    htop⟩
  · rw [hs]; simp [hpop]
  · unfold Graph.size
    rw [← hlen, hdone]; simp [labels]
  · rw [← hdone]; exact hperm

/-- When the lines before the first empty line carry distinct first tokens, `_size` is the
number of stored vertices. -/
theorem built_size_of_distinct (input : List String) (g : Graph String)
    (hperm : g.node_set.Perm (mainGraph input).node_set)
    (hsize : g._size = (mainGraph input)._size)
    (hdistinct : (labels (parsedVertices input)).Nodup) :
    g._size = g.node_set.length := by
  have hg : mainGraph input = _ := buildGraph_eq input {}
  rw [hperm.length_eq, hsize, hg]
  simp only
  rw [foldl_insert_of_nodup _ _ (by simpa using hdistinct)]
  simp

/-- The claim on acyclic graphs holds for inputs whose lines carry distinct first tokens:
with all targets stored and no directed cycle, `compute_indegree` followed by
`topological_sort` returns true and pushes every stored vertex once, with ranks 1 to
`size()`. -/
theorem sort_acyclic_distinct_labels (input : List String) (g : Graph String)
    (hperm : g.node_set.Perm (mainGraph input).node_set)
    (hsize : g._size = (mainGraph input)._size)
    (hdistinct : (labels (parsedVertices input)).Nodup)
    (hclosed : Closed g.node_set) (hac : ¬ HasCycle g.node_set) :
    ∃ g2 added, sortAfterIndegree g = .ok (true, g2) ∧
      skel g2.node_set = skel g.node_set ∧
      g2.sorted_queue = g.sorted_queue ++ added ∧
      (added.length : Int) = g.size ∧
      (labels added).Perm (labels g.node_set) ∧
      added.map (fun v => v.top_num) =
        (List.range added.length).map (fun (i : Nat) => (i : Int) + 1) :=
  verdict_true_of_acyclic g (built_wf input g hperm hsize).1 hclosed
    (built_size_of_distinct input g hperm hsize hdistinct) hac

end SortLemmas

/-! ## Frame lemmas and blank lines -/

section FrameLemmas

variable {T : Type} [DecidableEq T]

theorem relaxEdge_skel {nodes q n1 q1 : List (Vertex T)} {a : T}
    (h : relaxEdge nodes q a = .ok (n1, q1)) : skel n1 = skel nodes := by
  unfold relaxEdge at h
  cases hf : findVertex nodes a with
  | none => simp [hf] at h
  | some w =>
    simp only [hf] at h
    have hsk : skel (updateVertex nodes a (fun v => { v with indegree := v.indegree - 1 })) =
        skel nodes := skel_updateVertex _ _ _ (fun _ => rfl) (fun _ => rfl)
    by_cases hz : w.indegree - 1 = 0
    · rw [if_pos hz] at h
      simp only [Except.ok.injEq, Prod.mk.injEq] at h
      rw [← h.1]; exact hsk
    · rw [if_neg hz] at h
      simp only [Except.ok.injEq, Prod.mk.injEq] at h
      rw [← h.1]; exact hsk

theorem relaxAll_skel (rest : List T) : ∀ {nodes q n1 q1 : List (Vertex T)},
    relaxAll nodes q rest = .ok (n1, q1) → skel n1 = skel nodes := by
  induction rest with
  | nil =>
    intro nodes q n1 q1 h
    simp only [relaxAll, Except.ok.injEq, Prod.mk.injEq] at h
    rw [h.1]
  | cons a rest ih =>
    intro nodes q n1 q1 h
    simp only [relaxAll] at h
    cases he : relaxEdge nodes q a with
    | error e => simp [he] at h
    | ok pr =>
      obtain ⟨n0, q0⟩ := pr
      simp only [he] at h
      exact (ih h).trans (relaxEdge_skel he)

theorem sortStep_skel {st st1 : SortState T} {front : Vertex T} {q : List (Vertex T)}
    (h : sortStep st front q = .ok st1) : skel st1.node_set = skel st.node_set := by
  unfold sortStep at h
  cases hf : findVertex st.node_set front.label with
  | none => simp [hf] at h
  | some v =>
    simp only [hf] at h
    cases hr : relaxAll (updateVertex st.node_set front.label
        (fun x => { x with top_num := st.popped_counter + 1 })) q v.adj_list with
    | error e => simp [hr] at h
    | ok pr =>
      obtain ⟨n2, q2⟩ := pr
      simp only [hr, Except.ok.injEq] at h
      subst h
      exact (relaxAll_skel _ hr).trans (skel_updateVertex _ _ _ (fun _ => rfl) (fun _ => rfl))

theorem sortLoop_skel : ∀ (fuel : Nat) (st st1 : SortState T),
    sortLoop fuel st = .ok st1 → skel st1.node_set = skel st.node_set := by
  intro fuel
  induction fuel with
  | zero => intro st st1 h; simp [sortLoop] at h
  | succ fuel ih =>
    intro st st1 h
    cases hq : st.q_of_indegree_0 with
    | nil =>
      simp only [sortLoop, hq, Except.ok.injEq] at h
      rw [h]
    | cons front q =>
      simp only [sortLoop, hq] at h
      cases hs : sortStep st front q with
      | error e => simp [hs] at h
      | ok st2 =>
        simp only [hs] at h
        exact (ih st2 st1 h).trans (sortStep_skel hs)

/-- `topological_sort` writes neither keys, adjacency lists nor `_size`. -/
theorem topological_sort_frame (g g2 : Graph T) (b : Bool)
    (h : g.topological_sort = .ok (b, g2)) :
    skel g2.node_set = skel g.node_set ∧ g2._size = g._size := by
  unfold Graph.topological_sort Graph.topological_sort_fuel at h
  cases hl : sortLoop (g.node_set.length + 1) (sortInit g) with
  | error e => simp [hl] at h
  | ok st =>
    simp only [hl] at h
    have hsk := sortLoop_skel _ _ _ hl
    by_cases hne : st.popped_counter ≠ (g._size : Int)
    · rw [if_pos hne] at h
      simp only [Except.ok.injEq, Prod.mk.injEq] at h
      rw [← h.2]
      exact ⟨hsk, rfl⟩
    · rw [if_neg hne] at h
      simp only [Except.ok.injEq, Prod.mk.injEq] at h
      rw [← h.2]
      exact ⟨hsk, rfl⟩

/-- When `compute_indegree` returns, every target is stored. -/
theorem closed_of_compute_ok (g g1 : Graph T) (h : g.compute_indegree = .ok g1) :
    Closed g.node_set := by
  intro u hu w hw
  by_contra hn
  have hlab : labels (g.node_set.map (fun v => { v with indegree := (0 : Int) })) =
      labels g.node_set := by
    unfold labels; rw [List.map_map]; rfl
  have herr := incrLoop_error (g.node_set.map (fun v => { v with indegree := (0 : Int) }))
    (g.node_set.map (fun v => { v with indegree := (0 : Int) }))
    ⟨_, List.mem_map_of_mem _ hu, w, hw, by rwa [hlab]⟩
  unfold Graph.compute_indegree at h
  simp only [herr] at h
  cases h

/-- `compute_indegree` writes nothing but the `indegree` fields. -/
theorem compute_indegree_keeps (g g1 : Graph T) (h : g.compute_indegree = .ok g1) :
    skel g1.node_set = skel g.node_set ∧ ranked g1.node_set = ranked g.node_set ∧
    g1._size = g._size ∧ g1.sorted_queue = g.sorted_queue := by
  obtain ⟨g1b, hg1, hnodes, _⟩ := compute_indegree_core g (closed_of_compute_ok g g1 h)
  rw [h] at hg1
  cases hg1
  obtain ⟨hsz, hsq⟩ := compute_indegree_frame g g1 h
  refine ⟨?_, ?_, hsz, hsq⟩
  · rw [hnodes]; unfold skel; rw [List.map_map]; rfl
  · rw [hnodes]; unfold ranked; rw [List.map_map]; rfl

theorem extractTokens_blank (l : List Char) (h : ∀ c ∈ l, isspace c = true) :
    extractTokens l [] = [] := by
  induction l with
  | nil => rfl
  | cons c cs ih =>
    have hc : isspace c = true := h c (List.mem_cons_self _ _)
    simp only [extractTokens, hc, if_true, List.isEmpty_nil]
    exact ih (fun x hx => h x (List.mem_cons_of_mem _ hx))

theorem buildGraph_append (pre : List String) : ∀ (g : Graph String) (rest : List String),
    (∀ l ∈ pre, l.isEmpty = false) →
    g.buildGraph (pre ++ rest) = (g.buildGraph pre).buildGraph rest := by
  induction pre with
  | nil => intro g rest _; rfl
  | cons a pre ih =>
    intro g rest h
    have ha : a.isEmpty = false := h a (List.mem_cons_self _ _)
    simp only [List.cons_append, Graph.buildGraph, ha, Bool.false_eq_true, if_false]
    exact ih _ rest (fun l hl => h l (List.mem_cons_of_mem _ hl))

end FrameLemmas

/-! ## The priority queue and print_top_sort -/

section QueueLemmas

variable {T : Type} [DecidableEq T]

theorem pqTop_mem : ∀ (l : List (Vertex T)) (w : Vertex T), pqTop l = some w → w ∈ l := by
  intro l
  induction l with
  | nil => intro w h; simp [pqTop] at h
  | cons v rest ih =>
    intro w h
    simp only [pqTop] at h
    cases hr : pqTop rest with
    | none =>
      simp only [hr, Option.some.injEq] at h
      subst h
      exact List.mem_cons_self _ _
    | some x =>
      simp only [hr] at h
      by_cases hlt : x.top_num < v.top_num
      · rw [if_pos hlt, Option.some.injEq] at h
        subst h
        exact List.mem_cons_of_mem _ (ih x hr)
      · rw [if_neg hlt, Option.some.injEq] at h
        subst h
        exact List.mem_cons_self _ _

/-- In a queue whose ranks increase strictly in push order, the top is the element pushed
first. -/
theorem pqTop_increasing (v : Vertex T) (rest : List (Vertex T))
    (h : ((v :: rest).map (fun x => x.top_num)).Pairwise (fun a b => a < b)) :
    pqTop (v :: rest) = some v := by
  simp only [pqTop]
  cases hr : pqTop rest with
  | none => rfl
  | some w =>
    have hw := pqTop_mem rest w hr
    simp only [List.map_cons, List.pairwise_cons] at h
    have hlt := h.1 w.top_num (List.mem_map_of_mem (fun x => x.top_num) hw)
    have : ¬ w.top_num < v.top_num := by omega
    simp only [this, if_false]

theorem pqPop_increasing (v : Vertex T) (rest : List (Vertex T))
    (h : ((v :: rest).map (fun x => x.top_num)).Pairwise (fun a b => a < b)) :
    pqPop (v :: rest) = rest := by
  unfold pqPop
  rw [pqTop_increasing v rest h]
  simp

theorem topLabels_increasing : ∀ (sq : List (Vertex T)),
    (sq.map (fun x => x.top_num)).Pairwise (fun a b => a < b) →
    topLabels sq.length sq = some (labels sq, []) := by
  intro sq
  induction sq with
  | nil => intro _; rfl
  | cons v rest ih =>
    intro h
    have hrest : (rest.map (fun x => x.top_num)).Pairwise (fun a b => a < b) := by
      simp only [List.map_cons, List.pairwise_cons] at h
      exact h.2
    simp only [List.length_cons, topLabels, pqTop_increasing v rest h, pqPop_increasing v rest h,
      ih hrest]
    rfl

theorem printLoop_increasing : ∀ (sq : List (Vertex String)) (os : String),
    (sq.map (fun x => x.top_num)).Pairwise (fun a b => a < b) →
    printLoop sq.length os sq = some (os ++ spaced (labels sq), []) := by
  intro sq
  induction sq with
  | nil => intro os _; simp [printLoop, spaced, labels]
  | cons v rest ih =>
    intro os h
    have hrest : (rest.map (fun x => x.top_num)).Pairwise (fun a b => a < b) := by
      simp only [List.map_cons, List.pairwise_cons] at h
      exact h.2
    simp only [List.length_cons, printLoop, pqTop_increasing v rest h, pqPop_increasing v rest h,
      ih _ hrest]
    simp only [labels, List.map_cons, spaced, String.append_assoc]

theorem ranks_increasing (n : Nat) :
    ((List.range n).map (fun (i : Nat) => (i : Int) + 1)).Pairwise (fun a b => a < b) := by
  rw [List.pairwise_map]
  exact (List.pairwise_lt_range n).imp (fun {a b} hab => by omega)

theorem sortStep_pushes {st st1 : SortState T} {front : Vertex T} {q : List (Vertex T)}
    (h : sortStep st front q = .ok st1) :
    ∃ v1, st1.sorted_queue = st.sorted_queue ++ [v1] ∧ v1.label = front.label ∧
      v1.top_num = st.popped_counter + 1 ∧ st1.popped_counter = st.popped_counter + 1 := by
  unfold sortStep at h
  cases hf : findVertex st.node_set front.label with
  | none => simp [hf] at h
  | some v =>
    simp only [hf] at h
    cases hr : relaxAll (updateVertex st.node_set front.label
        (fun x => { x with top_num := st.popped_counter + 1 })) q v.adj_list with
    | error e => simp [hr] at h
    | ok pr =>
      obtain ⟨n2, q2⟩ := pr
      simp only [hr, Except.ok.injEq] at h
      subst h
      exact ⟨_, rfl, (findVertex_some_label hf).1, rfl, rfl⟩

/-- The entries that the loop appends to `sorted_queue` carry the dequeued labels, in the
order of dequeuing, with consecutive ranks. -/
theorem sortLoop_pushes : ∀ (fuel : Nat) (st st1 : SortState T),
    sortLoop fuel st = .ok st1 →
    ∃ added : List (Vertex T), st1.sorted_queue = st.sorted_queue ++ added ∧
      labels added = dequeued fuel st ∧
      added.map (fun v => v.top_num) =
        (List.range added.length).map (fun (i : Nat) => st.popped_counter + 1 + (i : Int)) ∧
      st1.popped_counter = st.popped_counter + (added.length : Int) := by
  intro fuel
  induction fuel with
  | zero => intro st st1 h; simp [sortLoop] at h
  | succ fuel ih =>
    intro st st1 h
    cases hq : st.q_of_indegree_0 with
    | nil =>
      simp only [sortLoop, hq, Except.ok.injEq] at h
      subst h
      exact ⟨[], by simp, by simp [dequeued, hq, labels], by simp, by simp⟩
    | cons front q =>
      simp only [sortLoop, hq] at h
      cases hs : sortStep st front q with
      | error e => simp [hs] at h
      | ok st2 =>
        simp only [hs] at h
        obtain ⟨v1, hv1, hv1l, hv1t, hp⟩ := sortStep_pushes hs
        obtain ⟨added, ha, hal, hat, hap⟩ := ih st2 st1 h
        refine ⟨v1 :: added, ?_, ?_, ?_, ?_⟩
        · rw [ha, hv1]; simp
        · simp only [dequeued, hq, hs, labels, List.map_cons, hv1l]
          exact congrArg _ hal
        · rw [List.map_cons, hat, hv1t, List.length_cons, List.range_succ_eq_map, List.map_cons,
            List.map_map]
          simp only [Nat.cast_zero, add_zero, List.cons.injEq, true_and]
          apply List.map_congr_left
          intro i _
          simp only [Function.comp, hp]
          push_cast
          ring
        · rw [hap, hp, List.length_cons]; push_cast; ring

/-- What a call of `topological_sort` leaves in `sorted_queue`: the former entries, then one
entry per dequeued label with the ranks 1, 2, ...; the verdict is `true` exactly when the
number of new entries is `_size`. -/
theorem topological_sort_queue (g g2 : Graph T) (b : Bool)
    (h : g.topological_sort = .ok (b, g2)) :
    ∃ added : List (Vertex T), g2.sorted_queue = g.sorted_queue ++ added ∧
      labels added = dequeued (g.node_set.length + 1) (sortInit g) ∧
      added.map (fun v => v.top_num) =
        (List.range added.length).map (fun (i : Nat) => (i : Int) + 1) ∧
      g2._size = g._size ∧ (b = true ↔ added.length = g._size) := by
  unfold Graph.topological_sort Graph.topological_sort_fuel at h
  cases hl : sortLoop (g.node_set.length + 1) (sortInit g) with
  | error e => simp [hl] at h
  | ok st =>
    simp only [hl] at h
    obtain ⟨added, ha, hal, hat, hp⟩ := sortLoop_pushes _ _ _ hl
    have hp0 : st.popped_counter = (added.length : Int) := by
      rw [hp]; simp [sortInit]
    have hat2 : added.map (fun v => v.top_num) =
        (List.range added.length).map (fun (i : Nat) => (i : Int) + 1) := by
      rw [hat]
      apply List.map_congr_left
      intro i _
      simp [sortInit]; ring
    by_cases hne : st.popped_counter ≠ (g._size : Int)
    · rw [if_pos hne] at h
      simp only [Except.ok.injEq, Prod.mk.injEq] at h
      obtain ⟨hb, hg⟩ := h
      subst hg
      refine ⟨added, ha, hal, hat2, rfl, ?_⟩
      rw [← hb]
      constructor
      · intro e; cases e
      · intro e
        exact absurd (by rw [hp0, e]) hne
    · rw [if_neg hne] at h
      simp only [Except.ok.injEq, Prod.mk.injEq] at h
      obtain ⟨hb, hg⟩ := h
      subst hg
      refine ⟨added, ha, hal, hat2, rfl, ?_⟩
      rw [← hb]
      simp only [true_iff]
      have : (added.length : Int) = (g._size : Int) := by
        rw [← hp0]; exact not_not.mp hne
      exact_mod_cast this

theorem sortStep_pushes_stored {st st1 : SortState T} {front : Vertex T} {q : List (Vertex T)}
    (h : sortStep st front q = .ok st1) :
    ∃ v1, st1.sorted_queue = st.sorted_queue ++ [v1] ∧
      (v1.label, v1.adj_list) ∈ skel st.node_set := by
  unfold sortStep at h
  cases hf : findVertex st.node_set front.label with
  | none => simp [hf] at h
  | some v =>
    simp only [hf] at h
    cases hr : relaxAll (updateVertex st.node_set front.label
        (fun x => { x with top_num := st.popped_counter + 1 })) q v.adj_list with
    | error e => simp [hr] at h
    | ok pr =>
      obtain ⟨n2, q2⟩ := pr
      simp only [hr, Except.ok.injEq] at h
      subst h
      have hm : (v.label, v.adj_list) ∈ skel st.node_set :=
        mem_skel (findVertex_some_label hf).2
      exact ⟨_, rfl, hm⟩

/-- Every entry that the loop appends to `sorted_queue` carries the label and the adjacency
list of a stored vertex. -/
theorem sortLoop_pushes_stored : ∀ (fuel : Nat) (st st1 : SortState T),
    sortLoop fuel st = .ok st1 →
    ∃ added : List (Vertex T), st1.sorted_queue = st.sorted_queue ++ added ∧
      ∀ v ∈ added, (v.label, v.adj_list) ∈ skel st.node_set := by
  intro fuel
  induction fuel with
  | zero => intro st st1 h; simp [sortLoop] at h
  | succ fuel ih =>
    intro st st1 h
    cases hq : st.q_of_indegree_0 with
    | nil =>
      simp only [sortLoop, hq, Except.ok.injEq] at h
      subst h
      exact ⟨[], by simp, fun v hv => by cases hv⟩
    | cons front q =>
      simp only [sortLoop, hq] at h
      cases hs : sortStep st front q with
      | error e => simp [hs] at h
      | ok st2 =>
        simp only [hs] at h
        obtain ⟨v1, hv1, hv1m⟩ := sortStep_pushes_stored hs
        obtain ⟨added, ha, ham⟩ := ih st2 st1 h
        refine ⟨v1 :: added, by rw [ha, hv1]; simp, ?_⟩
        intro v hv
        rcases List.mem_cons.mp hv with e | e
        · exact e ▸ hv1m
        · rw [← sortStep_skel hs]
          exact ham v e

/-- With an empty queue at the call, every entry that `topological_sort` leaves in
`sorted_queue` carries the label and the adjacency list of a stored vertex. -/
theorem topological_sort_pushes_stored (g g2 : Graph T) (b : Bool)
    (hempty : g.sorted_queue = [])
    (h : g.topological_sort = .ok (b, g2)) :
    ∀ v ∈ g2.sorted_queue, ∃ u ∈ g.node_set, u.label = v.label ∧ u.adj_list = v.adj_list := by
  unfold Graph.topological_sort Graph.topological_sort_fuel at h
  cases hl : sortLoop (g.node_set.length + 1) (sortInit g) with
  | error e => simp [hl] at h
  | ok st =>
    simp only [hl] at h
    obtain ⟨added, ha, ham⟩ := sortLoop_pushes_stored _ _ _ hl
    have hsq : st.sorted_queue = added := by
      rw [ha]; simp [sortInit, hempty]
    have hg2 : g2.sorted_queue = st.sorted_queue := by
      by_cases hne : st.popped_counter ≠ (g._size : Int)
      · rw [if_pos hne] at h
        simp only [Except.ok.injEq, Prod.mk.injEq] at h
        rw [← h.2]
      · rw [if_neg hne] at h
        simp only [Except.ok.injEq, Prod.mk.injEq] at h
        rw [← h.2]
    intro v hv
    rw [hg2, hsq] at hv
    obtain ⟨u, hu, hue⟩ := List.mem_map.mp (ham v hv)
    simp only [Prod.mk.injEq] at hue
    exact ⟨u, hu, hue.1, hue.2⟩

end QueueLemmas

/-! ## topological_sort for arbitrary counters -/

section EnqueueLemmas

variable {T : Type} [DecidableEq T]

theorem eq_of_label_eq {nodes : List (Vertex T)} (hnd : (labels nodes).Nodup)
    {u w : Vertex T} (hu : u ∈ nodes) (hw : w ∈ nodes) (h : u.label = w.label) : u = w := by
  have h1 := findVertex_of_mem hnd hu
  have h2 := findVertex_of_mem hnd hw
  rw [h, h2] at h1
  exact (Option.some.inj h1).symm

theorem relaxEdge_enq {N0 nodes q : List (Vertex T)} {done : List T} {a : T}
    (hnd0 : (labels N0).Nodup) (h : EnqInv N0 nodes q done) (ha : a ∈ labels N0) :
    ∃ n1 q1, relaxEdge nodes q a = .ok (n1, q1) ∧ EnqInv N0 n1 q1 done ∧
      ranked n1 = ranked nodes ∧ ∀ x ∈ labels q, x ∈ labels q1 := by
  have hlab : labels nodes = labels N0 := labels_of_skel h.skel_eq
  have hndn : (labels nodes).Nodup := hlab ▸ hnd0
  obtain ⟨w, hw⟩ := findVertex_isSome (hlab ▸ ha)
  obtain ⟨hwl, hwm⟩ := findVertex_some_label hw
  have hsk : skel (updateVertex nodes a (fun v => { v with indegree := v.indegree - 1 })) =
      skel nodes := skel_updateVertex _ _ _ (fun _ => rfl) (fun _ => rfl)
  have hrk : ranked (updateVertex nodes a (fun v => { v with indegree := v.indegree - 1 })) =
      ranked nodes := ranked_updateVertex _ _ _ (fun _ => rfl) (fun _ => rfl) (fun _ => rfl)
  have hsame : ∀ x ∈ nodes, x.label = a → x = w := fun x hx hxa =>
    eq_of_label_eq hndn hx hwm (hxa.trans hwl.symm)
  by_cases hz : w.indegree - 1 = 0
  · have heq : relaxEdge nodes q a = .ok
        (updateVertex nodes a (fun v => { v with indegree := v.indegree - 1 }),
          q ++ [{ w with indegree := w.indegree - 1 }]) := by
      unfold relaxEdge
      rw [hw]
      simp only [if_pos hz]
    have hnew : a ∉ done ++ labels q := by
      intro hm
      have := h.nonpos w hwm (hwl ▸ hm)
      omega
    have hlq : labels (q ++ [({ w with indegree := w.indegree - 1 } : Vertex T)]) =
        labels q ++ [a] := by
      simp [labels, hwl]
    refine ⟨_, _, heq, ⟨hsk.trans h.skel_eq, ?_, ?_, ?_⟩, hrk, ?_⟩
    · rw [hlq, ← List.append_assoc, List.nodup_append]
      refine ⟨h.pnodup, List.nodup_singleton _, ?_⟩
      intro b hb hb2
      rw [List.mem_singleton] at hb2
      subst hb2
      exact hnew hb
    · intro k hk
      rw [hlq, ← List.append_assoc] at hk
      rcases List.mem_append.mp hk with e | e
      · exact h.psub k e
      · rw [List.mem_singleton] at e
        exact e ▸ ha
    · intro y hy hym
      obtain ⟨x, hx, rfl⟩ := mem_updateVertex.mp hy
      by_cases hxa : x.label = a
      · have := hsame x hx hxa
        subst this
        simp only [hxa, if_true]
        omega
      · simp only [hxa, if_false] at hym ⊢
        rw [hlq, ← List.append_assoc] at hym
        rcases List.mem_append.mp hym with e | e
        · exact h.nonpos x hx e
        · rw [List.mem_singleton] at e
          exact absurd e hxa
    · intro x hx
      rw [hlq]
      exact List.mem_append_left _ hx
  · have heq : relaxEdge nodes q a = .ok
        (updateVertex nodes a (fun v => { v with indegree := v.indegree - 1 }), q) := by
      unfold relaxEdge
      rw [hw]
      simp only [if_neg hz]
    refine ⟨_, _, heq, ⟨hsk.trans h.skel_eq, h.pnodup, h.psub, ?_⟩, hrk, fun x hx => hx⟩
    intro y hy hym
    obtain ⟨x, hx, rfl⟩ := mem_updateVertex.mp hy
    by_cases hxa : x.label = a
    · simp only [hxa, if_true] at hym ⊢
      have := h.nonpos x hx (hxa ▸ hym)
      show x.indegree - 1 ≤ 0
      omega
    · simp only [hxa, if_false] at hym ⊢
      exact h.nonpos x hx hym

theorem relaxAll_enq {N0 : List (Vertex T)} {done : List T} (hnd0 : (labels N0).Nodup)
    (rest : List T) : ∀ (nodes q : List (Vertex T)), EnqInv N0 nodes q done →
    (∀ a ∈ rest, a ∈ labels N0) →
    ∃ n1 q1, relaxAll nodes q rest = .ok (n1, q1) ∧ EnqInv N0 n1 q1 done ∧
      ranked n1 = ranked nodes ∧ ∀ x ∈ labels q, x ∈ labels q1 := by
  induction rest with
  | nil => intro nodes q h _; exact ⟨nodes, q, rfl, h, rfl, fun x hx => hx⟩
  | cons a rest ih =>
    intro nodes q h hr
    obtain ⟨n1, q1, he, hi, hrk, hq⟩ := relaxEdge_enq hnd0 h (hr a (List.mem_cons_self _ _))
    obtain ⟨n2, q2, he2, hi2, hrk2, hq2⟩ :=
      ih n1 q1 hi (fun b hb => hr b (List.mem_cons_of_mem _ hb))
    refine ⟨n2, q2, ?_, hi2, hrk2.trans hrk, fun x hx => hq2 x (hq x hx)⟩
    simp only [relaxAll, he, he2]

theorem sortStep_enq {N0 : List (Vertex T)} (hnd0 : (labels N0).Nodup) (hcl : Closed N0)
    {st : SortState T} {front : Vertex T} {q : List (Vertex T)} {done : List T}
    {rk0 : List (T × List T × Int)}
    (h : EnqInv N0 st.node_set (front :: q) done)
    (hr : RankPos (ranked st.node_set) rk0 done)
    (hp : st.popped_counter = (done.length : Int)) :
    ∃ st1, sortStep st front q = .ok st1 ∧
      EnqInv N0 st1.node_set st1.q_of_indegree_0 (done ++ [front.label]) ∧
      RankPos (ranked st1.node_set) rk0 (done ++ [front.label]) ∧
      st1.popped_counter = st.popped_counter + 1 ∧
      ∀ x ∈ labels q, x ∈ labels st1.q_of_indegree_0 := by
  have hlab : labels st.node_set = labels N0 := labels_of_skel h.skel_eq
  have hfin : front.label ∈ labels N0 :=
    h.psub _ (List.mem_append_right _ (List.mem_cons_self _ _))
  have hfd : front.label ∉ done := by
    intro hd
    have := h.pnodup
    rw [List.nodup_append] at this
    exact this.2.2 hd (List.mem_cons_self _ _)
  obtain ⟨v, hv⟩ := findVertex_isSome (hlab ▸ hfin)
  obtain ⟨hvl, hvm⟩ := findVertex_some_label hv
  obtain ⟨v0, hv0m, _, hv0a⟩ := mem_of_skel h.skel_eq hvm
  have hsk : skel (updateVertex st.node_set front.label
      (fun x => { x with top_num := st.popped_counter + 1 })) = skel st.node_set :=
    skel_updateVertex _ _ _ (fun _ => rfl) (fun _ => rfl)
  have hmid : EnqInv N0 (updateVertex st.node_set front.label
      (fun x => { x with top_num := st.popped_counter + 1 })) q (done ++ [front.label]) := by
    have happ : (done ++ [front.label]) ++ labels q = done ++ labels (front :: q) := by
      simp [labels]
    refine ⟨hsk.trans h.skel_eq, happ ▸ h.pnodup, fun k hk => h.psub k (happ ▸ hk), ?_⟩
    intro y hy hym
    obtain ⟨x, hx, rfl⟩ := mem_updateVertex.mp hy
    rw [setTop_indegree]
    rw [setTop_label, happ] at hym
    exact h.nonpos x hx hym
  have hrank : RankPos (ranked (updateVertex st.node_set front.label
      (fun x => { x with top_num := st.popped_counter + 1 }))) rk0 (done ++ [front.label]) := by
    have hmem : ∀ u ∈ ranked (updateVertex st.node_set front.label
        (fun x => { x with top_num := st.popped_counter + 1 })),
        ∃ x ∈ st.node_set, u.1 = x.label ∧
          ((x.label = front.label ∧ u.2.2 = st.popped_counter + 1) ∨
           (x.label ≠ front.label ∧ u = (x.label, x.adj_list, x.top_num))) := by
      intro u hu
      obtain ⟨z, hz, rfl⟩ := List.mem_map.mp hu
      obtain ⟨x, hx, rfl⟩ := mem_updateVertex.mp hz
      refine ⟨x, hx, ?_⟩
      by_cases hxa : x.label = front.label <;> simp [hxa]
    have hold : ∀ x ∈ st.node_set, (x.label, x.adj_list, x.top_num) ∈ ranked st.node_set :=
      fun x hx => List.mem_map.mpr ⟨x, hx, rfl⟩
    constructor
    · intro u hu hud
      obtain ⟨x, hx, h1, h3⟩ := hmem u hu
      rcases h3 with ⟨he, h3⟩ | ⟨hne, h3⟩
      · rw [h3, h1, he, List.indexOf_append_of_not_mem hfd, hp]
        simp
      · have hxd : x.label ∈ done := by
          rcases List.mem_append.mp hud with e | e
          · exact h1 ▸ e
          · rw [List.mem_singleton] at e
            exact absurd (h1 ▸ e) hne
        have := hr.assigned _ (hold x hx) hxd
        simp only at this
        rw [h3]
        simp only
        rw [List.indexOf_append_of_mem hxd]
        exact this
    · intro u hu hud
      obtain ⟨x, hx, h1, h3⟩ := hmem u hu
      rcases h3 with ⟨he, _⟩ | ⟨_, h3⟩
      · exact absurd (List.mem_append_right _ (List.mem_singleton.mpr (h1.trans he))) hud
      · rw [h3]
        exact hr.kept _ (hold x hx) (fun e => hud (List.mem_append_left _ (h1 ▸ e)))
  obtain ⟨n2, q2, he2, hi2, hr2, hq2⟩ := relaxAll_enq hnd0 v.adj_list _ _ hmid
    (fun a ha => hcl v0 hv0m a (hv0a ▸ ha))
  refine ⟨{ node_set := n2, q_of_indegree_0 := q2, popped_counter := st.popped_counter + 1,
            sorted_queue := st.sorted_queue ++ [{ v with top_num := st.popped_counter + 1 }] },
          ?_, hi2, ?_, rfl, hq2⟩
  · unfold sortStep
    simp only [hv, he2]
  · simp only
    rw [hr2]
    exact hrank

theorem enq_done_lt {N0 nodes : List (Vertex T)} {front : Vertex T} {q : List (Vertex T)}
    {done : List T} (h : EnqInv N0 nodes (front :: q) done) : done.length < N0.length := by
  have h1 := (List.subperm_of_subset h.pnodup (fun k hk => h.psub k hk)).length_le
  simp only [labels, List.length_append, List.length_map, List.length_cons] at h1
  omega

theorem sortLoop_enq {N0 : List (Vertex T)} (hnd0 : (labels N0).Nodup) (hcl : Closed N0)
    (rk0 : List (T × List T × Int)) :
    ∀ (fuel : Nat) (st : SortState T) (done : List T),
    EnqInv N0 st.node_set st.q_of_indegree_0 done →
    RankPos (ranked st.node_set) rk0 done →
    st.popped_counter = (done.length : Int) →
    N0.length < fuel + done.length →
    ∃ st1 done1, sortLoop fuel st = .ok st1 ∧ st1.q_of_indegree_0 = [] ∧
      EnqInv N0 st1.node_set [] done1 ∧
      RankPos (ranked st1.node_set) rk0 done1 ∧
      st1.popped_counter = (done1.length : Int) ∧
      done1 = done ++ dequeued fuel st ∧
      ∀ k ∈ done ++ labels st.q_of_indegree_0, k ∈ done1 := by
  intro fuel
  induction fuel with
  | zero =>
    intro st done h _ _ hlt
    have h1 := (List.subperm_of_subset h.pnodup (fun k hk => h.psub k hk)).length_le
    simp only [labels, List.length_append, List.length_map] at h1
    omega
  | succ fuel ih =>
    intro st done h hr hp hlt
    cases hq : st.q_of_indegree_0 with
    | nil =>
      refine ⟨st, done, ?_, hq, hq ▸ h, hr, hp, ?_, ?_⟩
      · simp only [sortLoop, hq]
      · simp [dequeued, hq]
      · intro k hk; simpa [labels] using hk
    | cons front q =>
      rw [hq] at h
      obtain ⟨st1, he, hi, hr1, hp1, hq1⟩ := sortStep_enq hnd0 hcl h hr hp
      have hp2 : st1.popped_counter = ((done ++ [front.label]).length : Int) := by
        rw [hp1, hp]; simp
      have hlt2 := enq_done_lt h
      obtain ⟨st2, done2, he2, hq2, hi2, hr2, hp3, hdone, hmono⟩ :=
        ih st1 (done ++ [front.label]) hi hr1 hp2 (by
          simp only [List.length_append, List.length_singleton]; omega)
      refine ⟨st2, done2, ?_, hq2, hi2, hr2, hp3, ?_, ?_⟩
      · simp only [sortLoop, hq, he, he2]
      · rw [hdone]; simp [dequeued, hq, he]
      · intro k hk
        rcases List.mem_append.mp hk with e | e
        · exact hmono k (List.mem_append_left _ (List.mem_append_left _ e))
        · simp only [labels, List.map_cons, List.mem_cons] at e
          rcases e with e | e
          · exact hmono k (List.mem_append_left _ (by rw [e]; simp))
          · exact hmono k (List.mem_append_right _ (hq1 k e))

theorem sortInit_enq (g : Graph T) (hnd0 : (labels g.node_set).Nodup) :
    EnqInv g.node_set (sortInit g).node_set (sortInit g).q_of_indegree_0 [] ∧
    RankPos (ranked (sortInit g).node_set) (ranked g.node_set) [] := by
  have hsub : (labels (sortInit g).q_of_indegree_0).Sublist (labels g.node_set) :=
    List.Sublist.map (fun v : Vertex T => v.label) (List.filter_sublist _)
  refine ⟨⟨rfl, ?_, ?_, ?_⟩, ⟨?_, ?_⟩⟩
  · simpa using hsub.nodup hnd0
  · intro k hk
    exact hsub.subset (by simpa using hk)
  · intro w hw hm
    have hm2 : w.label ∈ labels (g.node_set.filter (fun vert => decide (vert.indegree = 0))) := by
      simpa [sortInit] using hm
    obtain ⟨x, hx, hxl⟩ := List.mem_map.mp hm2
    have hx2 := List.mem_filter.mp hx
    have : x = w := eq_of_label_eq hnd0 hx2.1 hw hxl
    subst this
    have := hx2.2
    simp only [decide_eq_true_eq] at this
    omega
  · intro u _ hk; cases hk
  · intro u hu _; exact hu

/-- Outcome of `topological_sort` on a table with distinct keys and stored targets, whatever
the counters and ranks hold at the call: the loop ends within its fuel with an empty queue,
no label is dequeued twice, and the ranks are the positions in the order of dequeuing. -/
theorem topological_sort_total (g : Graph T) (hnd0 : (labels g.node_set).Nodup)
    (hcl : Closed g.node_set) :
    ∃ st, sortLoop (g.node_set.length + 1) (sortInit g) = .ok st ∧
      st.q_of_indegree_0 = [] ∧
      EnqInv g.node_set st.node_set [] (dequeued (g.node_set.length + 1) (sortInit g)) ∧
      RankPos (ranked st.node_set) (ranked g.node_set)
        (dequeued (g.node_set.length + 1) (sortInit g)) ∧
      st.popped_counter = ((dequeued (g.node_set.length + 1) (sortInit g)).length : Int) ∧
      ∀ k ∈ labels (sortInit g).q_of_indegree_0,
        k ∈ dequeued (g.node_set.length + 1) (sortInit g) := by
  obtain ⟨hi, hr⟩ := sortInit_enq g hnd0
  obtain ⟨st, done, h1, h2, h3, h4, h5, h6, h7⟩ :=
    sortLoop_enq hnd0 hcl (ranked g.node_set) (g.node_set.length + 1) (sortInit g) [] hi hr rfl
      (by simp)
  simp only [List.nil_append] at h6 h7
  subst h6
  exact ⟨st, h1, h2, h3, h4, h5, h7⟩

end EnqueueLemmas

/-! ## Consequences for `topological_sort` -/

section TotalLemmas

variable {T : Type} [DecidableEq T]

/-- Shape of the result of `topological_sort` on a table with distinct keys and stored
targets, whatever the counters and ranks hold at the call. -/
theorem topological_sort_shape (g : Graph T) (hnd0 : (labels g.node_set).Nodup)
    (hcl : Closed g.node_set) :
    ∃ st, sortLoop (g.node_set.length + 1) (sortInit g) = .ok st ∧
      st.q_of_indegree_0 = [] ∧
      g.topological_sort = .ok (decide (st.popped_counter = (g._size : Int)),
        { node_set := st.node_set, _size := g._size, sorted_queue := st.sorted_queue }) ∧
      g.dequeueOrder.Nodup ∧ (∀ k ∈ g.dequeueOrder, k ∈ labels g.node_set) ∧
      st.popped_counter = (g.dequeueOrder.length : Int) ∧
      g.dequeueOrder.length ≤ g.node_set.length ∧
      (∀ u ∈ st.node_set, u.label ∈ g.dequeueOrder →
        u.top_num = (g.dequeueOrder.indexOf u.label : Int) + 1 ∧ u.indegree ≤ 0) ∧
      (∀ u ∈ st.node_set, u.label ∉ g.dequeueOrder →
        (u.label, u.adj_list, u.top_num) ∈ ranked g.node_set) ∧
      (∀ k ∈ labels (sortInit g).q_of_indegree_0, k ∈ g.dequeueOrder) ∧
      skel st.node_set = skel g.node_set := by
  obtain ⟨st, h1, h2, h3, h4, h5, h6⟩ := topological_sort_total g hnd0 hcl
  have hnd : g.dequeueOrder.Nodup := by
    have := h3.pnodup
    simpa [labels] using this
  have hsub : ∀ k ∈ g.dequeueOrder, k ∈ labels g.node_set :=
    fun k hk => h3.psub k (List.mem_append_left _ hk)
  have hlen : g.dequeueOrder.length ≤ g.node_set.length := by
    have := (List.subperm_of_subset hnd hsub).length_le
    simpa [labels] using this
  refine ⟨st, h1, h2, topological_sort_of_loop g st h1, hnd, hsub, h5, hlen, ?_, ?_, h6,
    h3.skel_eq⟩
  · intro u hu hud
    refine ⟨h4.assigned (u.label, u.adj_list, u.top_num) (List.mem_map.mpr ⟨u, hu, rfl⟩) hud, ?_⟩
    exact h3.nonpos u hu (List.mem_append_left _ hud)
  · intro u hu hud
    exact h4.kept (u.label, u.adj_list, u.top_num) (List.mem_map.mpr ⟨u, hu, rfl⟩) hud

theorem mem_insertVertex {nodes : List (Vertex T)} {v x : Vertex T}
    (h : x ∈ insertVertex nodes v) : x ∈ nodes ∨ x = v := by
  unfold insertVertex at h
  cases hf : findVertex nodes v.label with
  | some y => rw [hf] at h; exact Or.inl h
  | none =>
    rw [hf] at h
    rcases List.mem_append.mp h with e | e
    · exact Or.inl e
    · exact Or.inr (List.mem_singleton.mp e)

theorem mem_foldl_insertVertex (vs : List (Vertex T)) : ∀ (nodes : List (Vertex T))
    (x : Vertex T), x ∈ vs.foldl insertVertex nodes → x ∈ nodes ∨ x ∈ vs := by
  induction vs with
  | nil => intro nodes x h; exact Or.inl h
  | cons v rest ih =>
    intro nodes x h
    rcases ih _ x h with e | e
    · rcases mem_insertVertex e with e2 | e2
      · exact Or.inl e2
      · exact Or.inr (e2 ▸ List.mem_cons_self _ _)
    · exact Or.inr (List.mem_cons_of_mem _ e)

/-- Every stored vertex of a freshly built graph is one of the parsed vertices. -/
theorem built_mem_parsed (input : List String) (x : Vertex String)
    (h : x ∈ (mainGraph input).node_set) : x ∈ parsedVertices input := by
  have hg : mainGraph input = _ := buildGraph_eq input {}
  rw [hg] at h
  rcases mem_foldl_insertVertex _ _ x h with e | e
  · cases e
  · exact e

theorem parsed_fresh (input : List String) (x : Vertex String)
    (h : x ∈ parsedVertices input) : x.indegree = 0 ∧ x.top_num = 0 := by
  unfold parsedVertices at h
  obtain ⟨l, _, hl⟩ := List.mem_filterMap.mp h
  unfold parsedVertex at hl
  cases ht : tokenize l with
  | nil => simp [ht] at hl
  | cons a rest =>
    simp only [ht, Option.some.injEq] at hl
    subst hl
    exact ⟨rfl, rfl⟩

/-- A sort that no `compute_indegree` precedes, on a table with distinct keys and stored
targets whose counters all read 0 and whose `_size` is the number of stored vertices:
every label is dequeued once and the verdict is `true`. -/
theorem sort_of_zero_counters (g : Graph T) (hnd0 : (labels g.node_set).Nodup)
    (hcl : Closed g.node_set) (hzero : ∀ v ∈ g.node_set, v.indegree = 0)
    (hsize : g._size = g.node_set.length) :
    ∃ g2, g.topological_sort = .ok (true, g2) ∧
      g.dequeueOrder.Perm (labels g.node_set) ∧
      skel g2.node_set = skel g.node_set ∧
      ∀ u ∈ g2.node_set, u.indegree ≤ 0 ∧
        u.top_num = (g.dequeueOrder.indexOf u.label : Int) + 1 := by
  obtain ⟨st, _, _, hts, hnd, hsub, hp, _, hass, _, hq, hsk⟩ :=
    topological_sort_shape g hnd0 hcl
  have hall : ∀ k ∈ labels g.node_set, k ∈ g.dequeueOrder := by
    intro k hk
    apply hq
    obtain ⟨x, hx, hxl⟩ := List.mem_map.mp hk
    have hm : x ∈ g.node_set.filter (fun vert => decide (vert.indegree = 0)) :=
      List.mem_filter.mpr ⟨hx, decide_eq_true (hzero x hx)⟩
    exact hxl ▸ List.mem_map_of_mem (fun v => v.label) hm
  have hperm : g.dequeueOrder.Perm (labels g.node_set) :=
    (List.subperm_of_subset hnd hsub).perm_of_length_le
      (List.subperm_of_subset hnd0 hall).length_le
  have hpop : st.popped_counter = (g._size : Int) := by
    rw [hp, hperm.length_eq, hsize]; simp [labels]
  refine ⟨{ node_set := st.node_set, _size := g._size, sorted_queue := st.sorted_queue }, ?_,
    hperm, hsk, ?_⟩
  · rw [hts]; simp [hpop]
  · intro u hu
    have hud : u.label ∈ g.dequeueOrder := by
      apply hall
      rw [← labels_of_skel hsk]
      exact List.mem_map_of_mem (fun v => v.label) hu
    exact ⟨(hass u hu hud).2, (hass u hu hud).1⟩

end TotalLemmas

/-! ## displayGraph read back by buildGraph -/

section RoundTripLemmas

theorem adjText_acc (l : List String) : ∀ (a b : String),
    l.foldl (fun acc i => acc ++ " " ++ i) (a ++ b) =
      a ++ l.foldl (fun acc i => acc ++ " " ++ i) b := by
  induction l with
  | nil => intro a b; rfl
  | cons x rest ih =>
    intro a b
    simp only [List.foldl_cons]
    rw [String.append_assoc a b " ", String.append_assoc a (b ++ " ") x, ih]

theorem vertexText_eq (os : String) (v : Vertex String) :
    vertexText os v = os ++ vertexLine v := by
  unfold vertexLine vertexText
  rw [String.append_assoc, adjText_acc, String.empty_append]

theorem displayGraph_eq (nodes : List (Vertex String)) : ∀ (os : String),
    nodes.foldl (fun acc pair => vertexText acc pair ++ "\n") os =
      os ++ linesText (nodes.map vertexLine) := by
  induction nodes with
  | nil => intro os; simp [linesText]
  | cons v rest ih =>
    intro os
    simp only [List.foldl_cons, List.map_cons, linesText]
    rw [ih, vertexText_eq]
    simp only [String.append_assoc]

theorem adjText_data (l : List String) : ∀ (b : String),
    (l.foldl (fun acc i => acc ++ " " ++ i) b).data = b.data ++ adjChars l := by
  induction l with
  | nil => intro b; simp [adjChars]
  | cons x rest ih =>
    intro b
    simp only [List.foldl_cons, adjChars]
    rw [ih]
    simp [String.data_append]

theorem vertexLine_data (v : Vertex String) :
    (vertexLine v).data = v.label.data ++ ' ' :: ':' :: adjChars v.adj_list := by
  unfold vertexLine vertexText
  rw [adjText_data]
  simp [String.data_append]

theorem getlinesAux_line (l : List Char) (hl : '\n' ∉ l) : ∀ (rest cur : List Char),
    getlinesAux (l ++ '\n' :: rest) cur = String.mk (cur.reverse ++ l) :: getlinesAux rest [] := by
  induction l with
  | nil => intro rest cur; simp [getlinesAux]
  | cons c cs ih =>
    intro rest cur
    have hc : c ≠ '\n' := fun e => hl (e ▸ List.mem_cons_self _ _)
    have hcs : '\n' ∉ cs := fun e => hl (List.mem_cons_of_mem _ e)
    show getlinesAux (c :: (cs ++ '\n' :: rest)) cur = _
    simp only [getlinesAux, hc, if_false]
    rw [ih hcs]
    simp

theorem getlines_linesText (ls : List String) (h : ∀ l ∈ ls, '\n' ∉ l.data) :
    getlines (linesText ls) = ls := by
  unfold getlines
  induction ls with
  | nil => rfl
  | cons l rest ih =>
    have e : (linesText (l :: rest)).toList = l.data ++ '\n' :: (linesText rest).toList := by
      simp [linesText, String.toList, String.data_append]
    rw [e, getlinesAux_line l.data (h l (List.mem_cons_self _ _))]
    rw [ih (fun x hx => h x (List.mem_cons_of_mem _ hx))]
    simp

theorem extractTokens_word (w : List Char) (hw : ∀ c ∈ w, isspace c = false) :
    ∀ (rest cur : List Char),
    extractTokens (w ++ rest) cur = extractTokens rest (w.reverse ++ cur) := by
  induction w with
  | nil => intro rest cur; rfl
  | cons c cs ih =>
    intro rest cur
    have hc : isspace c = false := hw c (List.mem_cons_self _ _)
    show extractTokens (c :: (cs ++ rest)) cur = _
    simp only [extractTokens, hc, Bool.false_eq_true, if_false]
    rw [ih (fun x hx => hw x (List.mem_cons_of_mem _ hx))]
    simp

theorem extractTokens_adjChars (adj : List String) (hadj : ∀ a ∈ adj, IsToken a) :
    ∀ (cur : List Char), cur ≠ [] →
    extractTokens (adjChars adj) cur = String.mk cur.reverse :: adj := by
  induction adj with
  | nil =>
    intro cur hcur
    have : cur.isEmpty = false := by
      cases cur with
      | nil => exact absurd rfl hcur
      | cons _ _ => rfl
    simp [adjChars, extractTokens, this]
  | cons a rest ih =>
    intro cur hcur
    have hne : cur.isEmpty = false := by
      cases cur with
      | nil => exact absurd rfl hcur
      | cons _ _ => rfl
    obtain ⟨ha1, ha2⟩ := hadj a (List.mem_cons_self _ _)
    have hsp : isspace ' ' = true := by decide
    simp only [adjChars, extractTokens, hsp, if_true, hne, Bool.false_eq_true, if_false]
    rw [extractTokens_word a.data ha2, List.append_nil,
      ih (fun x hx => hadj x (List.mem_cons_of_mem _ hx)) a.data.reverse
        (by simpa using ha1)]
    simp

/-- The line written for a vertex is read back as its label, the token `:` and its targets. -/
theorem tokenize_vertexLine (v : Vertex String) (hl : IsToken v.label)
    (hadj : ∀ a ∈ v.adj_list, IsToken a) :
    tokenize (vertexLine v) = v.label :: ":" :: v.adj_list := by
  unfold tokenize
  have e : (vertexLine v).toList = v.label.data ++ ' ' :: ':' :: adjChars v.adj_list :=
    vertexLine_data v
  rw [e, extractTokens_word v.label.data hl.2]
  have hsp : isspace ' ' = true := by decide
  have hcol : isspace ':' = false := by decide
  have hne : (v.label.data.reverse ++ []).isEmpty = false := by
    have := hl.1
    cases hd : v.label.data with
    | nil => exact absurd hd this
    | cons _ _ => simp
  simp only [extractTokens, hsp, if_true, hne, Bool.false_eq_true, if_false, hcol]
  rw [extractTokens_adjChars v.adj_list hadj [':'] (by simp)]
  simp

theorem vertexLine_not_empty (v : Vertex String) : (vertexLine v).isEmpty = false := by
  cases h : (vertexLine v).isEmpty with
  | false => rfl
  | true =>
    have e := (String.isEmpty_iff _).mp h
    have d := vertexLine_data v
    rw [e] at d
    have : ("" : String).data = [] := rfl
    rw [this] at d
    exact absurd d.symm (by simp)

theorem vertexLine_no_linefeed (v : Vertex String) (hl : IsToken v.label)
    (hadj : ∀ a ∈ v.adj_list, IsToken a) : '\n' ∉ (vertexLine v).data := by
  have hnl : isspace '\n' = true := by decide
  have hadjc : ∀ l : List String, (∀ a ∈ l, IsToken a) → '\n' ∉ adjChars l := by
    intro l
    induction l with
    | nil => intro _; simp [adjChars]
    | cons a rest ih =>
      intro h hm
      simp only [adjChars, List.mem_cons, List.mem_append] at hm
      rcases hm with e | e | e
      · exact absurd e (by decide)
      · have := (h a (List.mem_cons_self _ _)).2 _ e
        rw [hnl] at this
        cases this
      · exact ih (fun x hx => h x (List.mem_cons_of_mem _ hx)) e
  rw [vertexLine_data]
  intro hm
  simp only [List.mem_append, List.mem_cons] at hm
  rcases hm with e | e | e | e
  · have := hl.2 _ e
    rw [hnl] at this
    cases this
  · exact absurd e (by decide)
  · exact absurd e (by decide)
  · exact hadjc _ hadj e

theorem parsedVertices_display (nodes : List (Vertex String))
    (htok : ∀ v ∈ nodes, IsToken v.label ∧ ∀ a ∈ v.adj_list, IsToken a) :
    parsedVertices (nodes.map vertexLine) = nodes.map reread := by
  unfold parsedVertices linesBeforeBlank
  induction nodes with
  | nil => rfl
  | cons v rest ih =>
    have hv := htok v (List.mem_cons_self _ _)
    simp only [List.map_cons, List.takeWhile_cons, vertexLine_not_empty, Bool.not_false, if_true,
      List.filterMap_cons]
    have hp : parsedVertex (vertexLine v) = some (reread v) := by
      unfold parsedVertex
      rw [tokenize_vertexLine v hv.1 hv.2]
      rfl
    rw [hp]
    simp only
    rw [ih (fun x hx => htok x (List.mem_cons_of_mem _ hx))]

theorem extractTokens_tokens (l : List Char) : ∀ (cur : List Char),
    (∀ c ∈ cur, isspace c = false) → ∀ t ∈ extractTokens l cur, IsToken t := by
  induction l with
  | nil =>
    intro cur hcur t ht
    cases cur with
    | nil => simp [extractTokens] at ht
    | cons c cs =>
      simp only [extractTokens, List.isEmpty_cons, Bool.false_eq_true, if_false,
        List.mem_singleton] at ht
      subst ht
      exact ⟨by simp [String.toList], by
        intro x hx
        have hx2 : x ∈ (c :: cs).reverse := hx
        exact hcur x (List.mem_reverse.mp hx2)⟩
  | cons c cs ih =>
    intro cur hcur t ht
    by_cases hc : isspace c = true
    · cases cur with
      | nil =>
        simp only [extractTokens, hc, if_true, List.isEmpty_nil] at ht
        exact ih [] (by simp) t ht
      | cons d ds =>
        simp only [extractTokens, hc, if_true, List.isEmpty_cons, Bool.false_eq_true, if_false,
          List.mem_cons] at ht
        rcases ht with e | e
        · subst e
          exact ⟨by simp [String.toList], by
            intro x hx
            have hx2 : x ∈ (d :: ds).reverse := hx
            exact hcur x (List.mem_reverse.mp hx2)⟩
        · exact ih [] (by simp) t e
    · have hc2 : isspace c = false := by simpa using hc
      simp only [extractTokens, hc2, Bool.false_eq_true, if_false] at ht
      refine ih (c :: cur) ?_ t ht
      intro x hx
      rcases List.mem_cons.mp hx with e | e
      · exact e ▸ hc2
      · exact hcur x e

/-- Labels and targets of a freshly built graph are tokens. -/
theorem built_tokens (input : List String) (v : Vertex String)
    (hv : v ∈ (mainGraph input).node_set) :
    IsToken v.label ∧ ∀ a ∈ v.adj_list, IsToken a := by
  have hp := built_mem_parsed input v hv
  unfold parsedVertices at hp
  obtain ⟨l, _, hl⟩ := List.mem_filterMap.mp hp
  unfold parsedVertex at hl
  have htok : ∀ t ∈ tokenize l, IsToken t := extractTokens_tokens _ [] (by simp)
  cases ht : tokenize l with
  | nil => simp [ht] at hl
  | cons a rest =>
    simp only [ht, Option.some.injEq] at hl
    subst hl
    rw [ht] at htok
    exact ⟨htok a (List.mem_cons_self _ _), fun x hx => htok x (List.mem_cons_of_mem _ hx)⟩

/-- Reading back the text of `displayGraph`: for a table with distinct keys whose labels and
targets are tokens, `buildGraph` stores the vertex `reread v` for every stored `v`. -/
theorem display_reread (g : Graph String) (hnd : (labels g.node_set).Nodup)
    (htok : ∀ v ∈ g.node_set, IsToken v.label ∧ ∀ a ∈ v.adj_list, IsToken a) :
    Graph.buildGraphStream {} (g.displayGraph "") =
      { node_set := g.node_set.map reread, _size := g.node_set.length, sorted_queue := [] } := by
  unfold Graph.buildGraphStream Graph.displayGraph
  rw [displayGraph_eq, String.empty_append, getlines_linesText]
  · rw [buildGraph_eq, parsedVertices_display _ htok]
    have hl : labels (g.node_set.map reread) = labels g.node_set := by
      unfold labels; rw [List.map_map]; rfl
    rw [foldl_insert_of_nodup _ _ (by simpa [hl] using hnd)]
    simp
  · intro l hl
    obtain ⟨v, hv, rfl⟩ := List.mem_map.mp hl
    exact vertexLine_no_linefeed v (htok v hv).1 (htok v hv).2

end RoundTripLemmas

/-! ## The sort does not read the ranks -/

section RankBlindLemmas

variable {T : Type} [DecidableEq T]

theorem findVertex_map_noRank (nodes : List (Vertex T)) (k : T) :
    findVertex (nodes.map noRank) k = (findVertex nodes k).map noRank := by
  unfold findVertex
  rw [List.find?_map]
  rfl

theorem map_noRank_decr (nodes : List (Vertex T)) (a : T) :
    (updateVertex nodes a (fun v => { v with indegree := v.indegree - 1 })).map noRank =
      updateVertex (nodes.map noRank) a (fun v => { v with indegree := v.indegree - 1 }) := by
  unfold updateVertex
  rw [List.map_map, List.map_map]
  apply List.map_congr_left
  intro v _
  by_cases hv : v.label = a <;> simp [noRank, hv]

theorem map_noRank_setTop (nodes : List (Vertex T)) (k : T) (t : Int) :
    (updateVertex nodes k (fun x => { x with top_num := t })).map noRank = nodes.map noRank := by
  unfold updateVertex
  rw [List.map_map]
  apply List.map_congr_left
  intro v _
  by_cases hv : v.label = k <;> simp [noRank, hv]

theorem map_noRank_idem (l : List (Vertex T)) : (l.map noRank).map noRank = l.map noRank := by
  rw [List.map_map]
  apply List.map_congr_left
  intro v _
  rfl

theorem relaxEdge_norm (nodes q : List (Vertex T)) (a : T) :
    relaxEdge (nodes.map noRank) (q.map noRank) a = (relaxEdge nodes q a).map normPair := by
  unfold relaxEdge
  rw [findVertex_map_noRank]
  cases hf : findVertex nodes a with
  | none => rfl
  | some w =>
    simp only [Option.map_some']
    have e1 : (noRank w).indegree = w.indegree := rfl
    rw [e1]
    by_cases hz : w.indegree - 1 = 0
    · rw [if_pos hz, if_pos hz]
      simp only [Except.map, normPair, map_noRank_decr, List.map_append, List.map_cons,
        List.map_nil]
      rfl
    · rw [if_neg hz, if_neg hz]
      simp only [Except.map, normPair, map_noRank_decr]

theorem relaxAll_norm (l : List T) : ∀ (nodes q : List (Vertex T)),
    relaxAll (nodes.map noRank) (q.map noRank) l = (relaxAll nodes q l).map normPair := by
  induction l with
  | nil => intro nodes q; rfl
  | cons a rest ih =>
    intro nodes q
    simp only [relaxAll, relaxEdge_norm]
    cases he : relaxEdge nodes q a with
    | error e => rfl
    | ok pr =>
      obtain ⟨n1, q1⟩ := pr
      simp only [Except.map, normPair]
      exact ih n1 q1

/-- The `for` loop on two tables and queues that agree up to the ranks. -/
theorem relaxAll_sim (l : List T) {nodes q nodes1 q1 : List (Vertex T)}
    (hn : nodes.map noRank = nodes1.map noRank) (hq : q.map noRank = q1.map noRank) :
    (relaxAll nodes q l).map normPair = (relaxAll nodes1 q1 l).map normPair := by
  rw [← relaxAll_norm, ← relaxAll_norm, hn, hq]

/-- The body of the `while` loop on two states that agree up to the ranks. -/
theorem sortStep_eq (st : SortState T) (front : Vertex T) (q : List (Vertex T)) :
    sortStep st front q =
      match findVertex st.node_set front.label with
      | none => .error .out_of_range
      | some v =>
        match relaxAll (updateVertex st.node_set front.label
            (fun x => { x with top_num := st.popped_counter + 1 })) q v.adj_list with
        | .error e => .error e
        | .ok (nodes2, q2) =>
          .ok { node_set := nodes2, q_of_indegree_0 := q2,
                popped_counter := st.popped_counter + 1,
                sorted_queue := st.sorted_queue ++ [{ v with top_num := st.popped_counter + 1 }] } :=
  rfl

theorem sortStep_sim {st st1 : SortState T} {front front1 : Vertex T}
    {q q1 : List (Vertex T)}
    (hn : st.node_set.map noRank = st1.node_set.map noRank)
    (hp : st.popped_counter = st1.popped_counter)
    (hf : noRank front = noRank front1) (hq : q.map noRank = q1.map noRank) :
    (sortStep st front q).map normState = (sortStep st1 front1 q1).map normState := by
  have hfl : front.label = front1.label := congrArg (fun v => v.label) hf
  have hfind : (findVertex st.node_set front.label).map noRank =
      (findVertex st1.node_set front1.label).map noRank := by
    rw [← findVertex_map_noRank, ← findVertex_map_noRank, hn, hfl]
  rw [sortStep_eq, sortStep_eq]
  cases h1 : findVertex st.node_set front.label with
  | none =>
    rw [h1] at hfind
    cases h2 : findVertex st1.node_set front1.label with
    | none => rfl
    | some v1 => rw [h2] at hfind; cases hfind
  | some v =>
    rw [h1] at hfind
    cases h2 : findVertex st1.node_set front1.label with
    | none => rw [h2] at hfind; cases hfind
    | some v1 =>
      rw [h2] at hfind
      simp only [Option.map_some', Option.some.injEq] at hfind
      have hadj : v1.adj_list = v.adj_list := (congrArg (fun x => x.adj_list) hfind).symm
      have hsim : (relaxAll (updateVertex st.node_set front.label
          (fun x => { x with top_num := st.popped_counter + 1 })) q v.adj_list).map normPair =
          (relaxAll (updateVertex st1.node_set front1.label
          (fun x => { x with top_num := st1.popped_counter + 1 })) q1 v.adj_list).map normPair :=
        relaxAll_sim v.adj_list (by rw [map_noRank_setTop, map_noRank_setTop, hn]) hq
      simp only [hadj]
      cases r1 : relaxAll (updateVertex st.node_set front.label
          (fun x => { x with top_num := st.popped_counter + 1 })) q v.adj_list with
      | error e =>
        rw [r1] at hsim
        cases r2 : relaxAll (updateVertex st1.node_set front1.label
            (fun x => { x with top_num := st1.popped_counter + 1 })) q1 v.adj_list with
        | error e2 =>
          rw [r2] at hsim
          simp only [Except.map, Except.error.injEq] at hsim ⊢
          exact hsim
        | ok pr2 => rw [r2] at hsim; simp [Except.map] at hsim
      | ok pr =>
        rw [r1] at hsim
        cases r2 : relaxAll (updateVertex st1.node_set front1.label
            (fun x => { x with top_num := st1.popped_counter + 1 })) q1 v.adj_list with
        | error e2 => rw [r2] at hsim; simp [Except.map] at hsim
        | ok pr2 =>
          rw [r2] at hsim
          obtain ⟨n2, q2⟩ := pr
          obtain ⟨m2, p2⟩ := pr2
          simp only [Except.map, normPair, Except.ok.injEq, Prod.mk.injEq] at hsim
          simp only [Except.map, normState, hsim.1, hsim.2, hp]

/-- Two states that agree up to the ranks dequeue the same labels in the same order. -/
theorem dequeued_sim : ∀ (fuel : Nat) (st st1 : SortState T),
    normState st = normState st1 → dequeued fuel st = dequeued fuel st1 := by
  intro fuel
  induction fuel with
  | zero => intro st st1 _; rfl
  | succ fuel ih =>
    intro st st1 h
    simp only [normState, Prod.mk.injEq] at h
    obtain ⟨hn, hq, hp⟩ := h
    cases hq0 : st.q_of_indegree_0 with
    | nil =>
      rw [hq0] at hq
      have hq1 : st1.q_of_indegree_0 = [] := by
        cases hq2 : st1.q_of_indegree_0 with
        | nil => rfl
        | cons _ _ => rw [hq2] at hq; simp at hq
      simp only [dequeued, hq0, hq1]
    | cons front q =>
      rw [hq0] at hq
      cases hq2 : st1.q_of_indegree_0 with
      | nil => rw [hq2] at hq; simp at hq
      | cons front1 q1 =>
        rw [hq2] at hq
        simp only [List.map_cons, List.cons.injEq] at hq
        have hfl : front.label = front1.label := congrArg (fun v => v.label) hq.1
        have hsim := sortStep_sim hn hp hq.1 hq.2
        simp only [dequeued, hq0, hq2]
        cases r1 : sortStep st front q with
        | error e =>
          rw [r1] at hsim
          cases r2 : sortStep st1 front1 q1 with
          | error e2 => simp only [hfl]
          | ok s2 => rw [r2] at hsim; simp [Except.map] at hsim
        | ok s1 =>
          rw [r1] at hsim
          cases r2 : sortStep st1 front1 q1 with
          | error e2 => rw [r2] at hsim; simp [Except.map] at hsim
          | ok s2 =>
            rw [r2] at hsim
            simp only [Except.map, Except.ok.injEq] at hsim
            simp only [hfl, ih s1 s2 hsim]

end RankBlindLemmas

/-! ## Sorting twice -/

section TwiceLemmas

variable {T : Type} [DecidableEq T]

/-- The text that `print_top_sort` writes after a sort with verdict `true` on a graph whose
queue was empty: every label of `sorted_queue`, in push order, followed by one space. -/
theorem print_text_of_sorted (g g2 : Graph String) (os : String) (addNewline : Bool)
    (hempty : g.sorted_queue = [])
    (hsort : g.topological_sort = .ok (true, g2)) :
    g2.sorted_queue.map (fun v => v.top_num) =
      (List.range g2.sorted_queue.length).map (fun (i : Nat) => (i : Int) + 1) ∧
    g2.print_top_sort os addNewline =
      some (if addNewline then os ++ spaced (labels g2.sorted_queue) ++ "\n"
            else os ++ spaced (labels g2.sorted_queue),
        { g2 with sorted_queue := [] }) := by
  obtain ⟨added, ha, _, hat, hsz, hb⟩ := topological_sort_queue g g2 true hsort
  have hsq : g2.sorted_queue = added := by rw [ha, hempty]; simp
  have hlen : g2.sorted_queue.length = g2._size := by
    rw [hsq, hsz]; exact hb.mp rfl
  rw [← hsq] at hat
  refine ⟨hat, ?_⟩
  have hinc : (g2.sorted_queue.map (fun x => x.top_num)).Pairwise (fun a b => a < b) := by
    rw [hat]; exact ranks_increasing _
  unfold Graph.print_top_sort
  rw [← hlen, printLoop_increasing _ os hinc]

/-- The labels that the loop of `print_top_sort` reads after a sort with verdict `true` on
a graph whose queue was empty: those of `sorted_queue` in push order, all of them. -/
theorem topLabels_of_sorted (g g2 : Graph T) (hempty : g.sorted_queue = [])
    (hsort : g.topological_sort = .ok (true, g2)) :
    topLabels g2._size g2.sorted_queue = some (labels g2.sorted_queue, []) := by
  obtain ⟨added, ha, _, hat, hsz, hb⟩ := topological_sort_queue g g2 true hsort
  have hsq : g2.sorted_queue = added := by rw [ha, hempty]; simp
  have hlen : g2.sorted_queue.length = g2._size := by
    rw [hsq, hsz]; exact hb.mp rfl
  have hinc : (g2.sorted_queue.map (fun x => x.top_num)).Pairwise (fun a b => a < b) := by
    rw [hsq, hat]; exact ranks_increasing _
  rw [← hlen, topLabels_increasing _ hinc]

theorem inCount_of_skel {N N1 : List (Vertex T)} (h : skel N = skel N1) (k : T) :
    inCount N k = inCount N1 k := by
  have e : ∀ l : List (Vertex T), inCount l k = ((skel l).map (fun p => p.2.count k)).sum := by
    intro l; unfold inCount skel; rw [List.map_map]; rfl
  rw [e, e, h]

theorem counted_noRank {N N1 : List (Vertex T)} (h : skel N = skel N1) :
    (N.map (fun v => ({ v with indegree := (inCount N v.label : Int) } : Vertex T))).map noRank =
    (N1.map (fun v => ({ v with indegree := (inCount N1 v.label : Int) } : Vertex T))).map noRank := by
  have e : ∀ l : List (Vertex T),
      (l.map (fun v => ({ v with indegree := (inCount l v.label : Int) } : Vertex T))).map noRank =
      (skel l).map (fun p => Vertex.mk p.fst p.snd (inCount l p.fst : Int) 0) := by
    intro l; unfold skel; rw [List.map_map, List.map_map]; rfl
  rw [e, e, h]
  apply List.map_congr_left
  intro p _
  rw [inCount_of_skel h]

theorem sortInit_norm (g g1 : Graph T)
    (h : g.node_set.map noRank = g1.node_set.map noRank) :
    normState (sortInit g) = normState (sortInit g1) := by
  have hf : ∀ l : List (Vertex T),
      (l.filter (fun vert => decide (vert.indegree = 0))).map noRank =
      (l.map noRank).filter (fun vert => decide (vert.indegree = 0)) := by
    intro l
    rw [List.filter_map]
    rfl
  simp only [normState, sortInit, hf, h]

/-- Two graphs with the same keys, adjacency lists and `_size`, whatever their counters,
ranks and queues: `compute_indegree` followed by `topological_sort` gives the same verdict
on both and appends entries with the same labels and ranks to `sorted_queue`. -/
theorem second_sort_core (g g0 g2 : Graph T) (b : Bool)
    (hnd : (labels g.node_set).Nodup) (hcl : Closed g.node_set)
    (hsk : skel g0.node_set = skel g.node_set) (hsz : g0._size = g._size)
    (h : sortAfterIndegree g = .ok (b, g2)) :
    ∃ g3 added added0, sortAfterIndegree g0 = .ok (b, g3) ∧
      g2.sorted_queue = g.sorted_queue ++ added ∧
      g3.sorted_queue = g0.sorted_queue ++ added0 ∧
      labels added0 = labels added ∧
      added0.map (fun v => v.top_num) = added.map (fun v => v.top_num) ∧
      skel g3.node_set = skel g.node_set ∧ g3._size = g._size := by
  have hnd0 : (labels g0.node_set).Nodup := by rw [labels_of_skel hsk]; exact hnd
  have hcl0 : Closed g0.node_set := Closed_of_skel hsk.symm hcl
  obtain ⟨g1, hc1, hn1, _⟩ := compute_indegree_core g hcl
  obtain ⟨g1b, hc1b, hn1b, _⟩ := compute_indegree_core g0 hcl0
  obtain ⟨hsz1, hsq1⟩ := compute_indegree_frame g g1 hc1
  obtain ⟨hsz1b, hsq1b⟩ := compute_indegree_frame g0 g1b hc1b
  obtain ⟨hk1, _, _, _⟩ := compute_indegree_keeps g g1 hc1
  obtain ⟨hk1b, _, _, _⟩ := compute_indegree_keeps g0 g1b hc1b
  have hnorm : g1b.node_set.map noRank = g1.node_set.map noRank := by
    rw [hn1, hn1b]; exact counted_noRank hsk
  have hlen : g1b.node_set.length = g1.node_set.length :=
    length_of_skel (hk1b.trans (hsk.trans hk1.symm))
  have hdeq : g1b.dequeueOrder = g1.dequeueOrder := by
    unfold Graph.dequeueOrder
    rw [hlen]
    exact dequeued_sim _ _ _ (sortInit_norm g1b g1 hnorm)
  have h2 : g1.topological_sort = .ok (b, g2) := by
    unfold sortAfterIndegree at h
    rw [hc1] at h
    exact h
  obtain ⟨st, _, _, hts, _⟩ := topological_sort_shape g1b
    (by rw [labels_of_skel hk1b]; exact hnd0) (Closed_of_skel hk1b.symm hcl0)
  obtain ⟨added, ha, hal, hat, _, hb⟩ := topological_sort_queue g1 g2 b h2
  obtain ⟨added0, ha0, hal0, hat0, hsz3, hb0⟩ := topological_sort_queue g1b _ _ hts
  have hlab : labels added0 = labels added := by
    rw [hal0, hal]; exact hdeq
  have hlen2 : added0.length = added.length := by
    have := congrArg List.length hlab
    simpa [labels] using this
  have hverdict : decide (st.popped_counter = (g1b._size : Int)) = b := by
    cases hb1 : decide (st.popped_counter = (g1b._size : Int)) with
    | true =>
      have e := hb0.mp hb1
      rw [hlen2, hsz1b, hsz, ← hsz1] at e
      exact (hb.mpr e).symm
    | false =>
      cases hb2 : b with
      | false => rfl
      | true =>
        have e := hb.mp hb2
        rw [← hlen2, hsz1, ← hsz, ← hsz1b] at e
        have := hb0.mpr e
        rw [hb1] at this
        cases this
  have hfr := topological_sort_frame g1b _ _ hts
  refine ⟨_, added, added0, ?_, by rw [ha, hsq1], by rw [ha0, hsq1b], hlab, ?_,
    hfr.1.trans (hk1b.trans hsk), by rw [hfr.2, hsz1b, hsz]⟩
  · unfold sortAfterIndegree
    rw [hc1b]
    simp only
    rw [hts, hverdict]
  · rw [hat0, hat, hlen2]

end TwiceLemmas

/-! ## The extraction loop against the parsing rule -/

section RuleLemmas

/-- The loop of `buf >> data` delivers the pieces between whitespace characters that are not
empty; `cur` is the piece being read. -/
theorem extractTokens_eq_split (l : List Char) : ∀ (cur : List Char),
    extractTokens l cur =
      ((List.splitOnP.go isspace l cur).filter (fun w => !w.isEmpty)).map String.mk := by
  have hkeep : ∀ (w : List Char) (rest : List (List Char)), w.isEmpty = false →
      List.filter (fun w => !w.isEmpty) (w :: rest) =
        w :: List.filter (fun w => !w.isEmpty) rest := by
    intro w rest h
    simp [List.filter, h]
  have hdrop : ∀ (rest : List (List Char)),
      List.filter (fun w => !w.isEmpty) ([] :: rest) =
        List.filter (fun w => !w.isEmpty) rest := by
    intro rest
    simp [List.filter]
  have hrev : ∀ (d : Char) (ds : List Char), ((d :: ds).reverse).isEmpty = false := by
    intro d ds
    cases hr : (d :: ds).reverse with
    | nil => simp at hr
    | cons _ _ => rfl
  induction l with
  | nil =>
    intro cur
    cases cur with
    | nil => rfl
    | cons c cs =>
      simp only [extractTokens, List.splitOnP.go, List.isEmpty_cons, Bool.false_eq_true, if_false]
      rw [hkeep _ _ (hrev c cs)]
      rfl
  | cons c cs ih =>
    intro cur
    by_cases hc : isspace c = true
    · cases cur with
      | nil =>
        simp only [extractTokens, List.splitOnP.go, hc, if_true, List.isEmpty_nil]
        rw [ih [], List.reverse_nil, hdrop]
      | cons d ds =>
        simp only [extractTokens, List.splitOnP.go, hc, if_true, List.isEmpty_cons,
          Bool.false_eq_true, if_false]
        rw [ih [], hkeep _ _ (hrev d ds)]
        rfl
    · have hc2 : isspace c = false := by simpa using hc
      simp only [extractTokens, List.splitOnP.go, hc2, Bool.false_eq_true, if_false]
      exact ih (c :: cur)

/-- The tokens that the code extracts from a line are its whitespace-separated tokens. -/
theorem tokenize_eq_whitespaceTokens (string_line : String) :
    tokenize string_line = whitespaceTokens string_line := by
  unfold tokenize whitespaceTokens List.splitOnP
  exact extractTokens_eq_split _ []

theorem parsedVertex_eq_rule (string_line : String) :
    parsedVertex string_line = ruleVertex string_line := by
  unfold parsedVertex ruleVertex
  rw [tokenize_eq_whitespaceTokens]

theorem linesBeforeBlank_eq_rule (input : List String) :
    linesBeforeBlank input = input.takeWhile (fun string_line => decide (string_line ≠ "")) := by
  unfold linesBeforeBlank
  induction input with
  | nil => rfl
  | cons l rest ih =>
    by_cases hl : l = ""
    · subst hl
      have he : "".isEmpty = true := rfl
      simp [List.takeWhile, he]
    · have he : l.isEmpty = false := by
        cases h : l.isEmpty with
        | false => rfl
        | true => exact absurd ((String.isEmpty_iff l).mp h) hl
      simp only [List.takeWhile, he, Bool.not_false, hl, ne_eq, not_false_eq_true, decide_True]
      rw [ih]

/-- The vertices that the code parses are those that the parsing rule assigns. -/
theorem parsedVertices_eq_rule (input : List String) :
    parsedVertices input = ruleVertices input := by
  unfold parsedVertices ruleVertices
  rw [linesBeforeBlank_eq_rule]
  congr 1
  funext l
  exact parsedVertex_eq_rule l

end RuleLemmas

/-! ## Claims -/

section Claims

variable {T : Type} [DecidableEq T]

/-- C1: for a graph built by `buildGraph` from an empty graph (in whatever order the table
iterates) whose adjacency targets are all stored, if `compute_indegree` followed by
`topological_sort` returns true, then the graph is the one that was built and for every
edge `u -> k` the rank of `u` is strictly smaller than the rank of the vertex that `at(k)`
returns. -/
theorem topological_sort_respects_edges (input : List String) (g g2 : Graph String)
    (hperm : g.node_set.Perm (mainGraph input).node_set)
    (hsize : g._size = (mainGraph input)._size)
    (hclosed : Closed g.node_set)
    (hsort : sortAfterIndegree g = .ok (true, g2)) :
    skel g2.node_set = skel g.node_set ∧
    ∀ u ∈ g2.node_set, ∀ k ∈ u.adj_list, ∃ w, g2.vertexAt k = .ok w ∧ u.top_num < w.top_num :=
  rank_order_of_true g g2 (built_wf input g hperm hsize).1 hclosed
    (built_wf input g hperm hsize).2 hsort

/-- C1, on the input `B C` / `A B C` / `C`, sorted as `A B C`. -/
theorem topological_sort_respects_edges_witness :
    sortAfterIndegree (mainGraph ["B C", "A B C", "C"]) = .ok (true, sortedBAC) ∧
    skel sortedBAC.node_set = skel (mainGraph ["B C", "A B C", "C"]).node_set ∧
    ∀ u ∈ sortedBAC.node_set, ∀ k ∈ u.adj_list,
      ∃ w, sortedBAC.vertexAt k = .ok w ∧ u.top_num < w.top_num :=
  ⟨by decide,
   topological_sort_respects_edges ["B C", "A B C", "C"] (mainGraph ["B C", "A B C", "C"])
      sortedBAC (List.Perm.refl _) rfl (by decide) (by decide)⟩

/-- C2: the input `A` / `A` builds the acyclic graph with the single vertex `A` and no
edge, yet `compute_indegree` followed by `topological_sort` returns false: one vertex is
dequeued while `_size` is 2. -/
theorem acyclic_duplicate_line_reports_cycle :
    Closed (mainGraph ["A", "A"]).node_set ∧ ¬ HasCycle (mainGraph ["A", "A"]).node_set ∧
    sortAfterIndegree (mainGraph ["A", "A"]) = .ok (false,
      { node_set := [{ label := "A", adj_list := [], indegree := 0, top_num := 1 }],
        _size := 2,
        sorted_queue := [{ label := "A", adj_list := [], indegree := 0, top_num := 1 }] }) := by
  refine ⟨by decide, ?_, by decide⟩
  rintro ⟨a, ha⟩
  obtain ⟨p, ⟨u, hu, _, hb⟩, _⟩ := cycle_pred ha
  have hg : (mainGraph ["A", "A"]).node_set = [{ label := "A" }] := by decide
  rw [hg, List.mem_singleton] at hu
  subst hu
  cases hb

/-- C3: for a graph built by `buildGraph` from an empty graph (in whatever order the table
iterates) whose adjacency targets are all stored and which contains a directed cycle,
`compute_indegree` followed by `topological_sort` returns false. -/
theorem topological_sort_detects_cycle (input : List String) (g : Graph String)
    (hperm : g.node_set.Perm (mainGraph input).node_set)
    (hsize : g._size = (mainGraph input)._size)
    (hclosed : Closed g.node_set)
    (hcycle : HasCycle g.node_set) :
    ∃ g2, sortAfterIndegree g = .ok (false, g2) :=
  verdict_false_of_cycle g (built_wf input g hperm hsize).1 hclosed
    (built_wf input g hperm hsize).2 hcycle

/-- C3, on the self-loop `A A` and on the mutual cycle `A B` / `B A`. -/
theorem topological_sort_detects_cycle_witness :
    (HasCycle (mainGraph ["A A"]).node_set ∧
      ∃ g2, sortAfterIndegree (mainGraph ["A A"]) = .ok (false, g2)) ∧
    (HasCycle (mainGraph ["A B", "B A"]).node_set ∧
      ∃ g2, sortAfterIndegree (mainGraph ["A B", "B A"]) = .ok (false, g2)) :=
  have h1 : HasCycle (mainGraph ["A A"]).node_set :=
    ⟨"A", Relation.TransGen.single ⟨{ label := "A", adj_list := ["A"] }, by decide, rfl, by decide⟩⟩
  have h2 : HasCycle (mainGraph ["A B", "B A"]).node_set :=
    ⟨"A", Relation.TransGen.trans
      (Relation.TransGen.single ⟨{ label := "A", adj_list := ["B"] }, by decide, rfl, by decide⟩)
      (Relation.TransGen.single ⟨{ label := "B", adj_list := ["A"] }, by decide, rfl, by decide⟩)⟩
  ⟨⟨h1, topological_sort_detects_cycle ["A A"] _ (List.Perm.refl _) rfl (by decide) h1⟩,
   ⟨h2, topological_sort_detects_cycle ["A B", "B A"] _ (List.Perm.refl _) rfl (by decide) h2⟩⟩

/-- C4, as stated, fails on the input `A B` / `B C` / `C B`: the graph has the cycle
`B -> C -> B`, its `sorted_queue` is empty before the calls, the verdict is false, and
`sorted_queue` holds the vertex `A` afterwards. -/
theorem cycle_verdict_leaves_partial_queue :
    (mainGraph ["A B", "B C", "C B"]).sorted_queue = [] ∧
    HasCycle (mainGraph ["A B", "B C", "C B"]).node_set ∧
    ∃ g2, sortAfterIndegree (mainGraph ["A B", "B C", "C B"]) = .ok (false, g2) ∧
      g2.sorted_queue = [{ label := "A", adj_list := ["B"], indegree := 0, top_num := 1 }] ∧
      g2.sorted_queue ≠ [] :=
  ⟨by decide,
   ⟨"B", Relation.TransGen.trans
      (Relation.TransGen.single ⟨{ label := "B", adj_list := ["C"] }, by decide, rfl, by decide⟩)
      (Relation.TransGen.single ⟨{ label := "C", adj_list := ["B"] }, by decide, rfl, by decide⟩)⟩,
   ⟨{ node_set := [{ label := "A", adj_list := ["B"], indegree := 0, top_num := 1 },
                   { label := "B", adj_list := ["C"], indegree := 1, top_num := 0 },
                   { label := "C", adj_list := ["B"], indegree := 1, top_num := 0 }],
      _size := 3,
      sorted_queue := [{ label := "A", adj_list := ["B"], indegree := 0, top_num := 1 }] },
    by decide, rfl, by decide⟩⟩

/-- C4, amended: when `topological_sort` returns false on a graph whose `sorted_queue` was
empty, `sorted_queue` is not empty in general: it holds one entry per vertex dequeued before
the loop ended, in the order of dequeuing; each entry carries the label and the adjacency
list of the stored vertex that was dequeued and the ranks are 1, 2, ..., k in push order,
where the number k of entries differs from `size()`; the verdict is the only thing
returned. -/
theorem cycle_verdict_queue_contents (g g2 : Graph T) (hempty : g.sorted_queue = [])
    (hfalse : g.topological_sort = .ok (false, g2)) :
    labels g2.sorted_queue = g.dequeueOrder ∧
    (∀ v ∈ g2.sorted_queue, ∃ u ∈ g.node_set, u.label = v.label ∧ u.adj_list = v.adj_list) ∧
    g2.sorted_queue.map (fun v => v.top_num) =
      (List.range g2.sorted_queue.length).map (fun (i : Nat) => (i : Int) + 1) ∧
    (g2.sorted_queue.length : Int) ≠ g.size := by
  obtain ⟨added, ha, hal, hat, _, hb⟩ := topological_sort_queue g g2 false hfalse
  have hsq : g2.sorted_queue = added := by rw [ha, hempty]; simp
  refine ⟨by rw [hsq, hal]; rfl, topological_sort_pushes_stored g g2 false hempty hfalse,
    by rw [hsq]; exact hat, ?_⟩
  rw [hsq]
  unfold Graph.size
  intro e
  have e2 : added.length = g._size := by exact_mod_cast e
  have := hb.mpr e2
  cases this

/-- C4 amended, on the table that `compute_indegree` leaves for `A C` / `B C` / `C D` /
`D C`: the vertices `A` and `B` are dequeued and stay in the queue with the ranks 1 and 2. -/
theorem cycle_verdict_queue_contents_witness :
    (mainGraph ["A C", "B C", "C D", "D C"]).compute_indegree = .ok countedACD ∧
    countedACD.topological_sort = .ok (false, stuckACD) ∧
    countedACD.dequeueOrder = ["A", "B"] ∧
    (labels stuckACD.sorted_queue = countedACD.dequeueOrder ∧
      (∀ v ∈ stuckACD.sorted_queue,
        ∃ u ∈ countedACD.node_set, u.label = v.label ∧ u.adj_list = v.adj_list) ∧
      stuckACD.sorted_queue.map (fun v => v.top_num) =
        (List.range stuckACD.sorted_queue.length).map (fun (i : Nat) => (i : Int) + 1) ∧
      (stuckACD.sorted_queue.length : Int) ≠ countedACD.size) :=
  ⟨by decide, by decide, by decide,
   cycle_verdict_queue_contents countedACD stuckACD rfl (by decide)⟩

/-- C5: for every graph whose adjacency targets are all stored vertices, and whatever the
`indegree` fields hold beforehand, `compute_indegree` returns, and afterwards the `indegree`
of each vertex is the number of occurrences of its label over all adjacency lists of the
graph (duplicate edges and self-loops counted with multiplicity); labels, adjacency lists
and ranks are left as they were. -/
theorem compute_indegree_counts (g : Graph T) (hclosed : Closed g.node_set) :
    ∃ g1, g.compute_indegree = .ok g1 ∧
      g1.node_set = g.node_set.map (fun v => { v with indegree := (inCount g.node_set v.label : Int) }) ∧
      ∀ v ∈ g1.node_set, v.indegree = (inCount g.node_set v.label : Int) :=
  compute_indegree_core g hclosed

/-- C5, on the input `A B C` / `B C` / `C`. -/
theorem compute_indegree_counts_witness :
    Closed (mainGraph ["A B C", "B C", "C"]).node_set ∧
    ∃ g1, (mainGraph ["A B C", "B C", "C"]).compute_indegree = .ok g1 ∧
      g1.node_set = (mainGraph ["A B C", "B C", "C"]).node_set.map
        (fun v => { v with indegree := (inCount (mainGraph ["A B C", "B C", "C"]).node_set v.label : Int) }) ∧
      ∀ v ∈ g1.node_set, v.indegree = (inCount (mainGraph ["A B C", "B C", "C"]).node_set v.label : Int) :=
  ⟨by decide, compute_indegree_counts _ (by decide)⟩

/-- C6: `compute_indegree` ends with the `std::out_of_range` exception of `node_set.at`
exactly when some adjacency list holds a label that is not a stored vertex, and it returns
normally exactly when there is no such label. -/
theorem compute_indegree_fails_iff (g : Graph T) :
    (g.compute_indegree = .error .out_of_range ↔
      ∃ u ∈ g.node_set, ∃ w ∈ u.adj_list, w ∉ labels g.node_set) ∧
    ((∃ g1, g.compute_indegree = .ok g1) ↔
      ¬ ∃ u ∈ g.node_set, ∃ w ∈ u.adj_list, w ∉ labels g.node_set) := by
  by_cases hd : ∃ u ∈ g.node_set, ∃ w ∈ u.adj_list, w ∉ labels g.node_set
  · have hlab : labels (g.node_set.map (fun v => { v with indegree := (0 : Int) })) = labels g.node_set := by
      unfold labels; rw [List.map_map]; rfl
    have herr : g.compute_indegree = .error .out_of_range := by
      unfold Graph.compute_indegree
      have := incrLoop_error (g.node_set.map (fun v => { v with indegree := (0 : Int) }))
        (g.node_set.map (fun v => { v with indegree := (0 : Int) })) (by
          obtain ⟨u, hu, w, hw, hwn⟩ := hd
          exact ⟨_, List.mem_map_of_mem _ hu, w, hw, by rwa [hlab]⟩)
      simp only [this]
    refine ⟨⟨fun _ => hd, fun _ => herr⟩, ⟨?_, fun h => absurd hd h⟩⟩
    rintro ⟨g1, hg1⟩
    rw [herr] at hg1
    cases hg1
  · have hclosed : Closed g.node_set := by
      intro u hu w hw
      by_contra hn
      exact hd ⟨u, hu, w, hw, hn⟩
    obtain ⟨g1, hg1, _⟩ := compute_indegree_core g hclosed
    refine ⟨⟨?_, fun h => absurd h hd⟩, ⟨fun _ => hd, fun _ => ⟨g1, hg1⟩⟩⟩
    intro h
    rw [hg1] at h
    cases h

/-- C7: when the lines before the first empty line carry pairwise distinct first tokens,
`buildGraph` on an empty graph stores exactly one vertex per such line that has a token:
its label is the first whitespace-separated token of the line and its `adj_list` holds the
remaining tokens in their order, duplicates kept (`ruleVertices`, which splits each line at
its whitespace characters without the extraction loop of the code); the stored vertices are
those vertices, in whatever order the table iterates. -/
theorem buildGraph_distinct_labels (input : List String)
    (hdistinct : (labels (ruleVertices input)).Nodup) :
    (mainGraph input).node_set.Perm (ruleVertices input) := by
  rw [← parsedVertices_eq_rule] at hdistinct ⊢
  unfold mainGraph
  rw [buildGraph_eq]
  simp only
  rw [foldl_insert_of_nodup _ _ (by simpa using hdistinct)]
  simp

/-- C7, on four lines one of which holds only blanks and one of which repeats a target:
the graph stores `A -> B C B`, `B -> C` and `C`. -/
theorem buildGraph_distinct_labels_witness :
    (labels (ruleVertices ["A B C B", "  ", " B\tC ", "C"])).Nodup ∧
    (mainGraph ["A B C B", "  ", " B\tC ", "C"]).node_set.Perm
      (ruleVertices ["A B C B", "  ", " B\tC ", "C"]) ∧
    ruleVertices ["A B C B", "  ", " B\tC ", "C"] =
      [{ label := "A", adj_list := ["B", "C", "B"] },
       { label := "B", adj_list := ["C"] },
       { label := "C", adj_list := [] }] ∧
    (mainGraph ["A B C B", "  ", " B\tC ", "C"]).node_set =
      [{ label := "A", adj_list := ["B", "C", "B"] },
       { label := "B", adj_list := ["C"] },
       { label := "C", adj_list := [] }] :=
  ⟨by decide, buildGraph_distinct_labels _ (by decide), by decide, by decide⟩

/-- C8: `buildGraph` stops at the first empty line: the graph built from an input is the
graph built from the lines that precede its first empty line, so nothing that follows an
empty line is read. -/
theorem buildGraph_stops_at_blank (g : Graph String) (input : List String) :
    g.buildGraph input = g.buildGraph (linesBeforeBlank input) ∧
    ∀ pre post : List String, g.buildGraph (pre ++ "" :: post) = g.buildGraph pre := by
  have key : ∀ (l : List String) (g : Graph String),
      g.buildGraph l = g.buildGraph (linesBeforeBlank l) := by
    intro l
    induction l with
    | nil => intro g; rfl
    | cons a rest ih =>
      intro g
      by_cases ha : a.isEmpty
      · simp [Graph.buildGraph, linesBeforeBlank, ha]
      · simp only [linesBeforeBlank, List.takeWhile_cons, ha, Bool.not_false, if_true,
          Graph.buildGraph, Bool.false_eq_true, if_false]
        exact ih _
  refine ⟨key input g, ?_⟩
  intro pre
  induction pre generalizing g with
  | nil =>
    intro post
    have he : "".isEmpty = true := rfl
    simp [Graph.buildGraph, he]
  | cons a rest ih =>
    intro post
    by_cases ha : a.isEmpty
    · simp [Graph.buildGraph, ha]
    · simp only [List.cons_append, Graph.buildGraph, ha, Bool.false_eq_true, if_false]
      exact ih _ post

/-- C9: when a label is the first token of several lines, `buildGraph` on an empty graph
keeps the vertex of the first of these lines: `at(label)` returns it, and it is the only
stored vertex with that label; every stored vertex is the one parsed from the first line
that carries its label, so the adjacency of the later lines is nowhere in the graph. -/
theorem buildGraph_first_wins (input : List String) (t : String) (v : Vertex String)
    (hfirst : findVertex (parsedVertices input) t = some v) :
    (mainGraph input).vertexAt t = .ok v ∧
    (mainGraph input).node_set.filter (fun x => decide (x.label = t)) = [v] ∧
    ∀ x ∈ (mainGraph input).node_set, findVertex (parsedVertices input) x.label = some x := by
  have hfind : findVertex (mainGraph input).node_set t = some v := by
    unfold mainGraph
    rw [buildGraph_eq]
    simp only
    rw [findVertex_foldl_insert]
    simpa using hfirst
  have hnd : (labels (mainGraph input).node_set).Nodup := by
    unfold mainGraph
    rw [buildGraph_eq]
    exact nodup_foldl_insert _ _ (by simp [labels])
  refine ⟨?_, filter_label_of_find hnd hfind, ?_⟩
  · unfold Graph.vertexAt
    rw [hfind]
  · intro x hx
    have hx2 := findVertex_of_mem hnd hx
    unfold mainGraph at hx2
    rw [buildGraph_eq] at hx2
    simp only at hx2
    rw [findVertex_foldl_insert] at hx2
    simpa using hx2

/-- C9, on an input whose first and third lines both start with `A`. -/
theorem buildGraph_first_wins_witness :
    findVertex (parsedVertices ["A B", "B", "A C", "C"]) "A" = some { label := "A", adj_list := ["B"] } ∧
    (mainGraph ["A B", "B", "A C", "C"]).vertexAt "A" = .ok { label := "A", adj_list := ["B"] } ∧
    (mainGraph ["A B", "B", "A C", "C"]).node_set.filter (fun x => decide (x.label = "A")) =
      [{ label := "A", adj_list := ["B"] }] ∧
    ∀ x ∈ (mainGraph ["A B", "B", "A C", "C"]).node_set,
      findVertex (parsedVertices ["A B", "B", "A C", "C"]) x.label = some x :=
  ⟨by decide, buildGraph_first_wins _ _ _ (by decide)⟩

/-- C10: on the input `A` / `A` the graph stores one vertex while `size()` returns 2:
`_size` is incremented for every parsed line, also when `insert` finds the key present. -/
theorem size_counts_rejected_insert :
    (mainGraph ["A", "A"]).size = 2 ∧ (mainGraph ["A", "A"]).node_set.length = 1 ∧
    labels (mainGraph ["A", "A"]).node_set = ["A"] := by
  decide

/-- C11: `at(label)` ends with the `std::out_of_range` exception of `node_set.at` exactly
when the label is not a stored key; when it returns, the result is a stored vertex whose
label is the requested one, and every stored label is found. The member only reads the
table, so the embedding returns a vertex and no new graph. -/
theorem vertexAt_found_iff (g : Graph T) (label : T) :
    (g.vertexAt label = .error .out_of_range ↔ label ∉ labels g.node_set) ∧
    ((∃ v, g.vertexAt label = .ok v) ↔ label ∈ labels g.node_set) ∧
    (∀ v, g.vertexAt label = .ok v → v.label = label ∧ v ∈ g.node_set) := by
  unfold Graph.vertexAt
  cases hf : findVertex g.node_set label with
  | none =>
    have hn := findVertex_eq_none.mp hf
    refine ⟨⟨fun _ => hn, fun _ => rfl⟩, ⟨?_, fun h => absurd h hn⟩, ?_⟩
    · rintro ⟨v, hv⟩; cases hv
    · intro v hv; cases hv
  | some w =>
    obtain ⟨hwl, hwm⟩ := findVertex_some_label hf
    have hin : label ∈ labels g.node_set := hwl ▸ List.mem_map_of_mem (fun v => v.label) hwm
    refine ⟨⟨?_, fun h => absurd hin h⟩, ⟨fun _ => hin, fun _ => ⟨w, rfl⟩⟩, ?_⟩
    · intro h; cases h
    · intro v hv
      simp only [Except.ok.injEq] at hv
      subst hv
      exact ⟨hwl, hwm⟩

/-- C11, on the graph of `A B` / `B`: `at("A")` returns the vertex `A`, `at("Z")` throws. -/
theorem vertexAt_found_iff_witness :
    (mainGraph ["A B", "B"]).vertexAt "A" = .ok { label := "A", adj_list := ["B"] } ∧
    (mainGraph ["A B", "B"]).vertexAt "Z" = .error .out_of_range ∧
    (({ label := "A", adj_list := ["B"] } : Vertex String).label = "A" ∧
      ({ label := "A", adj_list := ["B"] } : Vertex String) ∈ (mainGraph ["A B", "B"]).node_set) :=
  ⟨by decide,
   (vertexAt_found_iff (mainGraph ["A B", "B"]) "Z").1.mpr (by decide),
   (vertexAt_found_iff (mainGraph ["A B", "B"]) "A").2.2 _ (by decide)⟩

/-- C12, as stated, fails on the input `A B` / `B`: both runs return true, but the second
run pushes its entries behind those of the first, so that `print_top_sort`, which would
write `A B ` after the first run, writes `A A ` after the second. The two entries of rank 1
are the same vertex, so the text does not depend on which of them the heap delivers. -/
theorem second_sort_prints_other_labels :
    sortAfterIndegree (mainGraph ["A B", "B"]) = .ok (true, sortedAB) ∧
    sortAfterIndegree sortedAB = .ok (true, sortedTwiceAB) ∧
    (sortedAB.print_top_sort "" true).map Prod.fst = some "A B \n" ∧
    (sortedTwiceAB.print_top_sort "" true).map Prod.fst = some "A A \n" ∧
    (topLabels sortedAB._size sortedAB.sorted_queue).map Prod.fst = some ["A", "B"] ∧
    (topLabels sortedTwiceAB._size sortedTwiceAB.sorted_queue).map Prod.fst = some ["A", "A"] := by
  decide

/-- C12, amended: for a graph built by `buildGraph` whose adjacency targets are all stored,
a second `compute_indegree` and `topological_sort` return the verdict of the first and push
entries with the same labels and the same ranks, behind the entries that the first run left
in `sorted_queue`; when the first run returned true on an empty queue and `print_top_sort`
has emptied the queue in between, `print_top_sort` reads the same label sequence and writes
the same text after the second run as after the first. -/
theorem second_sort_same_verdict (input : List String) (g g2 : Graph String) (b : Bool)
    (hperm : g.node_set.Perm (mainGraph input).node_set)
    (hsize : g._size = (mainGraph input)._size)
    (hclosed : Closed g.node_set)
    (hfirst : sortAfterIndegree g = .ok (b, g2)) :
    (∃ g3 added added0, sortAfterIndegree g2 = .ok (b, g3) ∧
      g2.sorted_queue = g.sorted_queue ++ added ∧
      g3.sorted_queue = g2.sorted_queue ++ added0 ∧
      labels added0 = labels added ∧
      added0.map (fun v => v.top_num) = added.map (fun v => v.top_num)) ∧
    (g.sorted_queue = [] → b = true → ∀ (os : String) (addNewline : Bool),
      ∃ text g3,
        g2.print_top_sort os addNewline = some (text, { g2 with sorted_queue := [] }) ∧
        sortAfterIndegree { g2 with sorted_queue := [] } = .ok (true, g3) ∧
        (g3.print_top_sort os addNewline).map Prod.fst = some text ∧
        (topLabels g2._size g2.sorted_queue).map Prod.fst = some (labels g2.sorted_queue) ∧
        (topLabels g3._size g3.sorted_queue).map Prod.fst = some (labels g2.sorted_queue)) := by
  have hnd := (built_wf input g hperm hsize).1
  obtain ⟨g1, hc1, _, _⟩ := compute_indegree_core g hclosed
  have hts1 : g1.topological_sort = .ok (b, g2) := by
    unfold sortAfterIndegree at hfirst
    rw [hc1] at hfirst
    exact hfirst
  obtain ⟨hk1, _, hsz1, hsq1⟩ := compute_indegree_keeps g g1 hc1
  obtain ⟨hfr1, hfr2⟩ := topological_sort_frame g1 g2 b hts1
  have hsk2 : skel g2.node_set = skel g.node_set := hfr1.trans hk1
  have hsz2 : g2._size = g._size := hfr2.trans hsz1
  constructor
  · obtain ⟨g3, added, added0, h3, ha, ha0, hl, ht, _⟩ :=
      second_sort_core g g2 g2 b hnd hclosed hsk2 hsz2 hfirst
    exact ⟨g3, added, added0, h3, ha, ha0, hl, ht⟩
  · intro hempty hb os addNewline
    subst hb
    obtain ⟨g3, added, added0, h3, ha, ha0, hl, _, _⟩ :=
      second_sort_core g { g2 with sorted_queue := [] } g2 true hnd hclosed hsk2 hsz2 hfirst
    have hp2 := (print_text_of_sorted g1 g2 os addNewline (by rw [hsq1, hempty]) hts1).2
    obtain ⟨g1d, hc1d, _, _⟩ := compute_indegree_core ({ g2 with sorted_queue := [] } : Graph String)
      (Closed_of_skel hsk2.symm hclosed)
    have hts3 : g1d.topological_sort = .ok (true, g3) := by
      unfold sortAfterIndegree at h3
      rw [hc1d] at h3
      exact h3
    obtain ⟨_, _, _, hsq1d⟩ :=
      compute_indegree_keeps ({ g2 with sorted_queue := [] } : Graph String) g1d hc1d
    have hp3 := (print_text_of_sorted g1d g3 os addNewline hsq1d hts3).2
    have hlab : labels g3.sorted_queue = labels g2.sorted_queue := by
      rw [ha0, ha, hempty]
      simpa using hl
    have ht2 := topLabels_of_sorted g1 g2 (by rw [hsq1, hempty]) hts1
    have ht3 := topLabels_of_sorted g1d g3 hsq1d hts3
    refine ⟨_, g3, hp2, h3, ?_, by rw [ht2]; rfl, by rw [ht3, hlab]; rfl⟩
    rw [hp3, hlab]
    rfl

/-- C12 amended, on the input `A B` / `B`. -/
theorem second_sort_same_verdict_witness :
    (∃ g3 added added0, sortAfterIndegree sortedAB = .ok (true, g3) ∧
      sortedAB.sorted_queue = (mainGraph ["A B", "B"]).sorted_queue ++ added ∧
      g3.sorted_queue = sortedAB.sorted_queue ++ added0 ∧
      labels added0 = labels added ∧
      added0.map (fun v => v.top_num) = added.map (fun v => v.top_num)) ∧
    ((mainGraph ["A B", "B"]).sorted_queue = [] → true = true →
      ∀ (os : String) (addNewline : Bool),
      ∃ text g3,
        sortedAB.print_top_sort os addNewline = some (text, { sortedAB with sorted_queue := [] }) ∧
        sortAfterIndegree { sortedAB with sorted_queue := [] } = .ok (true, g3) ∧
        (g3.print_top_sort os addNewline).map Prod.fst = some text ∧
        (topLabels sortedAB._size sortedAB.sorted_queue).map Prod.fst =
          some (labels sortedAB.sorted_queue) ∧
        (topLabels g3._size g3.sorted_queue).map Prod.fst = some (labels sortedAB.sorted_queue)) :=
  second_sort_same_verdict ["A B", "B"] (mainGraph ["A B", "B"]) sortedAB true
    (List.Perm.refl _) rfl (by decide) (by decide)

/-- C13, as stated, fails on the input `A B` / `B`: `displayGraph` writes `A : B` and `B :`,
and `buildGraph` reads the `:` back as an adjacency target, so the vertex `A` of the
rebuilt graph lists `:` and `B` where the original lists `B`. -/
theorem colon_read_back_as_target :
    (mainGraph ["A B", "B"]).displayGraph "" = "A : B\nB :\n" ∧
    (mainGraph ["A B", "B"]).vertexAt "A" = .ok { label := "A", adj_list := ["B"] } ∧
    (Graph.buildGraphStream {} ((mainGraph ["A B", "B"]).displayGraph "")).vertexAt "A" =
      .ok { label := "A", adj_list := [":", "B"] } ∧
    (Graph.buildGraphStream {} ((mainGraph ["A B", "B"]).displayGraph "")).node_set ≠
      (mainGraph ["A B", "B"]).node_set := by
  decide

/-- C13, amended: for a graph built by `buildGraph` (in whatever order the table iterates),
feeding the text written by `displayGraph` back into `buildGraph` on an empty graph
reconstructs a graph with the same vertex labels in which the adjacency of every vertex is
the original one preceded by the extra target `:`; its `size()` is the number of stored
vertices. -/
theorem display_roundtrip (input : List String) (g : Graph String)
    (hperm : g.node_set.Perm (mainGraph input).node_set) :
    (Graph.buildGraphStream {} (g.displayGraph "")).node_set.Perm (g.node_set.map reread) ∧
    (labels (Graph.buildGraphStream {} (g.displayGraph "")).node_set).Perm (labels g.node_set) ∧
    (Graph.buildGraphStream {} (g.displayGraph "")).size = (g.node_set.length : Int) := by
  have hnd : (labels g.node_set).Nodup := by
    have hp : (labels g.node_set).Perm (labels (mainGraph input).node_set) := hperm.map _
    rw [hp.nodup_iff]
    have hg : mainGraph input = _ := buildGraph_eq input {}
    rw [hg]
    exact nodup_foldl_insert _ _ (by simp [labels])
  have h := display_reread g hnd (fun v hv => built_tokens input v (hperm.subset hv))
  rw [h]
  refine ⟨List.Perm.refl _, ?_, rfl⟩
  have hl : labels (g.node_set.map reread) = labels g.node_set := by
    unfold labels; rw [List.map_map]; rfl
  simp only [hl]
  exact List.Perm.refl _

/-- C13 amended, on the input `A B` / `B`. -/
theorem display_roundtrip_witness :
    (Graph.buildGraphStream {} ((mainGraph ["A B", "B"]).displayGraph "")).node_set.Perm
      ((mainGraph ["A B", "B"]).node_set.map reread) ∧
    (labels (Graph.buildGraphStream {} ((mainGraph ["A B", "B"]).displayGraph "")).node_set).Perm
      (labels (mainGraph ["A B", "B"]).node_set) ∧
    (Graph.buildGraphStream {} ((mainGraph ["A B", "B"]).displayGraph "")).size =
      ((mainGraph ["A B", "B"]).node_set.length : Int) :=
  display_roundtrip ["A B", "B"] (mainGraph ["A B", "B"]) (List.Perm.refl _)

/-- C14, as stated, fails on the input `B C` / `A B C` / `C`: after the sort,
`print_top_sort` writes `A B C `, with a space after the last label, before the line feed. -/
theorem print_top_sort_trailing_space :
    sortAfterIndegree (mainGraph ["B C", "A B C", "C"]) = .ok (true, sortedBAC) ∧
    (sortedBAC.print_top_sort "" true).map Prod.fst = some "A B C \n" ∧
    (sortedBAC.print_top_sort "" false).map Prod.fst = some "A B C " ∧
    (sortedBAC.print_top_sort "" true).map Prod.fst ≠ some "A B C\n" ∧
    (sortedBAC.print_top_sort "" false).map Prod.fst ≠ some "A B C" := by
  decide

/-- C14, amended: after a call of `topological_sort` that returns true on a graph whose
`sorted_queue` was empty, the queue holds the ranks 1, 2, ... in push order, and
`print_top_sort` appends to the stream the labels in ascending rank order, each label
followed by one space (the last one too), then one line feed when `addNewline` is true and
nothing when it is false; the queue is empty afterwards. -/
theorem print_top_sort_text (g g2 : Graph String) (os : String) (addNewline : Bool)
    (hempty : g.sorted_queue = [])
    (hsort : g.topological_sort = .ok (true, g2)) :
    g2.sorted_queue.map (fun v => v.top_num) =
      (List.range g2.sorted_queue.length).map (fun (i : Nat) => (i : Int) + 1) ∧
    g2.print_top_sort os addNewline =
      some (if addNewline then os ++ spaced (labels g2.sorted_queue) ++ "\n"
            else os ++ spaced (labels g2.sorted_queue),
        { g2 with sorted_queue := [] }) :=
  print_text_of_sorted g g2 os addNewline hempty hsort

/-- C14 amended, on the graph that `compute_indegree` leaves for `B C` / `A B C` / `C`:
the text is `A B C ` and a line feed. -/
theorem print_top_sort_text_witness :
    sortedBAC.sorted_queue.map (fun v => v.top_num) =
      (List.range sortedBAC.sorted_queue.length).map (fun (i : Nat) => (i : Int) + 1) ∧
    sortedBAC.print_top_sort "" true =
      some (if true = true then "" ++ spaced (labels sortedBAC.sorted_queue) ++ "\n"
            else "" ++ spaced (labels sortedBAC.sorted_queue),
        { sortedBAC with sorted_queue := [] }) :=
  print_top_sort_text
    { node_set := [{ label := "B", adj_list := ["C"], indegree := 1 },
                   { label := "A", adj_list := ["B", "C"], indegree := 0 },
                   { label := "C", adj_list := [], indegree := 2 }],
      _size := 3, sorted_queue := [] }
    sortedBAC "" true rfl (by decide)

/-- C15: when the stream is empty or its first line is empty, `buildGraph` leaves the empty
graph with `size()` 0; `compute_indegree` followed by `topological_sort` returns true and
leaves the ordering empty, and `print_top_sort` writes no label (only the line feed when
it is asked for). -/
theorem empty_input_sorts (input : String)
    (hinput : input.toList = [] ∨ ∃ cs, input.toList = '\n' :: cs) :
    Graph.buildGraphStream {} input = {} ∧
    (Graph.buildGraphStream {} input).size = 0 ∧
    sortAfterIndegree (Graph.buildGraphStream {} input) = .ok (true, {}) ∧
    (∀ os : String, Graph.print_top_sort {} os true = some (os ++ "\n", {}) ∧
      Graph.print_top_sort {} os false = some (os, {})) ∧
    topLabels (0 : Nat) ([] : List (Vertex String)) = some ([], []) := by
  have hg : Graph.buildGraphStream {} input = {} := by
    unfold Graph.buildGraphStream getlines
    rcases hinput with h | ⟨cs, h⟩
    · rw [h]; rfl
    · rw [h]
      have he : "".isEmpty = true := rfl
      simp [getlinesAux, Graph.buildGraph, he]
  rw [hg]
  refine ⟨rfl, rfl, by decide, ?_, rfl⟩
  intro os
  constructor <;> rfl

/-- C15, on the empty stream and on a stream that starts with a line feed. -/
theorem empty_input_sorts_witness :
    (Graph.buildGraphStream {} "" = {} ∧
      sortAfterIndegree (Graph.buildGraphStream {} "") = .ok (true, {})) ∧
    (Graph.buildGraphStream {} "\nA B\nB\n" = {} ∧
      sortAfterIndegree (Graph.buildGraphStream {} "\nA B\nB\n") = .ok (true, {})) :=
  ⟨⟨(empty_input_sorts "" (Or.inl rfl)).1, (empty_input_sorts "" (Or.inl rfl)).2.2.1⟩,
   ⟨(empty_input_sorts "\nA B\nB\n" (Or.inr ⟨_, rfl⟩)).1,
    (empty_input_sorts "\nA B\nB\n" (Or.inr ⟨_, rfl⟩)).2.2.1⟩⟩

/-- C16: a line that is not empty and holds only whitespace yields no token; `buildGraph`
then creates no vertex and leaves `_size` as it is (the graph is unchanged by the line), and
goes on with the lines that follow, wherever the line stands among non-empty lines. -/
theorem buildGraph_skips_blank (g : Graph String) (string_line : String)
    (pre rest : List String)
    (hne : string_line.isEmpty = false)
    (hws : ∀ c ∈ string_line.toList, isspace c = true)
    (hpre : ∀ l ∈ pre, l.isEmpty = false) :
    tokenize string_line = [] ∧ buildLine g string_line = g ∧
    g.buildGraph (string_line :: rest) = g.buildGraph rest ∧
    g.buildGraph (pre ++ string_line :: rest) = g.buildGraph (pre ++ rest) := by
  have ht : tokenize string_line = [] := extractTokens_blank _ hws
  have hb : ∀ g0 : Graph String, buildLine g0 string_line = g0 := by
    intro g0; unfold buildLine; rw [ht]
  have hstep : ∀ g0 : Graph String,
      g0.buildGraph (string_line :: rest) = g0.buildGraph rest := by
    intro g0
    simp only [Graph.buildGraph, hne, Bool.false_eq_true, if_false, hb]
  refine ⟨ht, hb g, hstep g, ?_⟩
  rw [buildGraph_append pre g _ hpre, buildGraph_append pre g _ hpre, hstep]

/-- C16, on a line of two blanks and a tab between the lines `A B` and `B`. -/
theorem buildGraph_skips_blank_witness :
    tokenize "  \t" = [] ∧ buildLine {} "  \t" = {} ∧
    Graph.buildGraph {} ["  \t", "B"] = Graph.buildGraph {} ["B"] ∧
    Graph.buildGraph {} (["A B"] ++ "  \t" :: ["B"]) = Graph.buildGraph {} (["A B"] ++ ["B"]) :=
  buildGraph_skips_blank {} "  \t" ["A B"] ["B"] (by decide) (by decide) (by decide)

/-- C17: for a graph whose `sorted_queue` is empty and on which `topological_sort` returns
true, taking the top of `sorted_queue` `size()` times, as `print_top_sort` does, yields the
labels in the order in which the loop took them from the front of `q_of_indegree_0`, and
empties the queue: the priority queue is read as an append-only list would be. -/
theorem sorted_queue_is_dequeue_order (g g2 : Graph T)
    (hempty : g.sorted_queue = [])
    (hsort : g.topological_sort = .ok (true, g2)) :
    topLabels g2._size g2.sorted_queue =
      some (dequeued (g.node_set.length + 1) (sortInit g), []) ∧
    labels g2.sorted_queue = dequeued (g.node_set.length + 1) (sortInit g) := by
  obtain ⟨added, ha, hal, hat, hsz, hb⟩ := topological_sort_queue g g2 true hsort
  have hsq : g2.sorted_queue = added := by rw [ha, hempty]; simp
  have hlen : g2.sorted_queue.length = g2._size := by
    rw [hsq, hsz]; exact hb.mp rfl
  have hinc : (g2.sorted_queue.map (fun x => x.top_num)).Pairwise (fun a b => a < b) := by
    rw [hsq, hat]; exact ranks_increasing _
  refine ⟨?_, by rw [hsq, hal]⟩
  rw [← hlen, topLabels_increasing _ hinc, hsq, hal]

/-- C17, on the graph that `compute_indegree` leaves for `B C` / `A B C` / `C`. -/
theorem sorted_queue_is_dequeue_order_witness :
    topLabels sortedBAC._size sortedBAC.sorted_queue = some (["A", "B", "C"], []) ∧
    labels sortedBAC.sorted_queue = ["A", "B", "C"] :=
  sorted_queue_is_dequeue_order
    { node_set := [{ label := "B", adj_list := ["C"], indegree := 1 },
                   { label := "A", adj_list := ["B", "C"], indegree := 0 },
                   { label := "C", adj_list := [], indegree := 2 }],
      _size := 3, sorted_queue := [] }
    sortedBAC rfl (by decide)

/-- C18: for a graph built by `buildGraph` from an input with pairwise distinct labels (in
whatever order the table iterates) whose adjacency targets are all stored,
`topological_sort` called without `compute_indegree` returns true, with or without a cycle
in the graph: every stored label is dequeued exactly once, and afterwards no counter is
above 0 and every rank is the position in the order of dequeuing. -/
theorem sort_without_compute_indegree (input : List String) (g : Graph String)
    (hperm : g.node_set.Perm (mainGraph input).node_set)
    (hsize : g._size = (mainGraph input)._size)
    (hdistinct : (labels (parsedVertices input)).Nodup)
    (hclosed : Closed g.node_set) :
    ∃ g2, g.topological_sort = .ok (true, g2) ∧
      g.dequeueOrder.Perm (labels g.node_set) ∧
      skel g2.node_set = skel g.node_set ∧
      ∀ u ∈ g2.node_set, u.indegree ≤ 0 ∧
        u.top_num = (g.dequeueOrder.indexOf u.label : Int) + 1 :=
  sort_of_zero_counters g (built_wf input g hperm hsize).1 hclosed
    (fun v hv => (parsed_fresh input v (built_mem_parsed input v (hperm.subset hv))).1)
    (built_size_of_distinct input g hperm hsize hdistinct)

/-- C18, on the mutual cycle `A B` / `B A`: the verdict is true. -/
theorem sort_without_compute_indegree_witness :
    HasCycle (mainGraph ["A B", "B A"]).node_set ∧
    ∃ g2, (mainGraph ["A B", "B A"]).topological_sort = .ok (true, g2) ∧
      (mainGraph ["A B", "B A"]).dequeueOrder.Perm (labels (mainGraph ["A B", "B A"]).node_set) ∧
      skel g2.node_set = skel (mainGraph ["A B", "B A"]).node_set ∧
      ∀ u ∈ g2.node_set, u.indegree ≤ 0 ∧
        u.top_num = ((mainGraph ["A B", "B A"]).dequeueOrder.indexOf u.label : Int) + 1 :=
  ⟨⟨"A", Relation.TransGen.trans
      (Relation.TransGen.single ⟨{ label := "A", adj_list := ["B"] }, by decide, rfl, by decide⟩)
      (Relation.TransGen.single ⟨{ label := "B", adj_list := ["A"] }, by decide, rfl, by decide⟩)⟩,
   sort_without_compute_indegree ["A B", "B A"] (mainGraph ["A B", "B A"])
     (List.Perm.refl _) rfl (by decide) (by decide)⟩

/-- C19: on a graph with distinct keys whose adjacency targets are all stored,
`topological_sort` returns whatever the `indegree` fields hold at the call: the loop ends
within its fuel with an empty queue, no label is dequeued twice, so `popped_counter` ends
at the number of dequeued labels, which is at most the number of stored vertices; the ranks
assigned by the call are the positions in the order of dequeuing, hence pairwise distinct,
and when every rank was 0 at the call the non-zero ranks are pairwise distinct. -/
theorem topological_sort_terminates (g : Graph T) (hkeys : (labels g.node_set).Nodup)
    (hclosed : Closed g.node_set) :
    ∃ st b g2, sortLoop (g.node_set.length + 1) (sortInit g) = .ok st ∧
      st.q_of_indegree_0 = [] ∧
      g.topological_sort = .ok (b, g2) ∧ g2.node_set = st.node_set ∧
      g.dequeueOrder.Nodup ∧
      st.popped_counter = (g.dequeueOrder.length : Int) ∧
      st.popped_counter ≤ (g.node_set.length : Int) ∧
      (∀ u ∈ g2.node_set, u.label ∈ g.dequeueOrder →
        u.top_num = (g.dequeueOrder.indexOf u.label : Int) + 1) ∧
      (∀ u ∈ g2.node_set, ∀ w ∈ g2.node_set, u.label ∈ g.dequeueOrder →
        w.label ∈ g.dequeueOrder → u.top_num = w.top_num → u = w) ∧
      ((∀ v ∈ g.node_set, v.top_num = 0) →
        ∀ u ∈ g2.node_set, ∀ w ∈ g2.node_set, u.top_num ≠ 0 → u.top_num = w.top_num → u = w) := by
  obtain ⟨st, hloop, hq, hts, hnd, _, hp, hlen, hass, hkept, _, hsk⟩ :=
    topological_sort_shape g hkeys hclosed
  have hnd2 : (labels st.node_set).Nodup := by rw [labels_of_skel hsk]; exact hkeys
  have hdist : ∀ u ∈ st.node_set, ∀ w ∈ st.node_set, u.label ∈ g.dequeueOrder →
      w.label ∈ g.dequeueOrder → u.top_num = w.top_num → u = w := by
    intro u hu w hw hud hwd he
    rw [(hass u hu hud).1, (hass w hw hwd).1] at he
    have he2 : g.dequeueOrder.indexOf u.label = g.dequeueOrder.indexOf w.label := by
      have := add_right_cancel he
      exact_mod_cast this
    exact eq_of_label_eq hnd2 hu hw ((List.indexOf_inj hud hwd).mp he2)
  refine ⟨st, _, _, hloop, hq, hts, rfl, hnd, hp, ?_, fun u hu hud => (hass u hu hud).1, hdist, ?_⟩
  · rw [hp]; exact_mod_cast hlen
  · intro hfresh u hu w hw hne he
    have hin : ∀ x ∈ st.node_set, x.top_num ≠ 0 → x.label ∈ g.dequeueOrder := by
      intro x hx hx0
      by_contra hxd
      obtain ⟨x0, hx0m, hx0e⟩ := List.mem_map.mp (hkept x hx hxd)
      simp only [Prod.mk.injEq] at hx0e
      exact hx0 (by rw [← hx0e.2.2]; exact hfresh x0 hx0m)
    exact hdist u hu w hw (hin u hu hne) (hin w hw (he ▸ hne)) he

/-- C19, on a graph with the cycle `A -> B -> A` whose counters read 0 and 1: both vertices
are dequeued once. -/
theorem topological_sort_terminates_witness :
    ∃ st b g2, sortLoop (cycleAB.node_set.length + 1) (sortInit cycleAB) = .ok st ∧
      st.q_of_indegree_0 = [] ∧
      cycleAB.topological_sort = .ok (b, g2) ∧ g2.node_set = st.node_set ∧
      cycleAB.dequeueOrder.Nodup ∧
      st.popped_counter = (cycleAB.dequeueOrder.length : Int) ∧
      st.popped_counter ≤ (cycleAB.node_set.length : Int) ∧
      (∀ u ∈ g2.node_set, u.label ∈ cycleAB.dequeueOrder →
        u.top_num = (cycleAB.dequeueOrder.indexOf u.label : Int) + 1) ∧
      (∀ u ∈ g2.node_set, ∀ w ∈ g2.node_set, u.label ∈ cycleAB.dequeueOrder →
        w.label ∈ cycleAB.dequeueOrder → u.top_num = w.top_num → u = w) ∧
      ((∀ v ∈ cycleAB.node_set, v.top_num = 0) →
        ∀ u ∈ g2.node_set, ∀ w ∈ g2.node_set, u.top_num ≠ 0 → u.top_num = w.top_num → u = w) :=
  topological_sort_terminates cycleAB (by decide) (by decide)

/-- C20: when `compute_indegree` returns it has changed no key, no adjacency list, no
`top_num`, and neither `_size` nor `sorted_queue`; when `topological_sort` returns it has
changed no key, no adjacency list and not `_size`. -/
theorem sort_ops_frame (g : Graph T) :
    (∀ g1, g.compute_indegree = .ok g1 →
      skel g1.node_set = skel g.node_set ∧ ranked g1.node_set = ranked g.node_set ∧
      g1.size = g.size ∧ g1.sorted_queue = g.sorted_queue) ∧
    (∀ b g2, g.topological_sort = .ok (b, g2) →
      skel g2.node_set = skel g.node_set ∧ g2.size = g.size) := by
  constructor
  · intro g1 h
    obtain ⟨h1, h2, h3, h4⟩ := compute_indegree_keeps g g1 h
    exact ⟨h1, h2, by unfold Graph.size; rw [h3], h4⟩
  · intro b g2 h
    obtain ⟨h1, h2⟩ := topological_sort_frame g g2 b h
    exact ⟨h1, by unfold Graph.size; rw [h2]⟩

/-- C20, on the graph of `B C` / `A B C` / `C` with the ranks and counters left by a sort. -/
theorem sort_ops_frame_witness :
    (skel countedBAC.node_set = skel sortedBAC.node_set ∧
      ranked countedBAC.node_set = ranked sortedBAC.node_set ∧
      countedBAC.size = sortedBAC.size ∧ countedBAC.sorted_queue = sortedBAC.sorted_queue) ∧
    (skel resortedBAC.node_set = skel sortedBAC.node_set ∧ resortedBAC.size = sortedBAC.size) :=
  ⟨(sort_ops_frame sortedBAC).1 countedBAC (by decide),
   (sort_ops_frame sortedBAC).2 true resortedBAC (by decide)⟩

end Claims

end PA5
